import Mathlib

/-!
# SimpleOPE: order-preserving encoding

A shallow embedding of `src/sope_encode.h` (the scalar codec) and of
`examples/sope_encoded_record.h` (the record buffer), with the order and
round-trip properties of the encoders.

Conventions of the embedding:

* a byte is a natural number below 256, a memory block is a `List Nat`;
* a `uint32_t` / `uint64_t` is a natural number below `2 ^ 32` / `2 ^ 64`, an
  `int` / `long` is an integer of the two's complement range, conversions
  between them are written out (`toU32`, `toI32`, ...);
* a `double` is its 64-bit pattern (what `memcpy(&ud, &dd, 8)` yields);
* the overloads of `encode` and `put` carry the operand type in their name;
* `le` is the byte order of the host: `true` on a little-endian host.
-/

namespace sope

/-! ## Memory images of fixed-width integers -/

/-- The `n` low-order bytes of `x`, least significant first: the memory image
of an `n`-byte unsigned integer on a little-endian host. -/
def leBytes : Nat → Nat → List Nat
  | 0, _ => []
  | n + 1, x => x % 256 :: leBytes n (x / 256)

/-- The `n` low-order bytes of `x`, most significant first: the memory image
on a big-endian host, and the big-endian serialisation. -/
def beBytes (n x : Nat) : List Nat := (leBytes n x).reverse

/-- The unsigned integer whose little-endian memory image is the list. -/
def ofLE : List Nat → Nat
  | [] => 0
  | b :: bs => b + 256 * ofLE bs

/-- The unsigned integer whose big-endian memory image is the list. -/
def ofBE (l : List Nat) : Nat := ofLE l.reverse

/-- Storing an `n`-byte unsigned integer through a pointer,
`*reinterpret_cast<uintN_t*>(p) = x`: the bytes that land in memory. -/
def store (le : Bool) (n x : Nat) : List Nat :=
  if le then leBytes n x else beBytes n x

/-- Loading an unsigned integer through a pointer,
`*reinterpret_cast<const uintN_t*>(p)`, from the bytes found there. -/
def load (le : Bool) (l : List Nat) : Nat :=
  if le then ofLE l else ofBE l

/-- Reversal of the byte order of an `n`-byte unsigned integer. -/
def bitswap (n x : Nat) : Nat := ofLE (beBytes n x)

/-- Modelled from the spec: `endian_encode.h` is not among the sources. Its
`_enc32` is the swap primitive of spec 4.1.8, "yields big-endian bytes
regardless of host endianness": the byte swap on a little-endian host, the
identity on a big-endian one. -/
def _enc32 (le : Bool) (v : Nat) : Nat := if le then bitswap 4 v else v % 2 ^ 32

/-- Modelled from the spec: the inverse swap primitive of `endian_encode.h`
(spec 4.1.8), the same byte swap as `_enc32`. -/
def _dec32 (le : Bool) (v : Nat) : Nat := if le then bitswap 4 v else v % 2 ^ 32

/-- Modelled from the spec: the 64-bit swap primitive of `endian_encode.h`
(spec 4.1.8). -/
def _enc64 (le : Bool) (v : Nat) : Nat := if le then bitswap 8 v else v % 2 ^ 64

/-- Modelled from the spec: the inverse 64-bit swap primitive of
`endian_encode.h` (spec 4.1.8). -/
def _dec64 (le : Bool) (v : Nat) : Nat := if le then bitswap 8 v else v % 2 ^ 64

/-- Conversion `int → uint32_t`. -/
def toU32 (i : Int) : Nat := (i % 2 ^ 32).toNat

/-- Conversion `uint32_t → int` (two's complement). -/
def toI32 (u : Nat) : Int :=
  if u % 2 ^ 32 < 2 ^ 31 then ((u % 2 ^ 32 : Nat) : Int) else ((u % 2 ^ 32 : Nat) : Int) - 2 ^ 32

/-- Conversion `long → uint64_t`. -/
def toU64 (i : Int) : Nat := (i % 2 ^ 64).toNat

/-- Conversion `uint64_t → long` (two's complement). -/
def toI64 (u : Nat) : Int :=
  if u % 2 ^ 64 < 2 ^ 63 then ((u % 2 ^ 64 : Nat) : Int) else ((u % 2 ^ 64 : Nat) : Int) - 2 ^ 64

/-- The C library `memcmp(s1, s2, n)` on the bytes found at the two pointers:
the sign of the first difference among the first `n` bytes, `0` when there is
none. The comparison stops where either block ends. -/
def memcmp : List Nat → List Nat → Nat → Int
  | a :: s1, b :: s2, n + 1 => if a = b then memcmp s1 s2 n else if a < b then -1 else 1
  | _, _, _ => 0

/-! ## Scalar codec (`sope_encode.h`) -/

/-- The overload `encode(int ii, bool asc)`. -/
def encode_int (le : Bool) (ii : Int) (asc : Bool) : Nat :=
  let ui := if asc then toU32 ii ^^^ 0x80000000 else toU32 ii ^^^ 0x7FFFFFFF
  _enc32 le ui

/-- The overload `decode_int(uint32_t ui, bool asc)`. -/
def decode_int (le : Bool) (ui : Nat) (asc : Bool) : Int :=
  let nui := _dec32 le ui
  toI32 (if asc then nui ^^^ 0x80000000 else nui ^^^ 0x7FFFFFFF)

/-- The overload `decode_int(const void* p, bool asc)`, the pointer addressing the bytes `p`. -/
def decode_int_ptr (le : Bool) (p : List Nat) (asc : Bool) : Int :=
  let ui := load le (p.take 4)
  let nui := _dec32 le ui
  toI32 (if asc then nui ^^^ 0x80000000 else nui ^^^ 0x7FFFFFFF)

/-- The overload `encode(long ll, bool asc)`; "Date uses this for encode". -/
def encode_long (le : Bool) (ll : Int) (asc : Bool) : Nat :=
  let ul := if asc then toU64 ll ^^^ 0x8000000000000000 else toU64 ll ^^^ 0x7FFFFFFFFFFFFFFF
  _enc64 le ul

/-- The overload `decode_long(uint64_t ul, bool asc)`. -/
def decode_long (le : Bool) (ul : Nat) (asc : Bool) : Int :=
  let nul := _dec64 le ul
  toI64 (if asc then nul ^^^ 0x8000000000000000 else nul ^^^ 0x7FFFFFFFFFFFFFFF)

/-- The overload `decode_long(const void* p, bool asc)`. -/
def decode_long_ptr (le : Bool) (p : List Nat) (asc : Bool) : Int :=
  let ul := load le (p.take 8)
  let nul := _dec64 le ul
  toI64 (if asc then nul ^^^ 0x8000000000000000 else nul ^^^ 0x7FFFFFFFFFFFFFFF)

/-- The overload `decode_date(uint64_t ul, bool asc)`; `Date` is `int64_t`. -/
def decode_date (le : Bool) (ul : Nat) (asc : Bool) : Int :=
  let nul := _dec64 le ul
  toI64 (if asc then nul ^^^ 0x8000000000000000 else nul ^^^ 0x7FFFFFFFFFFFFFFF)

/-- The overload `decode_date(const void* p, bool asc)`. -/
def decode_date_ptr (le : Bool) (p : List Nat) (asc : Bool) : Int :=
  let ul := load le (p.take 8)
  let nul := _dec64 le ul
  toI64 (if asc then nul ^^^ 0x8000000000000000 else nul ^^^ 0x7FFFFFFFFFFFFFFF)

/-- The overload `encode(Timestamp ts, bool asc)`; `Timestamp` is `uint64_t`. -/
def encode_timestamp (le : Bool) (ts : Nat) (asc : Bool) : Nat :=
  let nul := _enc64 le ts
  if asc then nul else nul ^^^ 0xFFFFFFFFFFFFFFFF

/-- The function `decode_timestamp(const void* p, bool asc)`. -/
def decode_timestamp (le : Bool) (p : List Nat) (asc : Bool) : Nat :=
  let ul := load le (p.take 8)
  let nul := _dec64 le ul
  if asc then nul else nul ^^^ 0xFFFFFFFFFFFFFFFF

/-- The overload `encode(double dd, bool asc)`, `dd` given by its bit pattern
(the `ud` after the `memcpy`). -/
def encode_double (le : Bool) (dd : Nat) (asc : Bool) : Nat :=
  let ud := dd % 2 ^ 64
  let ud :=
    if asc then
      (if ud &&& 0x8000000000000000 ≠ 0 then ud ^^^ 0xFFFFFFFFFFFFFFFF
       else ud ^^^ 0x8000000000000000)
    else
      (if ud &&& 0x8000000000000000 ≠ 0 then ud else ud ^^^ 0x7FFFFFFFFFFFFFFF)
  _enc64 le ud

/-- The padding length for strings. -/
def STRING_PAD_LEN : Nat := 2

/-- The padding length for bytes. -/
def BINARY_PAD_LEN : Nat := 2

/-- The overload `encode(const char* ps, uint32_t len, void* pBuf, bool asc)`:
`ps` is the list of the `len` bytes at the pointer; the result is the bytes
written to `pBuf[0 .. len + 2)` and the returned `uint32_t`. -/
def encode_string (ps : List Nat) (asc : Bool) : List Nat × Nat :=
  if asc then
    (ps ++ [0, 0], (ps.length + STRING_PAD_LEN) % 2 ^ 32)
  else
    (ps.map (fun c => (c ^^^ 0xFF) % 256) ++ [0xFF, 0xFF], (ps.length + STRING_PAD_LEN) % 2 ^ 32)

/-- The ascending `for` loop of the binary encoder: the bytes it stores for
the payload bytes not yet consumed, in the order of the stores. -/
def encode_binary_asc_loop : List Nat → List Nat
  | [] => []
  | b :: pb => if b = 0 then b :: 0xFF :: encode_binary_asc_loop pb
               else b :: encode_binary_asc_loop pb

/-- The descending `for` loop of the binary encoder: the bytes it stores, in
the order of the stores. -/
def encode_binary_desc_loop : List Nat → List Nat
  | [] => []
  | b :: pb => if b = 0 then (b ^^^ 0xFF) % 256 :: 0 :: encode_binary_desc_loop pb
               else (b ^^^ 0xFF) % 256 :: encode_binary_desc_loop pb

/-- The stores of the binary encoder in their order, the two terminator bytes
last, with the count the encoder returns. This is the block the encoder
leaves in `pBuf` when its loop stores fewer than `2 ^ 32` bytes
(`encode_binary_eq_seq`); beyond that the store index has wrapped and the
block is that of `encode_binary`. -/
def encode_binary_seq (pb : List Nat) (asc : Bool) : List Nat × Nat :=
  if asc then
    let out := encode_binary_asc_loop pb
    (out ++ [0, 0], (out.length % 2 ^ 32 + BINARY_PAD_LEN) % 2 ^ 32)
  else
    let out := encode_binary_desc_loop pb
    (out ++ [0xFF, 0xFF], (out.length % 2 ^ 32 + BINARY_PAD_LEN) % 2 ^ 32)

/-- The store `*(pBuf + i) = b` on `img`, the bytes of `pBuf` stored so far: a
byte stored before is replaced, a byte behind the last one is added. The
stores of the encoder never skip a byte (`encode_binary_asc_run_index`). -/
def pokeAt (img : List Nat) (i b : Nat) : List Nat :=
  if i < img.length then img.set i b else img ++ [b]

/-- The ascending `for` loop of the binary encoder, from the payload bytes
not yet consumed, the bytes `img` of `pBuf` stored so far and the store index
`to`, a `uint32_t` that wraps at `2 ^ 32`: the bytes of `pBuf` and `to` after
the loop. -/
def encode_binary_asc_run : List Nat → List Nat → Nat → List Nat × Nat
  | [], img, toIdx => (img, toIdx)
  | b :: pb, img, toIdx =>
    if b = 0 then
      encode_binary_asc_run pb (pokeAt (pokeAt img toIdx b) ((toIdx + 1) % 2 ^ 32) 0xFF)
        (((toIdx + 1) % 2 ^ 32 + 1) % 2 ^ 32)
    else encode_binary_asc_run pb (pokeAt img toIdx b) ((toIdx + 1) % 2 ^ 32)

/-- The descending `for` loop of the binary encoder with its `uint32_t` store
index `to`. -/
def encode_binary_desc_run : List Nat → List Nat → Nat → List Nat × Nat
  | [], img, toIdx => (img, toIdx)
  | b :: pb, img, toIdx =>
    if b = 0 then
      encode_binary_desc_run pb
        (pokeAt (pokeAt img toIdx ((b ^^^ 0xFF) % 256)) ((toIdx + 1) % 2 ^ 32) 0)
        (((toIdx + 1) % 2 ^ 32 + 1) % 2 ^ 32)
    else encode_binary_desc_run pb (pokeAt img toIdx ((b ^^^ 0xFF) % 256)) ((toIdx + 1) % 2 ^ 32)

/-- The overload `encode(const void* pb, uint32_t len, void* pBuf, bool asc)`:
`pb` is the list of the `len` payload bytes; the result is the bytes of `pBuf`
the call has stored, as they stand after its last store, and the returned
`uint32_t` (`to + BINARY_PAD_LEN`). The store index `to` is a `uint32_t`:
after `2 ^ 32` stores of the loop it is back at 0, and the later stores, the
two of the terminator (at `pBuf + to` and `pBuf + to + 1`) included, replace
the bytes stored first. -/
def encode_binary (pb : List Nat) (asc : Bool) : List Nat × Nat :=
  if asc then
    let s := encode_binary_asc_run pb [] 0
    (pokeAt (pokeAt s.1 s.2 0) (s.2 + 1) 0, (s.2 + BINARY_PAD_LEN) % 2 ^ 32)
  else
    let s := encode_binary_desc_run pb [] 0
    (pokeAt (pokeAt s.1 s.2 0xFF) (s.2 + 1) 0xFF, (s.2 + BINARY_PAD_LEN) % 2 ^ 32)

/-- The overload `decode_double(uint64_t ul, bool asc)`; the result is the bit
pattern of the returned double (the `ud` before the `memcpy`). -/
def decode_double (le : Bool) (ul : Nat) (asc : Bool) : Nat :=
  let ud := _dec64 le ul
  if asc then
    (if ud &&& 0x8000000000000000 ≠ 0 then ud ^^^ 0x8000000000000000
     else ud ^^^ 0xFFFFFFFFFFFFFFFF)
  else
    (if ud &&& 0x8000000000000000 ≠ 0 then ud else ud ^^^ 0x7FFFFFFFFFFFFFFF)

/-- The overload `decode_double(const void* p, bool asc)`. -/
def decode_double_ptr (le : Bool) (p : List Nat) (asc : Bool) : Nat :=
  let ul := load le (p.take 8)
  let ud := _dec64 le ul
  if asc then
    (if ud &&& 0x8000000000000000 ≠ 0 then ud ^^^ 0x8000000000000000
     else ud ^^^ 0xFFFFFFFFFFFFFFFF)
  else
    (if ud &&& 0x8000000000000000 ≠ 0 then ud else ud ^^^ 0x7FFFFFFFFFFFFFFF)

/-- The ways a decoder leaves the model other than by returning: the call of
`abort()`, and undefined behaviour (a read beyond the block the pointer
addresses, a write through a null pointer or beyond the destination). -/
inductive Fault where
  | abort
  | undefined
  deriving DecidableEq, Repr

deriving instance DecidableEq for Except

/-- The ascending `while (true)` loop of `get_string_len` on the bytes at
`ps`: the number of steps `ps++` before the `return`; `none` when the loop
reads beyond the block. -/
def get_string_len_asc_loop : List Nat → Option Nat
  | [] => none
  | c :: ps =>
    if c ≠ 0 then (get_string_len_asc_loop ps).map (fun n => n + 1)
    else
      match ps with
      | [] => none
      | d :: _ =>
        if d ≠ 0 then (get_string_len_asc_loop ps).map (fun n => n + 1)
        else some 0

/-- The descending `while (true)` loop of `get_string_len`. -/
def get_string_len_desc_loop : List Nat → Option Nat
  | [] => none
  | c :: ps =>
    if c ≠ 0xFF then (get_string_len_desc_loop ps).map (fun n => n + 1)
    else
      match ps with
      | [] => none
      | d :: _ =>
        if d ≠ 0xFF then (get_string_len_desc_loop ps).map (fun n => n + 1)
        else some 0

/-- The function `get_string_len(const void* p, bool asc)`, `p` addressing the
bytes `p`; the pointer difference is returned as `uint32_t`. -/
def get_string_len (p : List Nat) (asc : Bool) : Option Nat :=
  if asc then (get_string_len_asc_loop p).map (fun n => n % 2 ^ 32)
  else (get_string_len_desc_loop p).map (fun n => n % 2 ^ 32)

/-- The ascending `while (true)` loop of `decode_string` on the bytes at
`pfrom`: the bytes written through `pto`; `none` when the loop reads beyond
the block. -/
def decode_string_asc_loop : List Nat → Option (List Nat)
  | [] => none
  | c :: pfrom =>
    if c ≠ 0 then (decode_string_asc_loop pfrom).map (fun out => c :: out)
    else
      match pfrom with
      | [] => none
      | d :: _ =>
        if d ≠ 0 then (decode_string_asc_loop pfrom).map (fun out => c :: out)
        else some []

/-- The descending `while (true)` loop of `decode_string`. -/
def decode_string_desc_loop : List Nat → Option (List Nat)
  | [] => none
  | c :: pfrom =>
    if c ≠ 0xFF then (decode_string_desc_loop pfrom).map (fun out => (c ^^^ 0xFF) % 256 :: out)
    else
      match pfrom with
      | [] => none
      | d :: _ =>
        if d ≠ 0xFF then
          (decode_string_desc_loop pfrom).map (fun out => (c ^^^ 0xFF) % 256 :: out)
        else some []

/-- The function `decode_string(const void* p, void* pBuf, bool asc)`: the
bytes written to `pBuf` and the returned `uint32_t`, the string length
without the trailing 00 or FF. -/
def decode_string (p : List Nat) (asc : Bool) : Option (List Nat × Nat) :=
  if asc then (decode_string_asc_loop p).map (fun out => (out, out.length % 2 ^ 32))
  else (decode_string_desc_loop p).map (fun out => (out, out.length % 2 ^ 32))

/-- The `for` loop of `calc_binary_encoded_len`: the `int zero_count` after
the bytes not yet visited, from its current value. -/
def calc_binary_zero_count : List Nat → Int → Int
  | [], zero_count => zero_count
  | b :: pb, zero_count =>
    if b = 0 then calc_binary_zero_count pb (zero_count + 1)
    else calc_binary_zero_count pb zero_count

/-- The function `calc_binary_encoded_len(const void* pb, uint32_t len)`, `pb`
being the list of the `len` payload bytes; the sum is a `uint32_t`. -/
def calc_binary_encoded_len (pb : List Nat) : Nat :=
  toU32 ((pb.length : Int) + (BINARY_PAD_LEN : Int) + calc_binary_zero_count pb 0)

/-- The function `calc_string_encoded_len(uint32_t len)`. -/
def calc_string_encoded_len (len : Nat) : Nat := (len + STRING_PAD_LEN) % 2 ^ 32

/-- The ascending `while (true)` loop of `get_bytes_len` on the bytes at `pb`:
the number of increments of `len` before the `break`. -/
def get_bytes_len_asc_loop : List Nat → Except Fault Nat
  | [] => .error .undefined
  | c :: pb =>
    if c ≠ 0 then (get_bytes_len_asc_loop pb).map (fun n => n + 1)
    else
      match pb with
      | [] => .error .undefined
      | d :: pb2 =>
        if d = 0 then .ok 0
        else if d = 0xFF then (get_bytes_len_asc_loop pb2).map (fun n => n + 1)
        else .error .abort

/-- The descending `while (true)` loop of `get_bytes_len`. -/
def get_bytes_len_desc_loop : List Nat → Except Fault Nat
  | [] => .error .undefined
  | c :: pb =>
    if c ≠ 0xFF then (get_bytes_len_desc_loop pb).map (fun n => n + 1)
    else
      match pb with
      | [] => .error .undefined
      | d :: pb2 =>
        if d = 0xFF then .ok 0
        else if d = 0 then (get_bytes_len_desc_loop pb2).map (fun n => n + 1)
        else .error .abort

/-- The function `get_bytes_len(const void* p, bool asc)`: the length after
decode, a `uint32_t` counter. -/
def get_bytes_len (p : List Nat) (asc : Bool) : Except Fault Nat :=
  if asc then (get_bytes_len_asc_loop p).map (fun n => n % 2 ^ 32)
  else (get_bytes_len_desc_loop p).map (fun n => n % 2 ^ 32)

/-- The ascending `while (true)` loop of `decode_bytes` on the bytes at
`pfrom`: the bytes written through `pto` and the advance of `pfrom` at the
`break`. -/
def decode_bytes_asc_loop : List Nat → Except Fault (List Nat × Nat)
  | [] => .error .undefined
  | c :: pfrom =>
    if c ≠ 0 then (decode_bytes_asc_loop pfrom).map (fun o => (c :: o.1, o.2 + 1))
    else
      match pfrom with
      | [] => .error .undefined
      | d :: pfrom2 =>
        if d = 0 then .ok ([], 0)
        else if d = 0xFF then (decode_bytes_asc_loop pfrom2).map (fun o => (0 :: o.1, o.2 + 2))
        else .error .abort

/-- The descending `while (true)` loop of `decode_bytes`. -/
def decode_bytes_desc_loop : List Nat → Except Fault (List Nat × Nat)
  | [] => .error .undefined
  | c :: pfrom =>
    if c ≠ 0xFF then
      (decode_bytes_desc_loop pfrom).map (fun o => ((c ^^^ 0xFF) % 256 :: o.1, o.2 + 1))
    else
      match pfrom with
      | [] => .error .undefined
      | d :: pfrom2 =>
        if d = 0xFF then .ok ([], 0)
        else if d = 0 then (decode_bytes_desc_loop pfrom2).map (fun o => (0 :: o.1, o.2 + 2))
        else .error .abort

/-- The function `decode_bytes(const void* p, void* pBuf, uint32_t& len, bool
asc)`: the bytes written to `pBuf`, the value left in `len` (the length after
decode) and the returned `uint32_t` (the bytes consumed during decoding). -/
def decode_bytes (p : List Nat) (asc : Bool) : Except Fault (List Nat × Nat × Nat) :=
  if asc then
    (decode_bytes_asc_loop p).map (fun o => (o.1, o.1.length % 2 ^ 32, o.2 % 2 ^ 32))
  else
    (decode_bytes_desc_loop p).map (fun o => (o.1, o.1.length % 2 ^ 32, o.2 % 2 ^ 32))

/-! ## Types (`sope_types.h`) -/

/-- The enumeration `Type` of `sope_types.h`. -/
inductive SopeType where
  | TYPE_NULL
  | TYPE_INT
  | TYPE_LONG
  | TYPE_DOUBLE
  | TYPE_STRING
  | TYPE_BOOL
  | TYPE_DATE
  | TYPE_TIMESTAMP
  | TYPE_BINARY
  | TYPE_OBJECT
  deriving DecidableEq, Repr

def LEN_NULL : Nat := 1
def LEN_INT : Nat := 4
def LEN_LONG : Nat := 8
def LEN_DOUBLE : Nat := 8
def LEN_BOOL : Nat := 1
def LEN_DATE : Nat := 8
def LEN_TIMESTAMP : Nat := 8

/-! ## Record buffer (`sope_encoded_record.h`) -/

def NOT_NULL_ASC : Nat := 0x0F
def NOT_NULL_DESC : Nat := 0xF0
def NULL_ASC : Nat := 0x07
def NULL_DESC : Nat := 0xF8
def NULL_COND_START : Nat := 0x00
def NULL_COND_END : Nat := 0xFF
/-- The data members of `class EncodedRecord`. `pData` and `pWorkingBuf` are
`none` for a null pointer and otherwise hold the bytes of the block the
pointer addresses. `curPos` and `endPos` are `int`, the lengths `uint32_t`. -/
structure EncodedRecord where
  pData : Option (List Nat)
  curPos : Int
  endPos : Int
  curLen : Nat
  pWorkingBuf : Option (List Nat)
  lenWorkingBuf : Nat
  deriving DecidableEq, Repr

/-- The block a successful `malloc(sz)` returns: `sz` bytes of indeterminate
content, here the first `sz` bytes of `junk` (zero where `junk` is shorter). -/
def mallocBlock (sz : Nat) (junk : List Nat) : List Nat :=
  (junk ++ List.replicate sz 0).take sz

/-- Conversion `int → size_t` (64 bits). -/
def toSizeT (i : Int) : Nat := (i % 2 ^ 64).toNat

namespace EncodedRecord

/-- The constructor `EncodedRecord()`: empty record for construction use. -/
def empty : EncodedRecord :=
  { pData := none, curPos := 0, endPos := 0, curLen := 0, pWorkingBuf := none, lenWorkingBuf := 0 }

/-- The method `alloc(uint32_t sz)`. `heap` is the answer of `malloc`: `none`
when it fails, otherwise the indeterminate content of the fresh block. -/
def alloc (r : EncodedRecord) (sz : Nat) (heap : Option (List Nat)) : EncodedRecord :=
  { r with pData := heap.map (mallocBlock (sz % 2 ^ 32)), curPos := 0, curLen := sz % 2 ^ 32 }

def resetPos (r : EncodedRecord) : EncodedRecord := { r with curPos := 0 }

def setEndPos (r : EncodedRecord) : EncodedRecord := { r with endPos := r.curPos }

def getEndPos (r : EncodedRecord) : Int := r.endPos

def getLen (r : EncodedRecord) : Nat := r.curLen

def getPos (r : EncodedRecord) : Int := r.curPos

/-- The bytes `getData()` points at; no byte for a null pointer. -/
def getData (r : EncodedRecord) : List Nat := r.pData.getD []

/-- The store of the bytes `bs` through the pointer `pData + curPos`. The
result is `none` where the C++ store has undefined behaviour: `pData` is null
or a byte lies outside the block. -/
def storeAt (r : EncodedRecord) (bs : List Nat) : Option EncodedRecord :=
  match r.pData with
  | none => none
  | some buf =>
    if 0 ≤ r.curPos ∧ r.curPos.toNat + bs.length ≤ buf.length then
      some { r with pData := some (buf.take r.curPos.toNat ++ bs
                                    ++ buf.drop (r.curPos.toNat + bs.length)) }
    else none

/-- The statement `curPos += w` for the `int` cursor and a `uint32_t` width.
The result is `none` when the sum is not a value of `int`. -/
def addPos (r : EncodedRecord) (w : Nat) : Option EncodedRecord :=
  if -2 ^ 31 ≤ r.curPos + w ∧ r.curPos + w < 2 ^ 31 then some { r with curPos := r.curPos + w }
  else none

def putNullFieldIndicator (r : EncodedRecord) (asc : Bool) : Option EncodedRecord :=
  (r.storeAt [if asc then NULL_ASC else NULL_DESC]).bind (fun r => r.addPos LEN_NULL)

def putNotNullFieldIndicator (r : EncodedRecord) (asc : Bool) : Option EncodedRecord :=
  (r.storeAt [if asc then NOT_NULL_ASC else NOT_NULL_DESC]).bind (fun r => r.addPos LEN_NULL)

/-- The overload `put(int i, bool asc)`. -/
def put_int (le : Bool) (r : EncodedRecord) (i : Int) (asc : Bool) : Option EncodedRecord :=
  (r.storeAt (store le 4 (encode_int le i asc))).bind (fun r => r.addPos LEN_INT)

/-- The overload `put(long l, bool asc)`. -/
def put_long (le : Bool) (r : EncodedRecord) (l : Int) (asc : Bool) : Option EncodedRecord :=
  (r.storeAt (store le 8 (encode_long le l asc))).bind (fun r => r.addPos LEN_LONG)

/-- The overload `put(Date l, bool asc)` (compiled where `Date` and `long`
are distinct types): it passes `(long)l` to `encode(long, bool)`. -/
def put_Date (le : Bool) (r : EncodedRecord) (l : Int) (asc : Bool) : Option EncodedRecord :=
  (r.storeAt (store le 8 (encode_long le l asc))).bind (fun r => r.addPos LEN_LONG)

/-- The overload `put(double d, bool asc)`, `d` given by its bit pattern. -/
def put_double (le : Bool) (r : EncodedRecord) (d : Nat) (asc : Bool) : Option EncodedRecord :=
  (r.storeAt (store le 8 (encode_double le d asc))).bind (fun r => r.addPos LEN_DOUBLE)

/-- The overload `put(bool b, bool asc)`: one byte, 1 for `true`, 0 for `false`. -/
def put_bool (r : EncodedRecord) (b : Bool) (asc : Bool) : Option EncodedRecord :=
  (r.storeAt [if (if asc then b else !b) then 1 else 0]).bind (fun r => r.addPos LEN_BOOL)

/-- The overload `put(Timestamp ts, bool asc)`. -/
def put_timestamp (le : Bool) (r : EncodedRecord) (ts : Nat) (asc : Bool) :
    Option EncodedRecord :=
  (r.storeAt (store le 8 (encode_timestamp le ts asc))).bind (fun r => r.addPos LEN_TIMESTAMP)

/-- The overload `put(const char* p, uint32_t len, bool asc)`, `p` being the
list of the `len` bytes at the pointer. -/
def put_string (r : EncodedRecord) (p : List Nat) (asc : Bool) : Option EncodedRecord :=
  let e := encode_string p asc
  (r.storeAt e.1).bind (fun r => r.addPos e.2)

/-- The overload `put(const void* p, uint32_t len, bool asc)`. -/
def put_binary (r : EncodedRecord) (p : List Nat) (asc : Bool) : Option EncodedRecord :=
  let e := encode_binary p asc
  (r.storeAt e.1).bind (fun r => r.addPos e.2)

/-- The bytes of the block from `pData + curPos` on, for a read through that
pointer. The result is `none` where the read has undefined behaviour: `pData`
is null or the cursor lies outside the block. -/
def memAt (r : EncodedRecord) : Option (List Nat) :=
  match r.pData with
  | none => none
  | some buf =>
    if 0 ≤ r.curPos ∧ r.curPos.toNat ≤ buf.length then some (buf.drop r.curPos.toNat) else none

/-- The bytes from `pData + curPos` on, for a load of `n` bytes: `none` also
when fewer than `n` bytes of the block remain. -/
def loadAt (r : EncodedRecord) (n : Nat) : Option (List Nat) :=
  r.memAt.bind (fun m => if n ≤ m.length then some m else none)

def checkNullFieldIndicator (r : EncodedRecord) (asc : Bool) : Option (Bool × EncodedRecord) :=
  (r.loadAt 1).bind (fun m =>
    (r.addPos LEN_NULL).map (fun r1 =>
      (decide (m.head? = some (if asc then NULL_ASC else NULL_DESC)), r1)))

def getInt (le : Bool) (r : EncodedRecord) (asc : Bool) : Option (Int × EncodedRecord) :=
  (r.loadAt 4).bind (fun m => (r.addPos LEN_INT).map (fun r1 => (decode_int_ptr le m asc, r1)))

def getLong (le : Bool) (r : EncodedRecord) (asc : Bool) : Option (Int × EncodedRecord) :=
  (r.loadAt 8).bind (fun m => (r.addPos LEN_LONG).map (fun r1 => (decode_long_ptr le m asc, r1)))

/-- The method `getDouble(bool asc)`; the result is the bit pattern of the
returned double. -/
def getDouble (le : Bool) (r : EncodedRecord) (asc : Bool) : Option (Nat × EncodedRecord) :=
  (r.loadAt 8).bind (fun m =>
    (r.addPos LEN_DOUBLE).map (fun r1 => (decode_double_ptr le m asc, r1)))

/-- The method `getBool(bool asc)`: the byte at the cursor read as a `bool`,
true when it is not zero. The parameter `asc` is not used. -/
def getBool (r : EncodedRecord) (_asc : Bool) : Option (Bool × EncodedRecord) :=
  (r.loadAt 1).bind (fun m =>
    (r.addPos LEN_BOOL).map (fun r1 => (decide (m.head? ≠ some 0), r1)))

def getDate (le : Bool) (r : EncodedRecord) (asc : Bool) : Option (Int × EncodedRecord) :=
  (r.loadAt 8).bind (fun m => (r.addPos LEN_DATE).map (fun r1 => (decode_date_ptr le m asc, r1)))

def getTimestamp (le : Bool) (r : EncodedRecord) (asc : Bool) : Option (Nat × EncodedRecord) :=
  (r.loadAt 8).bind (fun m =>
    (r.addPos LEN_TIMESTAMP).map (fun r1 => (decode_timestamp le m asc, r1)))

/-- The method `getWorkingBuf(uint32_t len)`. `heap` is the answer of the
`malloc` it may call: `none` when it fails, otherwise the indeterminate
content of the fresh block. -/
def getWorkingBuf (r : EncodedRecord) (len : Nat) (heap : Option (List Nat)) : EncodedRecord :=
  if r.pWorkingBuf ≠ none ∧ r.lenWorkingBuf ≥ len then r
  else { r with pWorkingBuf := heap.map (mallocBlock len), lenWorkingBuf := len }

/-- The stores of a decoder through `pWorkingBuf`: the scratch block after
the bytes `out` were written at its start. The result is `none` where a store
has undefined behaviour: a byte is written through a null pointer or beyond
the block. -/
def storeWorking (r : EncodedRecord) (out : List Nat) : Option EncodedRecord :=
  match out, r.pWorkingBuf with
  | [], _ => some r
  | _ :: _, none => none
  | _ :: _, some buf =>
    if out.length ≤ buf.length then some { r with pWorkingBuf := some (out ++ buf.drop out.length) }
    else none

/-- The method `getString(uint32_t& len, bool asc)`: the bytes at the
returned pointer (`none` for a null pointer), the value left in `len`, and
the record afterwards. -/
def getString (r : EncodedRecord) (asc : Bool) (heap : Option (List Nat)) :
    Option (Option (List Nat) × Nat × EncodedRecord) :=
  r.memAt.bind (fun m =>
    (get_string_len m asc).bind (fun len =>
      (decode_string m asc).bind (fun dec =>
        ((r.getWorkingBuf len heap).storeWorking dec.1).bind (fun r1 =>
          (r1.addPos ((len + STRING_PAD_LEN) % 2 ^ 32)).map (fun r2 =>
            (r2.pWorkingBuf, len, r2))))))

/-- The method `getBinary(uint32_t& len, bool asc)`: the bytes at the
returned pointer, the value `decode_bytes` left in `len`, and the record
afterwards. -/
def getBinary (r : EncodedRecord) (asc : Bool) (heap : Option (List Nat)) :
    Except Fault (Option (List Nat) × Nat × EncodedRecord) :=
  match r.memAt with
  | none => .error .undefined
  | some m =>
    match get_bytes_len m asc with
    | .error f => .error f
    | .ok len =>
      match decode_bytes m asc with
      | .error f => .error f
      | .ok dec =>
        match (r.getWorkingBuf len heap).storeWorking dec.1 with
        | none => .error .undefined
        | some r1 =>
          match r1.addPos ((dec.2.2 + BINARY_PAD_LEN) % 2 ^ 32) with
          | none => .error .undefined
          | some r2 => .ok (r2.pWorkingBuf, dec.2.1, r2)

end EncodedRecord

/-- The function `comp(const EncodedRecord* r1, const EncodedRecord* r2)`. -/
def comp (r1 r2 : EncodedRecord) : Bool :=
  decide (0 > memcmp r1.getData r2.getData
    (toSizeT (if r1.getEndPos ≤ r2.getEndPos then r1.getEndPos else r2.getEndPos)))

/-! ## Vocabulary of the order statements -/

/-- The bit pattern is a NaN of IEEE-754 binary64: exponent field all ones
and a nonzero fraction. -/
def isNaN (u : Nat) : Bool := u / 2 ^ 52 % 2048 == 2047 && u % 2 ^ 52 != 0

/-- The magnitude of the binary64 number with exponent field `e` and fraction
`m`, scaled by `2 ^ 1075`: `m * 2 ^ (-1074)` for `e = 0` (zero and the
subnormals), `(2 ^ 52 + m) * 2 ^ (e - 1075)` otherwise. For an infinity
(`e = 2047`, `m = 0`) this is `2 ^ 52 * 2 ^ 2047`, above every finite one. -/
def doubleMagnitude (e m : Nat) : Nat := if e = 0 then 2 * m else (2 ^ 52 + m) * 2 ^ e

/-- The numeric value of a binary64 bit pattern, scaled by `2 ^ 1075`: sign
bit 63, exponent field bits 62..52, fraction bits 51..0. -/
def doubleScaled (u : Nat) : Int :=
  if u / 2 ^ 63 % 2 = 1 then - (doubleMagnitude (u / 2 ^ 52 % 2048) (u % 2 ^ 52) : Int)
  else (doubleMagnitude (u / 2 ^ 52 % 2048) (u % 2 ^ 52) : Int)

/-- The sign-magnitude reading of a 64-bit pattern as an integer: patterns
with the sign bit clear count upwards from `+0.0 ↦ 0`, patterns with the sign
bit set count downwards from `-0.0 ↦ -1`. -/
def signMagnitude (u : Nat) : Int :=
  if u % 2 ^ 64 < 2 ^ 63 then ((u % 2 ^ 64 : Nat) : Int) else 2 ^ 63 - 1 - ((u % 2 ^ 64 : Nat) : Int)

/-- The lexicographic order of byte strings, a proper initial segment
counting as smaller. -/
def bytesLt : List Nat → List Nat → Bool
  | [], [] => false
  | [], _ :: _ => true
  | _ :: _, [] => false
  | a :: x, b :: y => if a = b then bytesLt x y else decide (a < b)

/-- No 0x00 byte of the string is its last byte or is immediately followed
by another 0x00 byte. -/
def noZeroPair : List Nat → Bool
  | [] => true
  | [c] => c != 0
  | c :: d :: s => !(c == 0 && d == 0) && noZeroPair (d :: s)

/-! ## Schema-driven writing (`sope_record_test.cc`) -/

/-- A value of a field: the operand of the `put` overload its constructor
names. `date` is a `Date`, `binary` serves `TYPE_BINARY` and `TYPE_OBJECT`. -/
inductive Value where
  | int (i : Int)
  | long (l : Int)
  | double (bits : Nat)
  | string (s : List Nat)
  | bool (b : Bool)
  | date (d : Int)
  | timestamp (ts : Nat)
  | binary (p : List Nat)
  deriving DecidableEq, Repr

/-- The value is one of the schema type: an int32, an int64, a non-NaN 64-bit
pattern, a byte string without 0x00 byte, a bool, a `Date`, an unsigned
64-bit timestamp, a byte payload. No value has type `TYPE_NULL`. -/
def Value.hasType : SopeType → Value → Bool
  | .TYPE_INT, .int i => decide (-2 ^ 31 ≤ i ∧ i < 2 ^ 31)
  | .TYPE_LONG, .long l => decide (-2 ^ 63 ≤ l ∧ l < 2 ^ 63)
  | .TYPE_DOUBLE, .double u => decide (u < 2 ^ 64) && !isNaN u
  | .TYPE_STRING, .string s => s.all (fun c => decide (0 < c ∧ c < 256))
  | .TYPE_BOOL, .bool _ => true
  | .TYPE_DATE, .date d => decide (-2 ^ 63 ≤ d ∧ d < 2 ^ 63)
  | .TYPE_TIMESTAMP, .timestamp ts => decide (ts < 2 ^ 64)
  | .TYPE_BINARY, .binary p => p.all (fun c => decide (c < 256))
  | .TYPE_OBJECT, .binary p => p.all (fun c => decide (c < 256))
  | _, _ => false

/-- The row fits the schema: as many fields as the schema has, each `NULL`
(`none`) or a value of the field type. -/
def wellTyped : List (SopeType × Bool) → List (Option Value) → Bool
  | [], [] => true
  | (t, _) :: schema, f :: row =>
    (match f with
     | none => true
     | some v => v.hasType t) && wellTyped schema row
  | _, _ => false

/-- The dispatch of a value to its `put` overload; a `Date` is an `int64_t`
and takes `put(long, bool)`. -/
def putValue (le : Bool) (r : EncodedRecord) (asc : Bool) : Value → Option EncodedRecord
  | .int i => r.put_int le i asc
  | .long l => r.put_long le l asc
  | .double d => r.put_double le d asc
  | .string s => r.put_string s asc
  | .bool b => r.put_bool b asc
  | .date d => r.put_long le d asc
  | .timestamp ts => r.put_timestamp le ts asc
  | .binary p => r.put_binary p asc

/-- Writing one field as `buildRecords` does: the null indicator alone, or the
not-null indicator followed by the value. -/
def putField (le : Bool) (r : EncodedRecord) (asc : Bool) : Option Value → Option EncodedRecord
  | none => r.putNullFieldIndicator asc
  | some v => (r.putNotNullFieldIndicator asc).bind (fun r => putValue le r asc v)

/-- Writing the fields of a row in schema order, each in the direction the
schema declares. -/
def writeRow (le : Bool) :
    List (SopeType × Bool) → List (Option Value) → EncodedRecord → Option EncodedRecord
  | [], [], r => some r
  | (_, asc) :: schema, f :: row, r => (putField le r asc f).bind (writeRow le schema row)
  | _, _, _ => none

/-- One record of `buildRecords`: `new EncodedRecord()`, `alloc(sz)`, the
fields, `setEndPos()`, `resetPos()`. -/
def buildRecord (le : Bool) (sz : Nat) (heap : Option (List Nat))
    (schema : List (SopeType × Bool)) (row : List (Option Value)) : Option EncodedRecord :=
  (writeRow le schema row (EncodedRecord.empty.alloc sz heap)).map
    (fun r => r.setEndPos.resetPos)

/-! ## Schema-driven reading (`display` of `sope_record_test.cc`) -/

/-- The schema `create_test_schema()` builds: the type and the direction
(`true` for ascending) of its five fields. -/
def create_test_schema : List (SopeType × Bool) :=
  [(.TYPE_INT, true), (.TYPE_LONG, true), (.TYPE_STRING, false), (.TYPE_BINARY, true),
   (.TYPE_DOUBLE, false)]

/-- The value is an operand of the `put` overload of the schema type: an
int32, an int64, any 64-bit pattern of a double (NaNs included), a byte
string without 0x00 byte, a bool, a `Date`, an unsigned 64-bit timestamp, a
byte payload; strings and payloads of a length that is a `uint32_t`. -/
def Value.storable : SopeType → Value → Bool
  | .TYPE_INT, .int i => decide (-2 ^ 31 ≤ i ∧ i < 2 ^ 31)
  | .TYPE_LONG, .long l => decide (-2 ^ 63 ≤ l ∧ l < 2 ^ 63)
  | .TYPE_DOUBLE, .double u => decide (u < 2 ^ 64)
  | .TYPE_STRING, .string s => s.all (fun c => decide (0 < c ∧ c < 256))
  | .TYPE_BOOL, .bool _ => true
  | .TYPE_DATE, .date d => decide (-2 ^ 63 ≤ d ∧ d < 2 ^ 63)
  | .TYPE_TIMESTAMP, .timestamp ts => decide (ts < 2 ^ 64)
  | .TYPE_BINARY, .binary p => p.all (fun c => decide (c < 256))
  | .TYPE_OBJECT, .binary p => p.all (fun c => decide (c < 256))
  | _, _ => false

/-- The row can be written under the schema: as many fields as the schema
has, each `NULL` (`none`) or an operand of the `put` of the field type. -/
def storableRow : List (SopeType × Bool) → List (Option Value) → Bool
  | [], [] => true
  | (t, _) :: schema, f :: row =>
    (match f with
     | none => true
     | some v => v.storable t) && storableRow schema row
  | _, _ => false

/-- The read of an `Option` counted as undefined behaviour when it fails. -/
def orUndefined {α : Type} : Option α → Except Fault α
  | none => .error .undefined
  | some a => .ok a

/-- One pass of the `for` loop of `display`: `checkNullFieldIndicator`, then
the `get` the `switch` on the field type selects; the result is the value
printed, `none` for `NULL`. `heap` is the answer of the `malloc` the pass may
call. A string or payload is the `len` bytes at the returned pointer. -/
def readField (le : Bool) (heap : Option (List Nat)) (r : EncodedRecord) (t : SopeType)
    (asc : Bool) : Except Fault (Option Value × EncodedRecord) :=
  match r.checkNullFieldIndicator asc with
  | none => .error .undefined
  | some (true, r1) => .ok (none, r1)
  | some (false, r1) =>
    match t with
    | .TYPE_INT => orUndefined ((r1.getInt le asc).map (fun x => (some (.int x.1), x.2)))
    | .TYPE_LONG => orUndefined ((r1.getLong le asc).map (fun x => (some (.long x.1), x.2)))
    | .TYPE_DOUBLE =>
      orUndefined ((r1.getDouble le asc).map (fun x => (some (.double x.1), x.2)))
    | .TYPE_STRING =>
      orUndefined ((r1.getString asc heap).map
        (fun x => (some (.string ((x.1.getD []).take x.2.1)), x.2.2)))
    | .TYPE_BOOL => orUndefined ((r1.getBool asc).map (fun x => (some (.bool x.1), x.2)))
    | .TYPE_DATE => orUndefined ((r1.getDate le asc).map (fun x => (some (.date x.1), x.2)))
    | .TYPE_TIMESTAMP =>
      orUndefined ((r1.getTimestamp le asc).map (fun x => (some (.timestamp x.1), x.2)))
    | .TYPE_BINARY =>
      (r1.getBinary asc heap).map (fun x => (some (.binary ((x.1.getD []).take x.2.1)), x.2.2))
    | .TYPE_OBJECT =>
      (r1.getBinary asc heap).map (fun x => (some (.binary ((x.1.getD []).take x.2.1)), x.2.2))
    | .TYPE_NULL => .ok (none, r1)

/-- The `for` loop of `display` over the fields of the schema: the values
printed and the record afterwards. `heap i` is the answer of the `malloc`
the pass over field `i` may call. -/
def readRow (le : Bool) : (Nat → Option (List Nat)) → List (SopeType × Bool) → EncodedRecord →
    Except Fault (List (Option Value) × EncodedRecord)
  | _, [], r => .ok ([], r)
  | heap, (t, asc) :: schema, r =>
    match readField le (heap 0) r t asc with
    | .error f => .error f
    | .ok (v, r1) =>
      match readRow le (fun i => heap (i + 1)) schema r1 with
      | .error f => .error f
      | .ok (vs, r2) => .ok (v :: vs, r2)

/-- The order of two values of one type: integers and timestamps by value,
doubles by the sign-magnitude reading of their bit patterns, strings and
payloads lexicographically by bytes, `false` before `true`. -/
def Value.lt : Value → Value → Bool
  | .int a, .int b => decide (a < b)
  | .long a, .long b => decide (a < b)
  | .double a, .double b => decide (signMagnitude a < signMagnitude b)
  | .string a, .string b => bytesLt a b
  | .bool a, .bool b => !a && b
  | .date a, .date b => decide (a < b)
  | .timestamp a, .timestamp b => decide (a < b)
  | .binary a, .binary b => bytesLt a b
  | _, _ => false

/-- The order of two fields, `NULL` counting as the smallest value. -/
def fieldLt : Option Value → Option Value → Bool
  | none, some _ => true
  | some a, some b => a.lt b
  | _, _ => false

/-- The field `x` comes before the field `y` in the declared order: the
smaller first under asc, the larger first under desc. -/
def fieldBefore (asc : Bool) (x y : Option Value) : Bool :=
  if asc then fieldLt x y else fieldLt y x

/-- The row `r1` comes before the row `r2`: at the first field where they
differ, the field of `r1` comes before that of `r2` in the declared order. -/
def rowBefore : List (SopeType × Bool) → List (Option Value) → List (Option Value) → Bool
  | (_, asc) :: schema, x :: r1, y :: r2 =>
    if x = y then rowBefore schema r1 r2 else fieldBefore asc x y
  | _, _, _ => false

/-- The bytes `putValue` stores, in the order of the stores. They are the
bytes it leaves at the cursor of a block shorter than `2 ^ 32` bytes
(`putValue_spec`). -/
def valueBytes (le : Bool) (asc : Bool) : Value → List Nat
  | .int i => store le 4 (encode_int le i asc)
  | .long l => store le 8 (encode_long le l asc)
  | .double d => store le 8 (encode_double le d asc)
  | .string s => (encode_string s asc).1
  | .bool b => [if (if asc then b else !b) then 1 else 0]
  | .date d => store le 8 (encode_long le d asc)
  | .timestamp ts => store le 8 (encode_timestamp le ts asc)
  | .binary p => (encode_binary_seq p asc).1

/-- The bytes `putField` writes. -/
def fieldBytes (le : Bool) (asc : Bool) : Option Value → List Nat
  | none => [if asc then NULL_ASC else NULL_DESC]
  | some v => (if asc then NOT_NULL_ASC else NOT_NULL_DESC) :: valueBytes le asc v

/-- The bytes `writeRow` writes. -/
def rowBytes (le : Bool) : List (SopeType × Bool) → List (Option Value) → List Nat
  | (_, asc) :: schema, f :: row => fieldBytes le asc f ++ rowBytes le schema row
  | _, _ => []

/-- The record holds `pre` in front of its cursor, in a block below 4 GiB. -/
def Written (r : EncodedRecord) (pre : List Nat) : Prop :=
  ∃ tail, r.getData = pre ++ tail ∧ r.curPos = pre.length ∧ r.getData.length < 2 ^ 32

/-! ## The tuple example (`sope_simple_test.cc`) -/

/-- The data members of `struct EncodedTuple`: `len` and the bytes of the
array `tuple[64]`. -/
structure EncodedTuple where
  len : Nat
  tuple : List Nat
  deriving DecidableEq, Repr

/-- The C library `strlen(str)`, `str` addressing the bytes of the list: the
number of bytes in front of the first 0x00 byte, `none` (undefined behaviour)
when the list holds no terminator. -/
def strlen : List Nat → Option Nat
  | [] => none
  | c :: str => if c = 0 then some 0 else (strlen str).map (fun n => n + 1)

/-- A store of the bytes `bs` at offset `pos` of an array. The result is
`none` where the store has undefined behaviour, a byte beyond the array. -/
def storeInto (buf : List Nat) (pos : Nat) (bs : List Nat) : Option (List Nat) :=
  if pos + bs.length ≤ buf.length then some (buf.take pos ++ bs ++ buf.drop (pos + bs.length))
  else none

/-- The constructor `EncodedTuple(int ii, const char* str, double dd)`. The
array starts with indeterminate content, the first 64 bytes of `junk`; `str`
is the list of the bytes at the pointer, `dd` is given by its bit pattern;
`slen` is passed as the `uint32_t len` of the string encoder. -/
def EncodedTuple.make (le : Bool) (junk : List Nat) (ii : Int) (str : List Nat) (dd : Nat) :
    Option EncodedTuple :=
  (storeInto (mallocBlock 64 junk) 0 (store le 4 (encode_int le ii true))).bind (fun tuple =>
    let len := 4
    (strlen str).bind (fun slen =>
      let e := encode_string (str.take (slen % 2 ^ 32)) true
      (storeInto tuple len e.1).bind (fun tuple =>
        let len := len + e.2
        (storeInto tuple len (store le 8 (encode_double le dd true))).map (fun tuple =>
          { len := len + 8, tuple := tuple }))))

/-- The macro `MIN(x, y)`. -/
def MIN (x y : Nat) : Nat := if x ≤ y then x else y

/-- The function `compTuple(const EncodedTuple& t1, const EncodedTuple& t2)`:
-1, 0, 1 for t1 < t2, t1 == t2 and t1 > t2. -/
def compTuple (t1 t2 : EncodedTuple) : Int :=
  let rc := memcmp t1.tuple t2.tuple (MIN t1.len t2.len)
  if rc = 0 then (if t1.len < t2.len then -1 else if t1.len > t2.len then 1 else 0)
  else (if rc < 0 then -1 else 1)

/-- The string literal `"This is a string"` in memory: its 16 character codes
and the terminator. -/
def str_this_is_a_string : List Nat :=
  [0x54, 0x68, 0x69, 0x73, 0x20, 0x69, 0x73, 0x20, 0x61, 0x20, 0x73, 0x74, 0x72, 0x69, 0x6e, 0x67, 0]

/-- The string literal `"This is a string1"` in memory. -/
def str_this_is_a_string1 : List Nat :=
  [0x54, 0x68, 0x69, 0x73, 0x20, 0x69, 0x73, 0x20, 0x61, 0x20, 0x73, 0x74, 0x72, 0x69, 0x6e, 0x67,
    0x31, 0]

/-- The string literal `"This is a strin"` in memory. -/
def str_this_is_a_strin : List Nat :=
  [0x54, 0x68, 0x69, 0x73, 0x20, 0x69, 0x73, 0x20, 0x61, 0x20, 0x73, 0x74, 0x72, 0x69, 0x6e, 0]

/-- The function `main` of `sope_simple_test.cc`: the seven tuples, `junk k`
the indeterminate content of the array of `tuple k`, and the six values of
`rc` it prints. The doubles are the bit patterns of `1234.5678`
(`0x40934A456D5CFAAD`), `12345.6789` (`0x40C81CD6E631F8A1`) and `-1234.5678`
(`0xC0934A456D5CFAAD`). -/
def main (le : Bool) (junk : Nat → List Nat) : Option (List Int) :=
  (EncodedTuple.make le (junk 1) 10 str_this_is_a_string 0x40934A456D5CFAAD).bind (fun tuple1 =>
  (EncodedTuple.make le (junk 2) (-10) str_this_is_a_string 0x40C81CD6E631F8A1).bind (fun tuple2 =>
  (EncodedTuple.make le (junk 3) 100 str_this_is_a_string 0x40934A456D5CFAAD).bind (fun tuple3 =>
  (EncodedTuple.make le (junk 4) 10 str_this_is_a_string1 0x40934A456D5CFAAD).bind (fun tuple4 =>
  (EncodedTuple.make le (junk 5) 10 str_this_is_a_strin 0x40934A456D5CFAAD).bind (fun tuple5 =>
  (EncodedTuple.make le (junk 6) 10 str_this_is_a_string 0xC0934A456D5CFAAD).bind (fun tuple6 =>
  (EncodedTuple.make le (junk 7) 10 str_this_is_a_string 0x40934A456D5CFAAD).map (fun tuple7 =>
    [compTuple tuple1 tuple2, compTuple tuple1 tuple3, compTuple tuple1 tuple4,
      compTuple tuple1 tuple5, compTuple tuple1 tuple6, compTuple tuple1 tuple7])))))))

/-- The order of two non-NaN doubles given by their bit patterns: the
numeric order, and `-0.0` below `+0.0`. -/
def doubleLt (a b : Nat) : Bool :=
  decide (doubleScaled a < doubleScaled b) || (a == 0x8000000000000000 && b == 0)

/-- The lexicographic order of the tuples (int, string, double): the int
first, then the string by bytes (a proper initial segment smaller), then the
double. -/
def tupleLt (a b : Int × List Nat × Nat) : Bool :=
  decide (a.1 < b.1)
    || (decide (a.1 = b.1)
        && (bytesLt a.2.1 b.2.1 || (decide (a.2.1 = b.2.1) && doubleLt a.2.2 b.2.2)))

/-- The bytes the constructor of `EncodedTuple` writes for the tuple. -/
def tupleBytes (le : Bool) (a : Int × List Nat × Nat) : List Nat :=
  store le 4 (encode_int le a.1 true) ++ ((a.2.1 ++ [0, 0])
    ++ store le 8 (encode_double le a.2.2 true))

/-- The scratch block, when there is one, has the recorded length. -/
def WorkingOk (r : EncodedRecord) : Prop :=
  ∀ buf, r.pWorkingBuf = some buf → buf.length = r.lenWorkingBuf

/-- The record after a read pass: the main block, the end position and the
capacity of `r`, the cursor at `pos`, and a scratch block of the recorded
length. -/
def ReadTo (r r1 : EncodedRecord) (pos : Nat) : Prop :=
  r1.pData = r.pData ∧ r1.endPos = r.endPos ∧ r1.curLen = r.curLen ∧ r1.curPos = pos
    ∧ WorkingOk r1

/-! ## Vocabulary of the wire-format and frame statements -/

/-- The bytewise complement of a block: every byte XOR 0xFF. -/
def complBytes (l : List Nat) : List Nat := l.map (fun b => b ^^^ 0xFF)

/-- A token of the ascending binary encoding in front of its terminator: one
byte other than 0x00, or the escape pair 00 FF. -/
def isAscToken : List Nat → Bool
  | [c] => c != 0
  | [c, d] => c == 0 && d == 0xFF
  | _ => false

/-- A token of the descending binary encoding in front of its terminator: one
byte other than 0xFF, or the escape pair FF 00. -/
def isDescToken : List Nat → Bool
  | [c] => c != 0xFF
  | [c, d] => c == 0xFF && d == 0
  | _ => false

/-- The ascending token scan of the bytes reaches, before any 00 00
terminator, a 0x00 byte whose next byte is neither 0x00 nor 0xFF: the bytes
are tokens followed by such a pair. -/
def CorruptAsc (p : List Nat) : Prop :=
  ∃ (toks : List (List Nat)) (x : Nat) (rest : List Nat), (∀ t ∈ toks, isAscToken t = true) ∧ x ≠ 0 ∧ x ≠ 0xFF
    ∧ p = toks.flatten ++ 0 :: x :: rest

/-- The descending token scan of the bytes reaches, before any FF FF
terminator, a 0xFF byte whose next byte is neither 0xFF nor 0x00. -/
def CorruptDesc (p : List Nat) : Prop :=
  ∃ (toks : List (List Nat)) (x : Nat) (rest : List Nat), (∀ t ∈ toks, isDescToken t = true) ∧ x ≠ 0xFF ∧ x ≠ 0
    ∧ p = toks.flatten ++ 0xFF :: x :: rest

/-! ## Sequences of calls that use the scratch buffer -/

/-- A call of one of the two methods that use the scratch buffer, with its
argument `asc`. -/
inductive ScratchCall where
  | getString (asc : Bool)
  | getBinary (asc : Bool)
  deriving DecidableEq, Repr

/-- One call on the record: the value left in `len` and the record
afterwards. `heap` is the answer of the `malloc` the call may make. -/
def ScratchCall.run (r : EncodedRecord) (heap : Option (List Nat)) :
    ScratchCall → Except Fault (Nat × EncodedRecord)
  | .getString asc => orUndefined ((r.getString asc heap).map (fun x => (x.2.1, x.2.2)))
  | .getBinary asc => (r.getBinary asc heap).map (fun x => (x.2.1, x.2.2))

/-- A sequence of calls on one record. Each entry gives the cursor position
the call starts from (the other read methods that run between two calls move
the cursor and touch neither block), the answer of the `malloc` the call may
make, and the call. The result lists, per call, the `len` it returned and
`lenWorkingBuf` after it, and gives the record after the last call. -/
def runCalls : EncodedRecord → List (Int × Option (List Nat) × ScratchCall) →
    Except Fault (List (Nat × Nat) × EncodedRecord)
  | r, [] => .ok ([], r)
  | r, (pos, heap, c) :: cs =>
    match c.run { r with curPos := pos } heap with
    | .error f => .error f
    | .ok (len, r1) =>
      match runCalls r1 cs with
      | .error f => .error f
      | .ok (tr, r2) => .ok ((len, r1.lenWorkingBuf) :: tr, r2)

/-- The largest of `m` and the lengths so far, after each length of the list. -/
def runningMax : Nat → List Nat → List Nat
  | _, [] => []
  | m, len :: lens => max m len :: runningMax (max m len) lens

/-- A null scratch pointer goes with a recorded length of 0, as every
constructor leaves it. -/
def ScratchInv (r : EncodedRecord) : Prop := r.pWorkingBuf = none → r.lenWorkingBuf = 0

/-! ## Growing the record (`resize`) -/

/-- The block a successful `realloc(p, sz)` returns: the bytes of the old
block up to the smaller of the two sizes, followed by indeterminate content
(from `junk`). For a null `p` the old block is empty and the call is a
`malloc(sz)`. -/
def reallocBlock (old : List Nat) (sz : Nat) (junk : List Nat) : List Nat :=
  (old ++ mallocBlock (sz - old.length) junk).take sz

/-- The method `resize(size_t new_sz)`. `heap` is the answer of `realloc`:
`none` when it fails, otherwise the indeterminate content of the added bytes.
`new_sz` is a `size_t` (64 bits), `curLen` a `uint32_t`. -/
def EncodedRecord.resize (r : EncodedRecord) (new_sz : Nat) (heap : Option (List Nat)) :
    EncodedRecord :=
  if new_sz % 2 ^ 64 ≤ r.curLen then r
  else
    match heap with
    | some junk =>
      { r with pData := some (reallocBlock r.getData (new_sz % 2 ^ 64) junk),
               curLen := new_sz % 2 ^ 64 % 2 ^ 32 }
    | none => r

/-! ## Bit arithmetic -/

theorem xor_allOnes (n u : Nat) (h : u < 2 ^ n) : u ^^^ (2 ^ n - 1) = 2 ^ n - 1 - u := by
  apply Nat.eq_of_testBit_eq
  intro i
  have e : 2 ^ n - 1 - u = 2 ^ n - (u + 1) := by omega
  rw [Nat.testBit_xor, Nat.testBit_two_pow_sub_one, e, Nat.testBit_two_pow_sub_succ h]
  by_cases hi : i < n
  · simp [hi]
  · have : u.testBit i = false :=
      Nat.testBit_lt_two_pow (lt_of_lt_of_le h (Nat.pow_le_pow_right (by norm_num) (not_lt.mp hi)))
    simp [hi, this]

theorem xor_topBit (n u : Nat) (h : u < 2 ^ (n + 1)) :
    u ^^^ 2 ^ n = if u < 2 ^ n then u + 2 ^ n else u - 2 ^ n := by
  have hp : 2 ^ (n + 1) = 2 * 2 ^ n := by rw [pow_succ]; omega
  have hpos : 0 < 2 ^ n := Nat.pos_pow_of_pos n (by norm_num)
  have e : 2 ^ n = (2 ^ n - 1) ^^^ (2 ^ (n + 1) - 1) := by
    rw [xor_allOnes (n + 1) (2 ^ n - 1) (by omega)]; omega
  split
  · next hlt =>
    have h1 : 2 ^ n - 1 - u < 2 ^ (n + 1) := by omega
    calc u ^^^ 2 ^ n = u ^^^ ((2 ^ n - 1) ^^^ (2 ^ (n + 1) - 1)) := by rw [← e]
      _ = (u ^^^ (2 ^ n - 1)) ^^^ (2 ^ (n + 1) - 1) := by rw [Nat.xor_assoc]
      _ = (2 ^ n - 1 - u) ^^^ (2 ^ (n + 1) - 1) := by rw [xor_allOnes n u hlt]
      _ = 2 ^ (n + 1) - 1 - (2 ^ n - 1 - u) := xor_allOnes (n + 1) _ h1
      _ = u + 2 ^ n := by omega
  · next hge =>
    have h1 : 2 ^ (n + 1) - 1 - u < 2 ^ n := by omega
    calc u ^^^ 2 ^ n = u ^^^ ((2 ^ n - 1) ^^^ (2 ^ (n + 1) - 1)) := by rw [← e]
      _ = (u ^^^ (2 ^ (n + 1) - 1)) ^^^ (2 ^ n - 1) := by
          rw [Nat.xor_comm (2 ^ n - 1), Nat.xor_assoc]
      _ = (2 ^ (n + 1) - 1 - u) ^^^ (2 ^ n - 1) := by rw [xor_allOnes (n + 1) u h]
      _ = 2 ^ n - 1 - (2 ^ (n + 1) - 1 - u) := xor_allOnes n _ h1
      _ = u - 2 ^ n := by omega

theorem xor_lowBits (n u : Nat) (h : u < 2 ^ (n + 1)) :
    u ^^^ (2 ^ n - 1) = 2 ^ (n + 1) - 1 - (u ^^^ 2 ^ n) := by
  have hp : 2 ^ (n + 1) = 2 * 2 ^ n := by rw [pow_succ]; omega
  have hpos : 0 < 2 ^ n := Nat.pos_pow_of_pos n (by norm_num)
  have e : 2 ^ n - 1 = 2 ^ n ^^^ (2 ^ (n + 1) - 1) := by
    rw [xor_allOnes (n + 1) (2 ^ n) (by omega)]; omega
  have hlt : u ^^^ 2 ^ n < 2 ^ (n + 1) := Nat.xor_lt_two_pow h (by omega)
  calc u ^^^ (2 ^ n - 1) = u ^^^ (2 ^ n ^^^ (2 ^ (n + 1) - 1)) := by rw [← e]
    _ = (u ^^^ 2 ^ n) ^^^ (2 ^ (n + 1) - 1) := by rw [Nat.xor_assoc]
    _ = 2 ^ (n + 1) - 1 - (u ^^^ 2 ^ n) := xor_allOnes (n + 1) _ hlt

theorem and_topBit (n u : Nat) (h : u < 2 ^ (n + 1)) : u &&& 2 ^ n ≠ 0 ↔ 2 ^ n ≤ u := by
  have hp : 2 ^ (n + 1) = 2 * 2 ^ n := by rw [pow_succ]; omega
  have hpos : 0 < 2 ^ n := Nat.pos_pow_of_pos n (by norm_num)
  rw [Nat.and_two_pow, Nat.toNat_testBit]
  have hd : u / 2 ^ n < 2 := by
    rw [Nat.div_lt_iff_lt_mul hpos]; omega
  constructor
  · intro h0
    by_contra hc
    have : u / 2 ^ n = 0 := Nat.div_eq_of_lt (by omega)
    simp [this] at h0
  · intro hle
    have : 1 ≤ u / 2 ^ n := (Nat.le_div_iff_mul_le hpos).mpr (by omega)
    have h1 : u / 2 ^ n = 1 := by omega
    rw [h1]; simp

/-! ## Lemmas on `memcmp` -/

theorem memcmp_self (x : List Nat) (n : Nat) : memcmp x x n = 0 := by
  induction x generalizing n with
  | nil => cases n <;> simp [memcmp]
  | cons a x ih => cases n <;> simp [memcmp, ih]

theorem memcmp_swap (x y : List Nat) (n : Nat) : memcmp y x n = - memcmp x y n := by
  induction x generalizing y n with
  | nil => cases y <;> cases n <;> simp [memcmp]
  | cons a x ih =>
    cases y with
    | nil => cases n <;> simp [memcmp]
    | cons b y =>
      cases n with
      | zero => simp [memcmp]
      | succ n =>
        simp only [memcmp]
        by_cases hab : a = b
        · subst hab; simp [ih]
        · have hba : ¬ b = a := fun h => hab h.symm
          simp only [hab, hba, if_false]
          by_cases hlt : a < b
          · have : ¬ b < a := by omega
            simp [hlt, this]
          · have : b < a := by omega
            simp [hlt, this]

theorem memcmp_append_same (p x y : List Nat) (n : Nat) :
    memcmp (p ++ x) (p ++ y) (p.length + n) = memcmp x y n := by
  induction p with
  | nil => simp
  | cons a p ih =>
    have e : (a :: p).length + n = (p.length + n) + 1 := by simp; omega
    rw [List.cons_append, List.cons_append, e]
    simp [memcmp, ih]

theorem memcmp_lt_mono (x y r s : List Nat) (n m : Nat) (h : memcmp x y n < 0) (hnm : n ≤ m) :
    memcmp (x ++ r) (y ++ s) m < 0 := by
  induction x generalizing y n m with
  | nil => cases y <;> cases n <;> simp [memcmp] at h
  | cons a x ih =>
    cases y with
    | nil => cases n <;> simp [memcmp] at h
    | cons b y =>
      cases n with
      | zero => simp [memcmp] at h
      | succ n =>
        cases m with
        | zero => omega
        | succ m =>
          simp only [memcmp, List.cons_append] at h ⊢
          by_cases hab : a = b
          · simp only [hab, if_true] at h ⊢
            exact ih y n m h (by omega)
          · simp only [hab, if_false] at h ⊢
            exact h

theorem memcmp_lt_of_head (a b : Nat) (x y : List Nat) (n : Nat) (h : a < b) :
    memcmp (a :: x) (b :: y) (n + 1) < 0 := by
  have : ¬ a = b := by omega
  simp [memcmp, this, h]

theorem memcmp_cons_same (a : Nat) (x y : List Nat) (n : Nat) :
    memcmp (a :: x) (a :: y) (n + 1) = memcmp x y n := by
  simp [memcmp]

/-! ## Lemmas on memory images -/

theorem length_leBytes (n x : Nat) : (leBytes n x).length = n := by
  induction n generalizing x with
  | zero => rfl
  | succ n ih => simp [leBytes, ih]

theorem length_beBytes (n x : Nat) : (beBytes n x).length = n := by
  simp [beBytes, length_leBytes]

theorem length_store (le : Bool) (n x : Nat) : (store le n x).length = n := by
  cases le <;> simp [store, length_leBytes, length_beBytes]

theorem leBytes_lt (n x : Nat) : ∀ b ∈ leBytes n x, b < 256 := by
  induction n generalizing x with
  | zero => simp [leBytes]
  | succ n ih =>
    intro b hb
    simp only [leBytes, List.mem_cons] at hb
    rcases hb with rfl | hb
    · exact Nat.mod_lt _ (by norm_num)
    · exact ih _ b hb

theorem beBytes_lt (n x : Nat) : ∀ b ∈ beBytes n x, b < 256 := by
  intro b hb
  exact leBytes_lt n x b (by simpa [beBytes] using hb)

theorem beBytes_succ (n x : Nat) : beBytes (n + 1) x = beBytes n (x / 256) ++ [x % 256] := by
  simp [beBytes, leBytes]

theorem ofLE_leBytes (n x : Nat) : ofLE (leBytes n x) = x % 256 ^ n := by
  induction n generalizing x with
  | zero => simp [leBytes, ofLE, Nat.mod_one]
  | succ n ih =>
    simp only [leBytes, ofLE, ih]
    rw [pow_succ, Nat.mul_comm (256 ^ n) 256, Nat.mod_mul]

theorem ofLE_lt (l : List Nat) (h : ∀ b ∈ l, b < 256) : ofLE l < 256 ^ l.length := by
  induction l with
  | nil => simp [ofLE]
  | cons a l ih =>
    have ha : a < 256 := h a (by simp)
    have hl := ih (fun b hb => h b (by simp [hb]))
    simp only [ofLE, List.length_cons, pow_succ]
    omega

theorem leBytes_ofLE (l : List Nat) (h : ∀ b ∈ l, b < 256) : leBytes l.length (ofLE l) = l := by
  induction l with
  | nil => simp [leBytes]
  | cons a l ih =>
    have ha : a < 256 := h a (by simp)
    have hl := ih (fun b hb => h b (by simp [hb]))
    simp only [ofLE, List.length_cons, leBytes]
    have e1 : (a + 256 * ofLE l) % 256 = a := by omega
    have e2 : (a + 256 * ofLE l) / 256 = ofLE l := by omega
    rw [e1, e2, hl]

theorem leBytes_mod (n x : Nat) : leBytes n (x % 256 ^ n) = leBytes n x := by
  have h := leBytes_ofLE (leBytes n x) (leBytes_lt n x)
  rw [length_leBytes, ofLE_leBytes] at h
  exact h

theorem beBytes_mod (n x : Nat) : beBytes n (x % 256 ^ n) = beBytes n x := by
  simp [beBytes, leBytes_mod]

theorem bitswap_lt (n x : Nat) : bitswap n x < 256 ^ n := by
  have h := ofLE_lt (beBytes n x) (beBytes_lt n x)
  rwa [length_beBytes] at h

theorem leBytes_bitswap (n x : Nat) : leBytes n (bitswap n x) = beBytes n x := by
  have h := leBytes_ofLE (beBytes n x) (beBytes_lt n x)
  rwa [length_beBytes] at h

theorem bitswap_bitswap (n x : Nat) : bitswap n (bitswap n x) = x % 256 ^ n := by
  unfold bitswap
  have h : beBytes n (ofLE (beBytes n x)) = leBytes n x := by
    have := leBytes_bitswap n x
    unfold bitswap at this
    show (leBytes n (ofLE (beBytes n x))).reverse = leBytes n x
    rw [this]; simp [beBytes]
  rw [h, ofLE_leBytes]

theorem load_store (le : Bool) (n x : Nat) : load le (store le n x) = x % 256 ^ n := by
  cases le <;> simp [load, store, ofBE, beBytes, ofLE_leBytes]

/-- The bytes stored for `_enc32(v)` are the big-endian serialisation of `v`, on either host. -/
theorem store_enc32 (le : Bool) (v : Nat) : store le 4 (_enc32 le v) = beBytes 4 v := by
  cases le
  · simpa [store, _enc32] using beBytes_mod 4 v
  · simp [store, _enc32, leBytes_bitswap]

theorem store_enc64 (le : Bool) (v : Nat) : store le 8 (_enc64 le v) = beBytes 8 v := by
  cases le
  · simpa [store, _enc64] using beBytes_mod 8 v
  · simp [store, _enc64, leBytes_bitswap]

theorem enc32_lt (le : Bool) (v : Nat) : _enc32 le v < 2 ^ 32 := by
  cases le
  · simp only [_enc32]; exact Nat.mod_lt _ (by norm_num)
  · simpa [_enc32] using bitswap_lt 4 v

theorem enc64_lt (le : Bool) (v : Nat) : _enc64 le v < 2 ^ 64 := by
  cases le
  · simp only [_enc64]; exact Nat.mod_lt _ (by norm_num)
  · simpa [_enc64] using bitswap_lt 8 v

theorem dec32_enc32 (le : Bool) (v : Nat) : _dec32 le (_enc32 le v) = v % 2 ^ 32 := by
  cases le
  · simp [_dec32, _enc32]
  · simpa [_dec32, _enc32] using bitswap_bitswap 4 v

theorem dec64_enc64 (le : Bool) (v : Nat) : _dec64 le (_enc64 le v) = v % 2 ^ 64 := by
  cases le
  · simp [_dec64, _enc64]
  · simpa [_dec64, _enc64] using bitswap_bitswap 8 v

/-- Big-endian bytes compare as the numbers they serialise. -/
theorem memcmp_beBytes_lt (n x y : Nat) (hxy : x < y) (hy : y < 256 ^ n) :
    memcmp (beBytes n x) (beBytes n y) n < 0 := by
  induction n generalizing x y with
  | zero => simp at hy; omega
  | succ n ih =>
    rw [beBytes_succ, beBytes_succ]
    rw [pow_succ] at hy
    by_cases hq : x / 256 < y / 256
    · have hy2 : y / 256 < 256 ^ n := by
        rw [Nat.div_lt_iff_lt_mul (by norm_num)]; exact hy
      exact memcmp_lt_mono _ _ _ _ n (n + 1) (ih _ _ hq hy2) (by omega)
    · have he : x / 256 = y / 256 := by omega
      have hm : x % 256 < y % 256 := by omega
      rw [he]
      have hl : n + 1 = (beBytes n (y / 256)).length + 1 := by rw [length_beBytes]
      rw [hl, memcmp_append_same]
      exact memcmp_lt_of_head _ _ _ _ 0 hm

theorem memcmp_beBytes_gt (n x y : Nat) (hxy : y < x) (hx : x < 256 ^ n) :
    0 < memcmp (beBytes n x) (beBytes n y) n := by
  have h := memcmp_beBytes_lt n y x hxy hx
  rw [memcmp_swap]
  omega

/-! ## Values of the fixed-width encoders -/

theorem int_asc_val (a : Int) (h1 : -2 ^ 31 ≤ a) (h2 : a < 2 ^ 31) :
    toU32 a ^^^ 0x80000000 = (a + 2 ^ 31).toNat := by
  have hu : toU32 a < 2 ^ (31 + 1) := by unfold toU32; omega
  have e : (0x80000000 : Nat) = 2 ^ 31 := by norm_num
  rw [e, xor_topBit 31 _ hu]
  unfold toU32
  split <;> omega

theorem int_desc_val (a : Int) (h1 : -2 ^ 31 ≤ a) (h2 : a < 2 ^ 31) :
    toU32 a ^^^ 0x7FFFFFFF = (2 ^ 31 - 1 - a).toNat := by
  have hu : toU32 a < 2 ^ (31 + 1) := by unfold toU32; omega
  have e : (0x7FFFFFFF : Nat) = 2 ^ 31 - 1 := by norm_num
  have e2 : (0x80000000 : Nat) = 2 ^ 31 := by norm_num
  rw [e, xor_lowBits 31 _ hu, ← e2, int_asc_val a h1 h2]
  omega

theorem long_asc_val (a : Int) (h1 : -2 ^ 63 ≤ a) (h2 : a < 2 ^ 63) :
    toU64 a ^^^ 0x8000000000000000 = (a + 2 ^ 63).toNat := by
  have hu : toU64 a < 2 ^ (63 + 1) := by unfold toU64; omega
  have e : (0x8000000000000000 : Nat) = 2 ^ 63 := by norm_num
  rw [e, xor_topBit 63 _ hu]
  unfold toU64
  split <;> omega

theorem long_desc_val (a : Int) (h1 : -2 ^ 63 ≤ a) (h2 : a < 2 ^ 63) :
    toU64 a ^^^ 0x7FFFFFFFFFFFFFFF = (2 ^ 63 - 1 - a).toNat := by
  have hu : toU64 a < 2 ^ (63 + 1) := by unfold toU64; omega
  have e : (0x7FFFFFFFFFFFFFFF : Nat) = 2 ^ 63 - 1 := by norm_num
  have e2 : (0x8000000000000000 : Nat) = 2 ^ 63 := by norm_num
  rw [e, xor_lowBits 63 _ hu, ← e2, long_asc_val a h1 h2]
  omega

theorem store_encode_int (le : Bool) (a : Int) (h1 : -2 ^ 31 ≤ a) (h2 : a < 2 ^ 31) (asc : Bool) :
    store le 4 (encode_int le a asc)
      = beBytes 4 (if asc then (a + 2 ^ 31).toNat else (2 ^ 31 - 1 - a).toNat) := by
  unfold encode_int
  cases asc
  · simp only [Bool.false_eq_true, if_false, store_enc32, int_desc_val a h1 h2]
  · simp only [if_true, store_enc32, int_asc_val a h1 h2]

theorem store_encode_long (le : Bool) (a : Int) (h1 : -2 ^ 63 ≤ a) (h2 : a < 2 ^ 63) (asc : Bool) :
    store le 8 (encode_long le a asc)
      = beBytes 8 (if asc then (a + 2 ^ 63).toNat else (2 ^ 63 - 1 - a).toNat) := by
  unfold encode_long
  cases asc
  · simp only [Bool.false_eq_true, if_false, store_enc64, long_desc_val a h1 h2]
  · simp only [if_true, store_enc64, long_asc_val a h1 h2]

/-- Claim C2. For int32 values `a < b`, on either host, the 4 bytes stored for
`encode(a, asc)` are strictly below those of `encode(b, asc)` under `memcmp`,
and the 4 bytes stored for `encode(a, desc)` are strictly above those of
`encode(b, desc)`. -/
theorem encode_int_order (le : Bool) (a b : Int)
    (ha : -2 ^ 31 ≤ a) (hab : a < b) (hb : b < 2 ^ 31) :
    memcmp (store le 4 (encode_int le a true)) (store le 4 (encode_int le b true)) 4 < 0
    ∧ 0 < memcmp (store le 4 (encode_int le a false)) (store le 4 (encode_int le b false)) 4 := by
  rw [store_encode_int le a ha (by omega), store_encode_int le b (by omega) hb,
    store_encode_int le a ha (by omega), store_encode_int le b (by omega) hb]
  constructor
  · exact memcmp_beBytes_lt 4 _ _ (by simp; omega) (by simp; omega)
  · exact memcmp_beBytes_gt 4 _ _ (by simp; omega) (by simp; omega)

theorem encode_int_order_witness :
    (-2 ^ 31 : Int) ≤ -10 ∧ (-10 : Int) < 10 ∧ (10 : Int) < 2 ^ 31
    ∧ memcmp (store true 4 (encode_int true (-10) true)) (store true 4 (encode_int true 10 true)) 4 < 0
    ∧ 0 < memcmp (store true 4 (encode_int true (-10) false))
          (store true 4 (encode_int true 10 false)) 4 :=
  ⟨by decide, by decide, by decide,
    encode_int_order true (-10) 10 (by decide) (by decide) (by decide)⟩

theorem leBytes_compl (n w : Nat) (h : w < 256 ^ n) :
    leBytes n (256 ^ n - 1 - w) = (leBytes n w).map (fun b => 255 - b) := by
  induction n generalizing w with
  | zero => simp [leBytes]
  | succ n ih =>
    rw [pow_succ] at h
    have h2 : w / 256 < 256 ^ n := by
      rw [Nat.div_lt_iff_lt_mul (by norm_num)]; exact h
    have e1 : (256 ^ (n + 1) - 1 - w) % 256 = 255 - w % 256 := by rw [pow_succ]; omega
    have e2 : (256 ^ (n + 1) - 1 - w) / 256 = 256 ^ n - 1 - w / 256 := by rw [pow_succ]; omega
    simp only [leBytes, List.map_cons, e1, e2, ih _ h2]

theorem beBytes_compl (n w : Nat) (h : w < 256 ^ n) :
    beBytes n (256 ^ n - 1 - w) = (beBytes n w).map (fun b => 255 - b) := by
  simp [beBytes, leBytes_compl n w h]

theorem map_compl_eq_xor (l : List Nat) (h : ∀ b ∈ l, b < 256) :
    l.map (fun b => 255 - b) = l.map (fun b => b ^^^ 0xFF) := by
  apply List.map_congr_left
  intro b hb
  have := xor_allOnes 8 b (by simpa using h b hb)
  simpa using this.symm

theorem store_compl (le : Bool) (n x : Nat) (h : x < 256 ^ n) :
    store le n (256 ^ n - 1 - x) = (store le n x).map (fun b => b ^^^ 0xFF) := by
  cases le
  · simp only [store, Bool.false_eq_true, if_false]
    rw [beBytes_compl n x h, map_compl_eq_xor _ (beBytes_lt n x)]
  · simp only [store, if_true]
    rw [leBytes_compl n x h, map_compl_eq_xor _ (leBytes_lt n x)]

theorem store_encode_timestamp_asc (le : Bool) (a : Nat) :
    store le 8 (encode_timestamp le a true) = beBytes 8 a := by
  simp [encode_timestamp, store_enc64]

theorem store_encode_timestamp_desc (le : Bool) (a : Nat) :
    store le 8 (encode_timestamp le a false) = (beBytes 8 a).map (fun b => b ^^^ 0xFF) := by
  have hlt := enc64_lt le a
  have e : (0xFFFFFFFFFFFFFFFF : Nat) = 2 ^ 64 - 1 := by norm_num
  simp only [encode_timestamp, Bool.false_eq_true, if_false]
  rw [e, xor_allOnes 64 _ hlt]
  have h := store_compl le 8 (_enc64 le a) (by simpa using hlt)
  rw [store_enc64] at h
  simpa using h

theorem store_encode_timestamp_desc_val (le : Bool) (a : Nat) (ha : a < 2 ^ 64) :
    store le 8 (encode_timestamp le a false) = beBytes 8 (2 ^ 64 - 1 - a) := by
  rw [store_encode_timestamp_desc]
  have h := beBytes_compl 8 a (by simpa using ha)
  rw [map_compl_eq_xor _ (beBytes_lt 8 a)] at h
  simpa using h.symm

/-- Claim C3. For int64 values `a < b`, on either host, the 8 bytes stored for
`encode(a, asc)` are strictly below those of `encode(b, asc)` under `memcmp`
and the bytes of `encode(a, desc)` strictly above those of `encode(b, desc)`;
the `put` of a `Date` is the `put` of a `long`, and `decode_date` is
`decode_long` on every input, for the value and for the pointer overload. -/
theorem encode_long_order (le : Bool) (a b : Int)
    (ha : -2 ^ 63 ≤ a) (hab : a < b) (hb : b < 2 ^ 63) :
    memcmp (store le 8 (encode_long le a true)) (store le 8 (encode_long le b true)) 8 < 0
    ∧ 0 < memcmp (store le 8 (encode_long le a false)) (store le 8 (encode_long le b false)) 8
    ∧ (∀ (r : EncodedRecord) (l : Int) (asc : Bool),
        EncodedRecord.put_Date le r l asc = EncodedRecord.put_long le r l asc)
    ∧ (∀ (ul : Nat) (asc : Bool), decode_date le ul asc = decode_long le ul asc)
    ∧ (∀ (p : List Nat) (asc : Bool), decode_date_ptr le p asc = decode_long_ptr le p asc) := by
  rw [store_encode_long le a ha (by omega), store_encode_long le b (by omega) hb,
    store_encode_long le a ha (by omega), store_encode_long le b (by omega) hb]
  refine ⟨?_, ?_, fun _ _ _ => rfl, fun _ _ => rfl, fun _ _ => rfl⟩
  · exact memcmp_beBytes_lt 8 _ _ (by simp; omega) (by simp; omega)
  · exact memcmp_beBytes_gt 8 _ _ (by simp; omega) (by simp; omega)

theorem encode_long_order_witness :
    ((-2 ^ 63 : Int) ≤ -200000 ∧ (-200000 : Int) < 1000000 ∧ (1000000 : Int) < 2 ^ 63)
    ∧ memcmp (store true 8 (encode_long true (-200000) true))
        (store true 8 (encode_long true 1000000 true)) 8 < 0
    ∧ 0 < memcmp (store true 8 (encode_long true (-200000) false))
        (store true 8 (encode_long true 1000000 false)) 8 :=
  ⟨⟨by decide, by decide, by decide⟩,
    (encode_long_order true (-200000) 1000000 (by decide) (by decide) (by decide)).1,
    (encode_long_order true (-200000) 1000000 (by decide) (by decide) (by decide)).2.1⟩

/-- Claim C4. For unsigned 64-bit timestamps `a < b`, on either host, the 8
bytes stored for `encode(a, asc)` are the big-endian bytes of `a` and compare
strictly below those of `encode(b, asc)`; the bytes stored for
`encode(a, desc)` are the big-endian bytes of `a` with every bit inverted and
compare strictly above those of `encode(b, desc)`. -/
theorem encode_timestamp_order (le : Bool) (a b : Nat) (hab : a < b) (hb : b < 2 ^ 64) :
    store le 8 (encode_timestamp le a true) = beBytes 8 a
    ∧ memcmp (store le 8 (encode_timestamp le a true))
        (store le 8 (encode_timestamp le b true)) 8 < 0
    ∧ store le 8 (encode_timestamp le a false) = (beBytes 8 a).map (fun x => x ^^^ 0xFF)
    ∧ 0 < memcmp (store le 8 (encode_timestamp le a false))
        (store le 8 (encode_timestamp le b false)) 8 := by
  refine ⟨store_encode_timestamp_asc le a, ?_, store_encode_timestamp_desc le a, ?_⟩
  · rw [store_encode_timestamp_asc, store_encode_timestamp_asc]
    exact memcmp_beBytes_lt 8 _ _ hab (by simpa using hb)
  · rw [store_encode_timestamp_desc_val le a (by omega), store_encode_timestamp_desc_val le b hb]
    exact memcmp_beBytes_gt 8 _ _ (by omega) (by simp; omega)

theorem encode_timestamp_order_witness :
    ((258 : Nat) < 65536 ∧ (65536 : Nat) < 2 ^ 64)
    ∧ store true 8 (encode_timestamp true 258 true) = beBytes 8 258
    ∧ memcmp (store true 8 (encode_timestamp true 258 true))
        (store true 8 (encode_timestamp true 65536 true)) 8 < 0
    ∧ store true 8 (encode_timestamp true 258 false) = (beBytes 8 258).map (fun x => x ^^^ 0xFF)
    ∧ 0 < memcmp (store true 8 (encode_timestamp true 258 false))
        (store true 8 (encode_timestamp true 65536 false)) 8 :=
  ⟨⟨by decide, by decide⟩, encode_timestamp_order true 258 65536 (by decide) (by decide)⟩

/-! ## Round trips of the fixed-width codecs -/

theorem xor_xor_cancel (x m : Nat) : (x ^^^ m) ^^^ m = x := by
  rw [Nat.xor_assoc, Nat.xor_self, Nat.xor_zero]

theorem toI32_toU32 (v : Int) (h1 : -2 ^ 31 ≤ v) (h2 : v < 2 ^ 31) : toI32 (toU32 v) = v := by
  unfold toI32 toU32
  split <;> omega

theorem toI64_toU64 (v : Int) (h1 : -2 ^ 63 ≤ v) (h2 : v < 2 ^ 63) : toI64 (toU64 v) = v := by
  unfold toI64 toU64
  split <;> omega

theorem toU32_lt (v : Int) : toU32 v < 2 ^ 32 := by unfold toU32; omega

theorem toU64_lt (v : Int) : toU64 v < 2 ^ 64 := by unfold toU64; omega

theorem load_take_store (le : Bool) (n x : Nat) (t : List Nat) :
    load le ((store le n x ++ t).take n) = x % 256 ^ n := by
  have h : (store le n x ++ t).take n = store le n x := by
    have := List.take_left (store le n x) t
    rwa [length_store] at this
  rw [h, load_store]

theorem decode_int_encode_int (le : Bool) (v : Int) (d : Bool)
    (h1 : -2 ^ 31 ≤ v) (h2 : v < 2 ^ 31) : decode_int le (encode_int le v d) d = v := by
  unfold decode_int encode_int
  cases d
  · have hlt : toU32 v ^^^ 0x7FFFFFFF < 2 ^ 32 := Nat.xor_lt_two_pow (toU32_lt v) (by norm_num)
    simp only [Bool.false_eq_true, if_false, dec32_enc32, Nat.mod_eq_of_lt hlt, xor_xor_cancel]
    exact toI32_toU32 v h1 h2
  · have hlt : toU32 v ^^^ 0x80000000 < 2 ^ 32 := Nat.xor_lt_two_pow (toU32_lt v) (by norm_num)
    simp only [if_true, dec32_enc32, Nat.mod_eq_of_lt hlt, xor_xor_cancel]
    exact toI32_toU32 v h1 h2

theorem decode_int_ptr_store (le : Bool) (x : Nat) (d : Bool) (t : List Nat) (hx : x < 2 ^ 32) :
    decode_int_ptr le (store le 4 x ++ t) d = decode_int le x d := by
  unfold decode_int_ptr decode_int
  rw [load_take_store, Nat.mod_eq_of_lt (by simpa using hx)]

theorem decode_long_encode_long (le : Bool) (v : Int) (d : Bool)
    (h1 : -2 ^ 63 ≤ v) (h2 : v < 2 ^ 63) : decode_long le (encode_long le v d) d = v := by
  unfold decode_long encode_long
  cases d
  · have hlt : toU64 v ^^^ 0x7FFFFFFFFFFFFFFF < 2 ^ 64 :=
      Nat.xor_lt_two_pow (toU64_lt v) (by norm_num)
    simp only [Bool.false_eq_true, if_false, dec64_enc64, Nat.mod_eq_of_lt hlt, xor_xor_cancel]
    exact toI64_toU64 v h1 h2
  · have hlt : toU64 v ^^^ 0x8000000000000000 < 2 ^ 64 :=
      Nat.xor_lt_two_pow (toU64_lt v) (by norm_num)
    simp only [if_true, dec64_enc64, Nat.mod_eq_of_lt hlt, xor_xor_cancel]
    exact toI64_toU64 v h1 h2

theorem decode_long_ptr_store (le : Bool) (x : Nat) (d : Bool) (t : List Nat) (hx : x < 2 ^ 64) :
    decode_long_ptr le (store le 8 x ++ t) d = decode_long le x d := by
  unfold decode_long_ptr decode_long
  rw [load_take_store, Nat.mod_eq_of_lt (by simpa using hx)]

theorem encode_timestamp_lt (le : Bool) (v : Nat) (d : Bool) : encode_timestamp le v d < 2 ^ 64 := by
  unfold encode_timestamp
  cases d
  · simp only [Bool.false_eq_true, if_false]
    exact Nat.xor_lt_two_pow (enc64_lt le v) (by norm_num)
  · simpa using enc64_lt le v

theorem bitswap_xor_allOnes (x : Nat) (hx : x < 2 ^ 64) :
    bitswap 8 (x ^^^ 0xFFFFFFFFFFFFFFFF) = bitswap 8 x ^^^ 0xFFFFFFFFFFFFFFFF := by
  have e : (0xFFFFFFFFFFFFFFFF : Nat) = 2 ^ 64 - 1 := by norm_num
  have e2 : (2 : Nat) ^ 64 = 256 ^ 8 := by norm_num
  rw [e, xor_allOnes 64 x hx, xor_allOnes 64 _ (by rw [e2]; exact bitswap_lt 8 x)]
  have h1 := leBytes_compl 8 (bitswap 8 x) (bitswap_lt 8 x)
  rw [leBytes_bitswap, ← beBytes_compl 8 x (by rw [← e2]; exact hx)] at h1
  have h2 := congrArg ofLE h1
  rw [ofLE_leBytes] at h2
  unfold bitswap at h2 ⊢
  rw [← e2] at h2
  rw [← h2, Nat.mod_eq_of_lt]
  have := bitswap_lt 8 x
  unfold bitswap at this
  omega

theorem decode_timestamp_encode (le : Bool) (v : Nat) (d : Bool) (t : List Nat) (hv : v < 2 ^ 64) :
    decode_timestamp le (store le 8 (encode_timestamp le v d) ++ t) d = v := by
  unfold decode_timestamp
  rw [load_take_store, Nat.mod_eq_of_lt (by simpa using encode_timestamp_lt le v d)]
  unfold encode_timestamp
  cases d
  · simp only [Bool.false_eq_true, if_false]
    cases le
    · simp only [_dec64, _enc64, Bool.false_eq_true, if_false]
      have h1 : v % 2 ^ 64 = v := Nat.mod_eq_of_lt hv
      have h2 : v ^^^ 0xFFFFFFFFFFFFFFFF < 2 ^ 64 := Nat.xor_lt_two_pow hv (by norm_num)
      rw [h1, Nat.mod_eq_of_lt h2, xor_xor_cancel]
    · simp only [_dec64, _enc64, if_true]
      have hb : bitswap 8 v < 2 ^ 64 := by simpa using bitswap_lt 8 v
      rw [bitswap_xor_allOnes _ hb, xor_xor_cancel, bitswap_bitswap]
      exact Nat.mod_eq_of_lt (by simpa using hv)
  · simp only [if_true, dec64_enc64]
    exact Nat.mod_eq_of_lt hv

/-- Claim C10. Fixed-width round trip, on either host and for both directions
`d`: for every int32 `i`, `decode_int` of `encode(i, d)` is `i`, from the
returned `uint32_t` and from the stored bytes; for every int64 `l`,
`decode_long` and `decode_date` of `encode(l, d)` are `l`, from the returned
`uint64_t` and from the stored bytes; for every unsigned 64-bit timestamp
`ts`, `decode_timestamp` of the stored bytes of `encode(ts, d)` is `ts`. -/
theorem fixed_width_round_trip (le d : Bool) (i l : Int) (ts : Nat)
    (hi1 : -2 ^ 31 ≤ i) (hi2 : i < 2 ^ 31) (hl1 : -2 ^ 63 ≤ l) (hl2 : l < 2 ^ 63)
    (hts : ts < 2 ^ 64) :
    decode_int le (encode_int le i d) d = i
    ∧ decode_int_ptr le (store le 4 (encode_int le i d)) d = i
    ∧ decode_long le (encode_long le l d) d = l
    ∧ decode_long_ptr le (store le 8 (encode_long le l d)) d = l
    ∧ decode_date le (encode_long le l d) d = l
    ∧ decode_date_ptr le (store le 8 (encode_long le l d)) d = l
    ∧ decode_timestamp le (store le 8 (encode_timestamp le ts d)) d = ts := by
  have hi := decode_int_encode_int le i d hi1 hi2
  have hl := decode_long_encode_long le l d hl1 hl2
  have hip := decode_int_ptr_store le (encode_int le i d) d [] (enc32_lt le _)
  have hlp := decode_long_ptr_store le (encode_long le l d) d [] (enc64_lt le _)
  have htp := decode_timestamp_encode le ts d [] hts
  simp only [List.append_nil] at hip hlp htp
  refine ⟨hi, hip.trans hi, hl, hlp.trans hl, hl, ?_, htp⟩
  exact hlp.trans hl

theorem fixed_width_round_trip_witness :
    ((-2 ^ 31 : Int) ≤ -10 ∧ (-10 : Int) < 2 ^ 31 ∧ (-2 ^ 63 : Int) ≤ -200000
      ∧ (-200000 : Int) < 2 ^ 63 ∧ (1234567890123 : Nat) < 2 ^ 64)
    ∧ decode_int true (encode_int true (-10) false) false = -10
    ∧ decode_int_ptr true (store true 4 (encode_int true (-10) false)) false = -10
    ∧ decode_long true (encode_long true (-200000) false) false = -200000
    ∧ decode_long_ptr true (store true 8 (encode_long true (-200000) false)) false = -200000
    ∧ decode_date true (encode_long true (-200000) false) false = -200000
    ∧ decode_date_ptr true (store true 8 (encode_long true (-200000) false)) false = -200000
    ∧ decode_timestamp true (store true 8 (encode_timestamp true 1234567890123 false)) false
        = 1234567890123 :=
  ⟨⟨by decide, by decide, by decide, by decide, by decide⟩,
    fixed_width_round_trip true false (-10) (-200000) 1234567890123
      (by decide) (by decide) (by decide) (by decide) (by decide)⟩

/-! ## Doubles -/

theorem store_encode_double (le : Bool) (u : Nat) (hu : u < 2 ^ 64) (asc : Bool) :
    store le 8 (encode_double le u asc)
      = beBytes 8 (if asc then (signMagnitude u + 2 ^ 63).toNat
                   else (2 ^ 63 - 1 - signMagnitude u).toNat) := by
  have hs := and_topBit 63 u hu
  have e1 : (0x8000000000000000 : Nat) = 2 ^ 63 := by norm_num
  have e2 : (0xFFFFFFFFFFFFFFFF : Nat) = 2 ^ 64 - 1 := by norm_num
  have e3 : (0x7FFFFFFFFFFFFFFF : Nat) = 2 ^ 63 - 1 := by norm_num
  have hm : u % 2 ^ 64 = u := Nat.mod_eq_of_lt hu
  unfold encode_double signMagnitude
  simp only [hm, e1, e2, e3, store_enc64]
  congr 1
  by_cases hlt : u < 2 ^ 63
  · have hn : ¬ (u &&& 2 ^ 63 ≠ 0) := by rw [hs]; omega
    have hx := xor_topBit 63 u hu
    have hy := xor_allOnes 63 u hlt
    simp only [hlt, if_true] at hx
    cases asc
    · simp only [if_neg hn, hlt, if_false, if_true, Bool.false_eq_true, hy]; omega
    · simp only [if_neg hn, hlt, if_false, if_true, hx]; omega
  · have hn : u &&& 2 ^ 63 ≠ 0 := by rw [hs]; omega
    have hy := xor_allOnes 64 u hu
    cases asc
    · simp only [if_pos hn, hlt, if_false, if_true, Bool.false_eq_true]; omega
    · simp only [if_pos hn, hlt, if_false, if_true, hy]; omega

theorem signMagnitude_range (u : Nat) : -2 ^ 63 ≤ signMagnitude u ∧ signMagnitude u < 2 ^ 63 := by
  unfold signMagnitude
  split <;> omega

theorem doubleMagnitude_mono (e1 m1 e2 m2 : Nat) (h1 : m1 < 2 ^ 52) (h2 : m2 < 2 ^ 52)
    (h : e1 * 2 ^ 52 + m1 < e2 * 2 ^ 52 + m2) :
    doubleMagnitude e1 m1 < doubleMagnitude e2 m2 := by
  have hle : e1 ≤ e2 := by
    by_contra hc
    have : (e2 + 1) * 2 ^ 52 ≤ e1 * 2 ^ 52 := Nat.mul_le_mul_right _ (by omega)
    omega
  unfold doubleMagnitude
  rcases Nat.eq_or_lt_of_le hle with heq | hlt
  · subst heq
    have hm : m1 < m2 := by omega
    split
    · omega
    · exact Nat.mul_lt_mul_of_pos_right (by omega) (Nat.pos_pow_of_pos _ (by norm_num))
  · have hb : (if e1 = 0 then 2 * m1 else (2 ^ 52 + m1) * 2 ^ e1) < 2 ^ 52 * 2 ^ (e1 + 1) := by
      split
      · next h0 =>
        subst h0
        norm_num
        omega
      · have : (2 ^ 52 + m1) * 2 ^ e1 < (2 * 2 ^ 52) * 2 ^ e1 :=
          Nat.mul_lt_mul_of_pos_right (by omega) (Nat.pos_pow_of_pos _ (by norm_num))
        calc (2 ^ 52 + m1) * 2 ^ e1 < (2 * 2 ^ 52) * 2 ^ e1 := this
          _ = 2 ^ 52 * 2 ^ (e1 + 1) := by ring
    have hc : 2 ^ 52 * 2 ^ (e1 + 1) ≤ (2 ^ 52 + m2) * 2 ^ e2 := by
      have hp : 2 ^ (e1 + 1) ≤ 2 ^ e2 := Nat.pow_le_pow_right (by norm_num) (by omega)
      exact Nat.mul_le_mul (by omega) hp
    have he2 : ¬ e2 = 0 := by omega
    simp only [he2, if_false]
    omega

theorem magnitude_lt_imp (x y : Nat)
    (h : doubleMagnitude (x / 2 ^ 52 % 2048) (x % 2 ^ 52)
       < doubleMagnitude (y / 2 ^ 52 % 2048) (y % 2 ^ 52)) :
    x % 2 ^ 63 < y % 2 ^ 63 := by
  by_contra hc
  rcases Nat.eq_or_lt_of_le (not_lt.mp hc) with heq | hgt
  · have e1 : x / 2 ^ 52 % 2048 = y / 2 ^ 52 % 2048 := by omega
    have e2 : x % 2 ^ 52 = y % 2 ^ 52 := by omega
    rw [e1, e2] at h
    omega
  · have := doubleMagnitude_mono (y / 2 ^ 52 % 2048) (y % 2 ^ 52) (x / 2 ^ 52 % 2048)
      (x % 2 ^ 52) (Nat.mod_lt _ (by norm_num)) (Nat.mod_lt _ (by norm_num)) (by omega)
    omega

/-- Numerically smaller doubles, and `-0.0` against `+0.0`, are smaller in the
sign-magnitude reading of their bit patterns. -/
theorem signMagnitude_lt_of_scaled (a b : Nat) (ha : a < 2 ^ 64) (hb : b < 2 ^ 64)
    (h : doubleScaled a < doubleScaled b ∨ (a = 2 ^ 63 ∧ b = 0)) :
    signMagnitude a < signMagnitude b := by
  rcases h with h | ⟨rfl, rfl⟩
  · unfold doubleScaled at h
    unfold signMagnitude
    rw [Nat.mod_eq_of_lt ha, Nat.mod_eq_of_lt hb]
    by_cases sa : a / 2 ^ 63 % 2 = 1 <;> by_cases sb : b / 2 ^ 63 % 2 = 1
    · simp only [sa, sb, if_true] at h
      have := magnitude_lt_imp b a (by omega)
      split <;> split <;> omega
    · split <;> split <;> omega
    · simp only [sa, sb, if_true, if_false] at h
      split <;> split <;> omega
    · simp only [sa, sb, if_false] at h
      have := magnitude_lt_imp a b (by omega)
      split <;> split <;> omega
  · decide

/-- Claim C5. For non-NaN binary64 bit patterns `a`, `b` (infinities included)
with `a` numerically below `b`, or `a = -0.0` and `b = +0.0`, on either host,
the 8 bytes stored for `encode(a, asc)` are strictly below those of
`encode(b, asc)` under `memcmp`; and the bytes of `-1.0`, `-0.0`, `+0.0`,
`1.0` ascend strictly in this order. -/
theorem encode_double_order_asc (le : Bool) (a b : Nat) (ha : a < 2 ^ 64) (hb : b < 2 ^ 64)
    (_hna : isNaN a = false) (_hnb : isNaN b = false)
    (h : doubleScaled a < doubleScaled b ∨ (a = 0x8000000000000000 ∧ b = 0)) :
    memcmp (store le 8 (encode_double le a true)) (store le 8 (encode_double le b true)) 8 < 0
    ∧ memcmp (store le 8 (encode_double le 0xBFF0000000000000 true))
        (store le 8 (encode_double le 0x8000000000000000 true)) 8 < 0
    ∧ memcmp (store le 8 (encode_double le 0x8000000000000000 true))
        (store le 8 (encode_double le 0 true)) 8 < 0
    ∧ memcmp (store le 8 (encode_double le 0 true))
        (store le 8 (encode_double le 0x3FF0000000000000 true)) 8 < 0 := by
  have key : ∀ x y : Nat, x < 2 ^ 64 → y < 2 ^ 64 → signMagnitude x < signMagnitude y →
      memcmp (store le 8 (encode_double le x true)) (store le 8 (encode_double le y true)) 8 < 0 := by
    intro x y hx hy hlt
    rw [store_encode_double le x hx, store_encode_double le y hy]
    have rx := signMagnitude_range x
    have ry := signMagnitude_range y
    exact memcmp_beBytes_lt 8 _ _ (by simp; omega) (by simp; omega)
  refine ⟨key a b ha hb (signMagnitude_lt_of_scaled a b ha hb (by simpa using h)), ?_, ?_, ?_⟩
  · exact key _ _ (by norm_num) (by norm_num) (by decide)
  · exact key _ _ (by norm_num) (by norm_num) (by decide)
  · exact key _ _ (by norm_num) (by norm_num) (by decide)

theorem encode_double_order_asc_witness :
    ((0x8000000000000002 : Nat) < 2 ^ 64 ∧ (1 : Nat) < 2 ^ 64
      ∧ isNaN 0x8000000000000002 = false ∧ isNaN 1 = false
      ∧ (doubleScaled 0x8000000000000002 < doubleScaled 1
          ∨ ((0x8000000000000002 : Nat) = 0x8000000000000000 ∧ (1 : Nat) = 0)))
    ∧ memcmp (store true 8 (encode_double true 0x8000000000000002 true))
        (store true 8 (encode_double true 1 true)) 8 < 0 :=
  ⟨⟨by decide, by decide, by decide, by decide, Or.inl (by decide)⟩,
    (encode_double_order_asc true 0x8000000000000002 1 (by decide) (by decide)
      (by decide) (by decide) (Or.inl (by decide))).1⟩

/-- Claim C6. For non-NaN binary64 bit patterns `a`, `b` with `a` numerically
below `b`, or `a = -0.0` and `b = +0.0`, on either host, the 8 bytes stored
for `encode(a, desc)` are strictly above those of `encode(b, desc)` under
`memcmp`. -/
theorem encode_double_order_desc (le : Bool) (a b : Nat) (ha : a < 2 ^ 64) (hb : b < 2 ^ 64)
    (_hna : isNaN a = false) (_hnb : isNaN b = false)
    (h : doubleScaled a < doubleScaled b ∨ (a = 0x8000000000000000 ∧ b = 0)) :
    0 < memcmp (store le 8 (encode_double le a false))
          (store le 8 (encode_double le b false)) 8 := by
  have hlt := signMagnitude_lt_of_scaled a b ha hb (by simpa using h)
  rw [store_encode_double le a ha, store_encode_double le b hb]
  have rx := signMagnitude_range a
  have ry := signMagnitude_range b
  exact memcmp_beBytes_gt 8 _ _ (by simp; omega) (by simp; omega)

theorem encode_double_order_desc_witness :
    ((0x8000000000000000 : Nat) < 2 ^ 64 ∧ (0 : Nat) < 2 ^ 64
      ∧ isNaN 0x8000000000000000 = false ∧ isNaN 0 = false
      ∧ (doubleScaled 0x8000000000000000 < doubleScaled 0
          ∨ ((0x8000000000000000 : Nat) = 0x8000000000000000 ∧ (0 : Nat) = 0)))
    ∧ 0 < memcmp (store true 8 (encode_double true 0x8000000000000000 false))
        (store true 8 (encode_double true 0 false)) 8 :=
  ⟨⟨by decide, by decide, by decide, by decide, Or.inr ⟨rfl, rfl⟩⟩,
    encode_double_order_desc true 0x8000000000000000 0 (by decide) (by decide)
      (by decide) (by decide) (Or.inr ⟨rfl, rfl⟩)⟩

/-! ## Strings and binary payloads -/

theorem byte_compl (c : Nat) (h : c < 256) : (c ^^^ 0xFF) % 256 = 255 - c := by
  have := xor_allOnes 8 c (by simpa using h)
  simp only [Nat.reducePow, Nat.add_one_sub_one] at this
  rw [this]
  omega

theorem string_asc_lt (a b : List Nat) (ha : ∀ c ∈ a, 0 < c) (hb : ∀ c ∈ b, 0 < c)
    (h : bytesLt a b = true) :
    memcmp (a ++ [0, 0]) (b ++ [0, 0]) (min (a ++ [0, 0]).length (b ++ [0, 0]).length) < 0 := by
  induction a generalizing b with
  | nil =>
    cases b with
    | nil => simp [bytesLt] at h
    | cons d y =>
      have hd : 0 < d := hb d (by simp)
      have e : min ([] ++ [0, 0] : List Nat).length (d :: y ++ [0, 0]).length = 1 + 1 := by
        simp
      rw [e]
      exact memcmp_lt_of_head _ _ _ _ _ hd
  | cons c x ih =>
    cases b with
    | nil => simp [bytesLt] at h
    | cons d y =>
      have e : min (c :: x ++ [0, 0]).length (d :: y ++ [0, 0]).length
          = min (x ++ [0, 0]).length (y ++ [0, 0]).length + 1 := by
        simp only [List.cons_append, List.length_cons]; omega
      rw [e]
      simp only [bytesLt] at h
      by_cases hcd : c = d
      · subst hcd
        simp only [if_true] at h
        rw [List.cons_append, List.cons_append, memcmp_cons_same]
        exact ih y (fun z hz => ha z (by simp [hz])) (fun z hz => hb z (by simp [hz])) h
      · simp only [hcd, if_false, decide_eq_true_eq] at h
        exact memcmp_lt_of_head _ _ _ _ _ h

theorem string_desc_lt (a b : List Nat) (ha : ∀ c ∈ a, 0 < c ∧ c < 256)
    (hb : ∀ c ∈ b, 0 < c ∧ c < 256) (h : bytesLt a b = true) :
    memcmp (b.map (fun c => (c ^^^ 0xFF) % 256) ++ [0xFF, 0xFF])
      (a.map (fun c => (c ^^^ 0xFF) % 256) ++ [0xFF, 0xFF])
      (min (a.map (fun c => (c ^^^ 0xFF) % 256) ++ [0xFF, 0xFF]).length
        (b.map (fun c => (c ^^^ 0xFF) % 256) ++ [0xFF, 0xFF]).length) < 0 := by
  induction a generalizing b with
  | nil =>
    cases b with
    | nil => simp [bytesLt] at h
    | cons d y =>
      have hd := hb d (by simp)
      have e : min (([] : List Nat).map (fun c => (c ^^^ 0xFF) % 256) ++ [0xFF, 0xFF]).length
          ((d :: y).map (fun c => (c ^^^ 0xFF) % 256) ++ [0xFF, 0xFF]).length = 1 + 1 := by
        simp
      rw [e]
      simp only [List.map_cons, List.map_nil, List.nil_append, List.cons_append]
      apply memcmp_lt_of_head
      rw [byte_compl d hd.2]; omega
  | cons c x ih =>
    cases b with
    | nil => simp [bytesLt] at h
    | cons d y =>
      have hc := ha c (by simp)
      have hd := hb d (by simp)
      have e : min ((c :: x).map (fun c => (c ^^^ 0xFF) % 256) ++ [0xFF, 0xFF]).length
          ((d :: y).map (fun c => (c ^^^ 0xFF) % 256) ++ [0xFF, 0xFF]).length
          = min (x.map (fun c => (c ^^^ 0xFF) % 256) ++ [0xFF, 0xFF]).length
              (y.map (fun c => (c ^^^ 0xFF) % 256) ++ [0xFF, 0xFF]).length + 1 := by
        simp only [List.map_cons, List.cons_append, List.length_cons]; omega
      rw [e]
      simp only [bytesLt] at h
      simp only [List.map_cons, List.cons_append]
      by_cases hcd : c = d
      · subst hcd
        simp only [if_true] at h
        rw [memcmp_cons_same]
        exact ih y (fun z hz => ha z (by simp [hz])) (fun z hz => hb z (by simp [hz])) h
      · simp only [hcd, if_false, decide_eq_true_eq] at h
        apply memcmp_lt_of_head
        rw [byte_compl d hd.2, byte_compl c hc.2]; omega

/-- Claim C7. For byte strings `a`, `b` without a 0x00 byte, `a`
lexicographically below `b` (a proper initial segment counting as below), the
bytes the ascending string encoder writes for `a` are strictly below those it
writes for `b` under `memcmp` over the first `min(|E(a)|, |E(b)|)` bytes. -/
theorem encode_string_order_asc (a b : List Nat) (ha : ∀ c ∈ a, 0 < c ∧ c < 256)
    (hb : ∀ c ∈ b, 0 < c ∧ c < 256) (h : bytesLt a b = true) :
    memcmp (encode_string a true).1 (encode_string b true).1
      (min (encode_string a true).1.length (encode_string b true).1.length) < 0 := by
  simp only [encode_string, if_true]
  exact string_asc_lt a b (fun c hc => (ha c hc).1) (fun c hc => (hb c hc).1) h

theorem encode_string_order_asc_witness :
    ((∀ c ∈ [0x61, 0x62], 0 < c ∧ c < 256) ∧ (∀ c ∈ [0x61, 0x62, 0x63], 0 < c ∧ c < 256)
      ∧ bytesLt [0x61, 0x62] [0x61, 0x62, 0x63] = true)
    ∧ memcmp (encode_string [0x61, 0x62] true).1 (encode_string [0x61, 0x62, 0x63] true).1
      (min (encode_string [0x61, 0x62] true).1.length
        (encode_string [0x61, 0x62, 0x63] true).1.length) < 0 :=
  ⟨⟨by decide, by decide, by decide⟩,
    encode_string_order_asc [0x61, 0x62] [0x61, 0x62, 0x63] (by decide) (by decide) (by decide)⟩

/-- Claim C8. For byte strings `a`, `b` without a 0x00 byte, `a`
lexicographically below `b` (a proper initial segment counting as below), the
bytes the descending string encoder writes for `a` are strictly above those it
writes for `b` under `memcmp` over the first `min(|E(a)|, |E(b)|)` bytes. -/
theorem encode_string_order_desc (a b : List Nat) (ha : ∀ c ∈ a, 0 < c ∧ c < 256)
    (hb : ∀ c ∈ b, 0 < c ∧ c < 256) (h : bytesLt a b = true) :
    0 < memcmp (encode_string a false).1 (encode_string b false).1
      (min (encode_string a false).1.length (encode_string b false).1.length) := by
  simp only [encode_string, Bool.false_eq_true, if_false]
  have := string_desc_lt a b ha hb h
  rw [memcmp_swap]
  omega

theorem encode_string_order_desc_witness :
    ((∀ c ∈ [0x61, 0x62], 0 < c ∧ c < 256) ∧ (∀ c ∈ [0x61, 0x63], 0 < c ∧ c < 256)
      ∧ bytesLt [0x61, 0x62] [0x61, 0x63] = true)
    ∧ 0 < memcmp (encode_string [0x61, 0x62] false).1 (encode_string [0x61, 0x63] false).1
      (min (encode_string [0x61, 0x62] false).1.length
        (encode_string [0x61, 0x63] false).1.length) :=
  ⟨⟨by decide, by decide, by decide⟩,
    encode_string_order_desc [0x61, 0x62] [0x61, 0x63] (by decide) (by decide) (by decide)⟩

theorem binary_asc_lt (a b : List Nat) (h : bytesLt a b = true) :
    memcmp (encode_binary_asc_loop a ++ [0, 0]) (encode_binary_asc_loop b ++ [0, 0])
      (min (encode_binary_asc_loop a ++ [0, 0]).length
        (encode_binary_asc_loop b ++ [0, 0]).length) < 0 := by
  induction a generalizing b with
  | nil =>
    cases b with
    | nil => simp [bytesLt] at h
    | cons d y =>
      by_cases hd : d = 0
      · subst hd
        have e : min (encode_binary_asc_loop [] ++ [0, 0]).length
            (encode_binary_asc_loop (0 :: y) ++ [0, 0]).length = 1 + 1 := by
          simp [encode_binary_asc_loop]
        rw [e]
        simp only [encode_binary_asc_loop, if_true, List.nil_append, List.cons_append]
        rw [memcmp_cons_same]
        exact memcmp_lt_of_head _ _ _ _ _ (by norm_num)
      · have e : min (encode_binary_asc_loop [] ++ [0, 0]).length
            (encode_binary_asc_loop (d :: y) ++ [0, 0]).length = 1 + 1 := by
          simp [encode_binary_asc_loop, hd]
        rw [e]
        simp only [encode_binary_asc_loop, hd, if_false, List.nil_append, List.cons_append]
        exact memcmp_lt_of_head _ _ _ _ _ (by omega)
  | cons c x ih =>
    cases b with
    | nil => simp [bytesLt] at h
    | cons d y =>
      simp only [bytesLt] at h
      by_cases hcd : c = d
      · subst hcd
        simp only [if_true] at h
        have hi := ih y h
        by_cases hc : c = 0
        · subst hc
          have e : min (encode_binary_asc_loop (0 :: x) ++ [0, 0]).length
              (encode_binary_asc_loop (0 :: y) ++ [0, 0]).length
              = min (encode_binary_asc_loop x ++ [0, 0]).length
                  (encode_binary_asc_loop y ++ [0, 0]).length + 1 + 1 := by
            simp only [encode_binary_asc_loop, if_true, List.cons_append, List.length_cons]; omega
          rw [e]
          simp only [encode_binary_asc_loop, if_true, List.cons_append]
          rw [memcmp_cons_same, memcmp_cons_same]
          exact hi
        · have e : min (encode_binary_asc_loop (c :: x) ++ [0, 0]).length
              (encode_binary_asc_loop (c :: y) ++ [0, 0]).length
              = min (encode_binary_asc_loop x ++ [0, 0]).length
                  (encode_binary_asc_loop y ++ [0, 0]).length + 1 := by
            simp only [encode_binary_asc_loop, hc, if_false, List.cons_append, List.length_cons]
            omega
          rw [e]
          simp only [encode_binary_asc_loop, hc, if_false, List.cons_append]
          rw [memcmp_cons_same]
          exact hi
      · simp only [hcd, if_false, decide_eq_true_eq] at h
        have hd : ¬ d = 0 := by omega
        obtain ⟨k, hk⟩ : ∃ k, min (encode_binary_asc_loop (c :: x) ++ [0, 0]).length
            (encode_binary_asc_loop (d :: y) ++ [0, 0]).length = k + 1 := by
          refine ⟨min (encode_binary_asc_loop (c :: x) ++ [0, 0]).length
            (encode_binary_asc_loop (d :: y) ++ [0, 0]).length - 1, ?_⟩
          have h1 : 0 < (encode_binary_asc_loop (c :: x) ++ [0, 0]).length := by simp
          have h2 : 0 < (encode_binary_asc_loop (d :: y) ++ [0, 0]).length := by simp
          omega
        rw [hk]
        by_cases hc : c = 0
        · simp only [encode_binary_asc_loop, hc, hd, if_true, if_false, List.cons_append]
          exact memcmp_lt_of_head _ _ _ _ _ (by omega)
        · simp only [encode_binary_asc_loop, hc, hd, if_false, List.cons_append]
          exact memcmp_lt_of_head _ _ _ _ _ h

theorem binary_desc_lt (a b : List Nat) (ha : ∀ c ∈ a, c < 256) (hb : ∀ c ∈ b, c < 256)
    (h : bytesLt a b = true) :
    memcmp (encode_binary_desc_loop b ++ [0xFF, 0xFF]) (encode_binary_desc_loop a ++ [0xFF, 0xFF])
      (min (encode_binary_desc_loop a ++ [0xFF, 0xFF]).length
        (encode_binary_desc_loop b ++ [0xFF, 0xFF]).length) < 0 := by
  induction a generalizing b with
  | nil =>
    cases b with
    | nil => simp [bytesLt] at h
    | cons d y =>
      have hd256 := hb d (by simp)
      by_cases hd : d = 0
      · subst hd
        have e : min (encode_binary_desc_loop [] ++ [0xFF, 0xFF]).length
            (encode_binary_desc_loop (0 :: y) ++ [0xFF, 0xFF]).length = 1 + 1 := by
          simp [encode_binary_desc_loop]
        rw [e]
        simp only [encode_binary_desc_loop, if_true, List.nil_append, List.cons_append]
        have e0 : (0 ^^^ 0xFF) % 256 = 0xFF := by decide
        rw [e0, memcmp_cons_same]
        exact memcmp_lt_of_head _ _ _ _ _ (by norm_num)
      · have e : min (encode_binary_desc_loop [] ++ [0xFF, 0xFF]).length
            (encode_binary_desc_loop (d :: y) ++ [0xFF, 0xFF]).length = 1 + 1 := by
          simp [encode_binary_desc_loop, hd]
        rw [e]
        simp only [encode_binary_desc_loop, hd, if_false, List.nil_append, List.cons_append]
        apply memcmp_lt_of_head
        rw [byte_compl d hd256]; omega
  | cons c x ih =>
    cases b with
    | nil => simp [bytesLt] at h
    | cons d y =>
      have hc256 := ha c (by simp)
      have hd256 := hb d (by simp)
      simp only [bytesLt] at h
      by_cases hcd : c = d
      · subst hcd
        simp only [if_true] at h
        have hi := ih y (fun z hz => ha z (by simp [hz])) (fun z hz => hb z (by simp [hz])) h
        by_cases hc : c = 0
        · subst hc
          have e : min (encode_binary_desc_loop (0 :: x) ++ [0xFF, 0xFF]).length
              (encode_binary_desc_loop (0 :: y) ++ [0xFF, 0xFF]).length
              = min (encode_binary_desc_loop x ++ [0xFF, 0xFF]).length
                  (encode_binary_desc_loop y ++ [0xFF, 0xFF]).length + 1 + 1 := by
            simp only [encode_binary_desc_loop, if_true, List.cons_append, List.length_cons]; omega
          rw [e]
          simp only [encode_binary_desc_loop, if_true, List.cons_append]
          rw [memcmp_cons_same, memcmp_cons_same]
          exact hi
        · have e : min (encode_binary_desc_loop (c :: x) ++ [0xFF, 0xFF]).length
              (encode_binary_desc_loop (c :: y) ++ [0xFF, 0xFF]).length
              = min (encode_binary_desc_loop x ++ [0xFF, 0xFF]).length
                  (encode_binary_desc_loop y ++ [0xFF, 0xFF]).length + 1 := by
            simp only [encode_binary_desc_loop, hc, if_false, List.cons_append, List.length_cons]
            omega
          rw [e]
          simp only [encode_binary_desc_loop, hc, if_false, List.cons_append]
          rw [memcmp_cons_same]
          exact hi
      · simp only [hcd, if_false, decide_eq_true_eq] at h
        have hd : ¬ d = 0 := by omega
        obtain ⟨k, hk⟩ : ∃ k, min (encode_binary_desc_loop (c :: x) ++ [0xFF, 0xFF]).length
            (encode_binary_desc_loop (d :: y) ++ [0xFF, 0xFF]).length = k + 1 := by
          refine ⟨min (encode_binary_desc_loop (c :: x) ++ [0xFF, 0xFF]).length
            (encode_binary_desc_loop (d :: y) ++ [0xFF, 0xFF]).length - 1, ?_⟩
          have h1 : 0 < (encode_binary_desc_loop (c :: x) ++ [0xFF, 0xFF]).length := by simp
          have h2 : 0 < (encode_binary_desc_loop (d :: y) ++ [0xFF, 0xFF]).length := by simp
          omega
        rw [hk]
        by_cases hc : c = 0
        · simp only [encode_binary_desc_loop, hc, hd, if_true, if_false, List.cons_append]
          apply memcmp_lt_of_head
          rw [byte_compl d hd256]
          have e0 : (0 ^^^ 0xFF) % 256 = 0xFF := by decide
          rw [e0]; omega
        · simp only [encode_binary_desc_loop, hc, hd, if_false, List.cons_append]
          apply memcmp_lt_of_head
          rw [byte_compl d hd256, byte_compl c hc256]; omega

/-! ## The store index of the binary encoder -/

theorem encode_binary_asc_run_cons (b : Nat) (pb img : List Nat) (k : Nat) :
    encode_binary_asc_run (b :: pb) img k =
      if b = 0 then
        encode_binary_asc_run pb (pokeAt (pokeAt img k b) ((k + 1) % 2 ^ 32) 0xFF)
          (((k + 1) % 2 ^ 32 + 1) % 2 ^ 32)
      else encode_binary_asc_run pb (pokeAt img k b) ((k + 1) % 2 ^ 32) := rfl

theorem pokeAt_end (img : List Nat) (b : Nat) : pokeAt img img.length b = img ++ [b] := by
  simp [pokeAt]

theorem length_pokeAt (img : List Nat) (i b : Nat) :
    (pokeAt img i b).length = if i < img.length then img.length else img.length + 1 := by
  unfold pokeAt
  split <;> simp

theorem length_pokeAt_ge (img : List Nat) (i b : Nat) : img.length ≤ (pokeAt img i b).length := by
  rw [length_pokeAt]
  split <;> omega

theorem encode_binary_asc_run_seq (pb img : List Nat)
    (h : img.length + (encode_binary_asc_loop pb).length ≤ 2 ^ 32) :
    encode_binary_asc_run pb img (img.length % 2 ^ 32)
      = (img ++ encode_binary_asc_loop pb,
          (img.length + (encode_binary_asc_loop pb).length) % 2 ^ 32) := by
  induction pb generalizing img with
  | nil => simp [encode_binary_asc_run, encode_binary_asc_loop]
  | cons b pb ih =>
    by_cases hb : b = 0
    · simp only [encode_binary_asc_loop, if_pos hb, List.length_cons] at h ⊢
      have e1 : img.length % 2 ^ 32 = img.length := Nat.mod_eq_of_lt (by omega)
      have e2 : (img.length + 1) % 2 ^ 32 = img.length + 1 := Nat.mod_eq_of_lt (by omega)
      have hl : (img ++ [b] ++ [0xFF]).length = img.length + 1 + 1 := by simp
      have ih2 := ih (img ++ [b] ++ [0xFF]) (by rw [hl]; omega)
      rw [hl] at ih2
      have p1 : pokeAt img img.length b = img ++ [b] := pokeAt_end img b
      have p2 : pokeAt (img ++ [b]) (img.length + 1) 0xFF = img ++ [b] ++ [0xFF] := by
        have := pokeAt_end (img ++ [b]) 0xFF
        simpa using this
      rw [encode_binary_asc_run_cons, if_pos hb, e1, e2, p1, p2, ih2]
      simp only [List.append_assoc, List.cons_append, List.nil_append, Prod.mk.injEq, true_and]
      congr 1
      omega
    · simp only [encode_binary_asc_loop, if_neg hb, List.length_cons] at h ⊢
      have e1 : img.length % 2 ^ 32 = img.length := Nat.mod_eq_of_lt (by omega)
      have hl : (img ++ [b]).length = img.length + 1 := by simp
      have ih2 := ih (img ++ [b]) (by rw [hl]; omega)
      rw [hl] at ih2
      rw [encode_binary_asc_run_cons, if_neg hb, e1, pokeAt_end, ih2]
      simp only [List.append_assoc, List.cons_append, List.nil_append, Prod.mk.injEq, true_and]
      congr 1
      omega

theorem encode_binary_asc_run_length_ge (pb img : List Nat) (k : Nat) :
    img.length ≤ (encode_binary_asc_run pb img k).1.length := by
  induction pb generalizing img k with
  | nil => simp [encode_binary_asc_run]
  | cons b pb ih =>
    rw [encode_binary_asc_run_cons]
    split
    · exact le_trans (le_trans (length_pokeAt_ge img k b) (length_pokeAt_ge _ _ _)) (ih _ _)
    · exact le_trans (length_pokeAt_ge img k b) (ih _ _)

theorem encode_binary_asc_run_full (pb img : List Nat) (hi : img.length ≤ 2 ^ 32)
    (h : 2 ^ 32 ≤ img.length + (encode_binary_asc_loop pb).length) :
    2 ^ 32 ≤ (encode_binary_asc_run pb img (img.length % 2 ^ 32)).1.length := by
  induction pb generalizing img with
  | nil =>
    simp only [encode_binary_asc_loop, List.length_nil, Nat.add_zero] at h
    simp only [encode_binary_asc_run]
    exact h
  | cons b pb ih =>
    by_cases hfull : img.length = 2 ^ 32
    · exact le_trans (by omega) (encode_binary_asc_run_length_ge _ _ _)
    · have e1 : img.length % 2 ^ 32 = img.length := Nat.mod_eq_of_lt (by omega)
      have p1 : pokeAt img img.length b = img ++ [b] := pokeAt_end img b
      have hl : (img ++ [b]).length = img.length + 1 := by simp
      by_cases hb : b = 0
      · simp only [encode_binary_asc_loop, if_pos hb, List.length_cons] at h
        rw [encode_binary_asc_run_cons, if_pos hb, e1, p1]
        by_cases hfull2 : img.length + 1 = 2 ^ 32
        · refine le_trans ?_ (encode_binary_asc_run_length_ge _ _ _)
          refine le_trans ?_ (length_pokeAt_ge _ _ _)
          rw [hl]; omega
        · have e2 : (img.length + 1) % 2 ^ 32 = img.length + 1 := Nat.mod_eq_of_lt (by omega)
          have p2 : pokeAt (img ++ [b]) (img.length + 1) 0xFF = img ++ [b] ++ [0xFF] := by
            have := pokeAt_end (img ++ [b]) 0xFF
            simpa using this
          have hl2 : (img ++ [b] ++ [0xFF]).length = img.length + 1 + 1 := by simp
          have ih2 := ih (img ++ [b] ++ [0xFF]) (by rw [hl2]; omega) (by rw [hl2]; omega)
          rw [hl2] at ih2
          rw [e2, p2]
          exact ih2
      · simp only [encode_binary_asc_loop, if_neg hb, List.length_cons] at h
        rw [encode_binary_asc_run_cons, if_neg hb, e1, p1]
        have ih2 := ih (img ++ [b]) (by rw [hl]; omega) (by rw [hl]; omega)
        rw [hl] at ih2
        exact ih2

theorem encode_binary_asc_run_index (pb img : List Nat) (k : Nat) (h : k ≤ img.length) :
    (encode_binary_asc_run pb img k).2 ≤ (encode_binary_asc_run pb img k).1.length := by
  induction pb generalizing img k with
  | nil => simpa [encode_binary_asc_run] using h
  | cons b pb ih =>
    have m1 : (k + 1) % 2 ^ 32 ≤ k + 1 := Nat.mod_le _ _
    have l1 : k + 1 ≤ (pokeAt img k b).length := by
      rw [length_pokeAt]; split <;> omega
    rw [encode_binary_asc_run_cons]
    split
    · have m2 : ((k + 1) % 2 ^ 32 + 1) % 2 ^ 32 ≤ (k + 1) % 2 ^ 32 + 1 := Nat.mod_le _ _
      have l2 : (k + 1) % 2 ^ 32 + 1 ≤ (pokeAt (pokeAt img k b) ((k + 1) % 2 ^ 32) 0xFF).length := by
        rw [length_pokeAt]; split <;> omega
      exact ih _ _ (by omega)
    · exact ih _ _ (by omega)

theorem encode_binary_desc_run_cons (b : Nat) (pb img : List Nat) (k : Nat) :
    encode_binary_desc_run (b :: pb) img k =
      if b = 0 then
        encode_binary_desc_run pb (pokeAt (pokeAt img k ((b ^^^ 0xFF) % 256)) ((k + 1) % 2 ^ 32) 0)
          (((k + 1) % 2 ^ 32 + 1) % 2 ^ 32)
      else encode_binary_desc_run pb (pokeAt img k ((b ^^^ 0xFF) % 256)) ((k + 1) % 2 ^ 32) := rfl

theorem encode_binary_desc_run_seq (pb img : List Nat)
    (h : img.length + (encode_binary_desc_loop pb).length ≤ 2 ^ 32) :
    encode_binary_desc_run pb img (img.length % 2 ^ 32)
      = (img ++ encode_binary_desc_loop pb,
          (img.length + (encode_binary_desc_loop pb).length) % 2 ^ 32) := by
  induction pb generalizing img with
  | nil => simp [encode_binary_desc_run, encode_binary_desc_loop]
  | cons b pb ih =>
    by_cases hb : b = 0
    · simp only [encode_binary_desc_loop, if_pos hb, List.length_cons] at h ⊢
      have e1 : img.length % 2 ^ 32 = img.length := Nat.mod_eq_of_lt (by omega)
      have e2 : (img.length + 1) % 2 ^ 32 = img.length + 1 := Nat.mod_eq_of_lt (by omega)
      have hl : (img ++ [(b ^^^ 0xFF) % 256] ++ [0]).length = img.length + 1 + 1 := by simp
      have ih2 := ih (img ++ [(b ^^^ 0xFF) % 256] ++ [0]) (by rw [hl]; omega)
      rw [hl] at ih2
      have p1 : pokeAt img img.length ((b ^^^ 0xFF) % 256) = img ++ [(b ^^^ 0xFF) % 256] := pokeAt_end img ((b ^^^ 0xFF) % 256)
      have p2 : pokeAt (img ++ [(b ^^^ 0xFF) % 256]) (img.length + 1) 0 = img ++ [(b ^^^ 0xFF) % 256] ++ [0] := by
        have := pokeAt_end (img ++ [(b ^^^ 0xFF) % 256]) 0
        simpa using this
      rw [encode_binary_desc_run_cons, if_pos hb, e1, e2, p1, p2, ih2]
      simp only [List.append_assoc, List.cons_append, List.nil_append, Prod.mk.injEq, true_and]
      congr 1
      omega
    · simp only [encode_binary_desc_loop, if_neg hb, List.length_cons] at h ⊢
      have e1 : img.length % 2 ^ 32 = img.length := Nat.mod_eq_of_lt (by omega)
      have hl : (img ++ [(b ^^^ 0xFF) % 256]).length = img.length + 1 := by simp
      have ih2 := ih (img ++ [(b ^^^ 0xFF) % 256]) (by rw [hl]; omega)
      rw [hl] at ih2
      rw [encode_binary_desc_run_cons, if_neg hb, e1, pokeAt_end, ih2]
      simp only [List.append_assoc, List.cons_append, List.nil_append, Prod.mk.injEq, true_and]
      congr 1
      omega

theorem encode_binary_desc_run_length_ge (pb img : List Nat) (k : Nat) :
    img.length ≤ (encode_binary_desc_run pb img k).1.length := by
  induction pb generalizing img k with
  | nil => simp [encode_binary_desc_run]
  | cons b pb ih =>
    rw [encode_binary_desc_run_cons]
    split
    · exact le_trans (le_trans (length_pokeAt_ge img k ((b ^^^ 0xFF) % 256)) (length_pokeAt_ge _ _ _)) (ih _ _)
    · exact le_trans (length_pokeAt_ge img k ((b ^^^ 0xFF) % 256)) (ih _ _)

theorem encode_binary_desc_run_full (pb img : List Nat) (hi : img.length ≤ 2 ^ 32)
    (h : 2 ^ 32 ≤ img.length + (encode_binary_desc_loop pb).length) :
    2 ^ 32 ≤ (encode_binary_desc_run pb img (img.length % 2 ^ 32)).1.length := by
  induction pb generalizing img with
  | nil =>
    simp only [encode_binary_desc_loop, List.length_nil, Nat.add_zero] at h
    simp only [encode_binary_desc_run]
    exact h
  | cons b pb ih =>
    by_cases hfull : img.length = 2 ^ 32
    · exact le_trans (by omega) (encode_binary_desc_run_length_ge _ _ _)
    · have e1 : img.length % 2 ^ 32 = img.length := Nat.mod_eq_of_lt (by omega)
      have p1 : pokeAt img img.length ((b ^^^ 0xFF) % 256) = img ++ [(b ^^^ 0xFF) % 256] := pokeAt_end img ((b ^^^ 0xFF) % 256)
      have hl : (img ++ [(b ^^^ 0xFF) % 256]).length = img.length + 1 := by simp
      by_cases hb : b = 0
      · simp only [encode_binary_desc_loop, if_pos hb, List.length_cons] at h
        rw [encode_binary_desc_run_cons, if_pos hb, e1, p1]
        by_cases hfull2 : img.length + 1 = 2 ^ 32
        · refine le_trans ?_ (encode_binary_desc_run_length_ge _ _ _)
          refine le_trans ?_ (length_pokeAt_ge _ _ _)
          rw [hl]; omega
        · have e2 : (img.length + 1) % 2 ^ 32 = img.length + 1 := Nat.mod_eq_of_lt (by omega)
          have p2 : pokeAt (img ++ [(b ^^^ 0xFF) % 256]) (img.length + 1) 0 = img ++ [(b ^^^ 0xFF) % 256] ++ [0] := by
            have := pokeAt_end (img ++ [(b ^^^ 0xFF) % 256]) 0
            simpa using this
          have hl2 : (img ++ [(b ^^^ 0xFF) % 256] ++ [0]).length = img.length + 1 + 1 := by simp
          have ih2 := ih (img ++ [(b ^^^ 0xFF) % 256] ++ [0]) (by rw [hl2]; omega) (by rw [hl2]; omega)
          rw [hl2] at ih2
          rw [e2, p2]
          exact ih2
      · simp only [encode_binary_desc_loop, if_neg hb, List.length_cons] at h
        rw [encode_binary_desc_run_cons, if_neg hb, e1, p1]
        have ih2 := ih (img ++ [(b ^^^ 0xFF) % 256]) (by rw [hl]; omega) (by rw [hl]; omega)
        rw [hl] at ih2
        exact ih2

theorem encode_binary_desc_run_index (pb img : List Nat) (k : Nat) (h : k ≤ img.length) :
    (encode_binary_desc_run pb img k).2 ≤ (encode_binary_desc_run pb img k).1.length := by
  induction pb generalizing img k with
  | nil => simpa [encode_binary_desc_run] using h
  | cons b pb ih =>
    have m1 : (k + 1) % 2 ^ 32 ≤ k + 1 := Nat.mod_le _ _
    have l1 : k + 1 ≤ (pokeAt img k ((b ^^^ 0xFF) % 256)).length := by
      rw [length_pokeAt]; split <;> omega
    rw [encode_binary_desc_run_cons]
    split
    · have m2 : ((k + 1) % 2 ^ 32 + 1) % 2 ^ 32 ≤ (k + 1) % 2 ^ 32 + 1 := Nat.mod_le _ _
      have l2 : (k + 1) % 2 ^ 32 + 1 ≤ (pokeAt (pokeAt img k ((b ^^^ 0xFF) % 256)) ((k + 1) % 2 ^ 32) 0).length := by
        rw [length_pokeAt]; split <;> omega
      exact ih _ _ (by omega)
    · exact ih _ _ (by omega)

theorem encode_binary_eq_seq (p : List Nat) (d : Bool)
    (h : (if d then encode_binary_asc_loop p else encode_binary_desc_loop p).length < 2 ^ 32) :
    encode_binary p d = encode_binary_seq p d := by
  cases d
  · simp only [Bool.false_eq_true, if_false] at h
    have hr := encode_binary_desc_run_seq p [] (by simp only [List.length_nil]; omega)
    simp only [List.length_nil, Nat.zero_mod, Nat.zero_add, List.nil_append] at hr
    have hm : (encode_binary_desc_loop p).length % 2 ^ 32 = (encode_binary_desc_loop p).length :=
      Nat.mod_eq_of_lt h
    have p2 : pokeAt (encode_binary_desc_loop p ++ [0xFF]) ((encode_binary_desc_loop p).length + 1)
        0xFF = encode_binary_desc_loop p ++ [0xFF] ++ [0xFF] := by
      have := pokeAt_end (encode_binary_desc_loop p ++ [0xFF]) 0xFF
      simpa using this
    simp only [encode_binary, encode_binary_seq, Bool.false_eq_true, if_false, hr, hm, pokeAt_end,
      p2, List.append_assoc, List.cons_append, List.nil_append]
  · simp only [if_true] at h
    have hr := encode_binary_asc_run_seq p [] (by simp only [List.length_nil]; omega)
    simp only [List.length_nil, Nat.zero_mod, Nat.zero_add, List.nil_append] at hr
    have hm : (encode_binary_asc_loop p).length % 2 ^ 32 = (encode_binary_asc_loop p).length :=
      Nat.mod_eq_of_lt h
    have p2 : pokeAt (encode_binary_asc_loop p ++ [0]) ((encode_binary_asc_loop p).length + 1)
        0 = encode_binary_asc_loop p ++ [0] ++ [0] := by
      have := pokeAt_end (encode_binary_asc_loop p ++ [0]) 0
      simpa using this
    simp only [encode_binary, encode_binary_seq, if_true, hr, hm, pokeAt_end, p2,
      List.append_assoc, List.cons_append, List.nil_append]

theorem length_encode_binary_ge (p : List Nat) (d : Bool)
    (h : 2 ^ 32 ≤ (if d then encode_binary_asc_loop p else encode_binary_desc_loop p).length) :
    2 ^ 32 ≤ (encode_binary p d).1.length := by
  cases d
  · simp only [Bool.false_eq_true, if_false] at h
    have hr := encode_binary_desc_run_full p [] (by simp) (by simpa using h)
    simp only [List.length_nil, Nat.zero_mod] at hr
    simp only [encode_binary, Bool.false_eq_true, if_false]
    exact le_trans hr (le_trans (length_pokeAt_ge _ _ _) (length_pokeAt_ge _ _ _))
  · simp only [if_true] at h
    have hr := encode_binary_asc_run_full p [] (by simp) (by simpa using h)
    simp only [List.length_nil, Nat.zero_mod] at hr
    simp only [encode_binary, if_true]
    exact le_trans hr (le_trans (length_pokeAt_ge _ _ _) (length_pokeAt_ge _ _ _))

/-- An encoding shorter than `2 ^ 32` bytes is the bytes of the stores in
their order: no store index has wrapped. -/
theorem encode_binary_eq_seq_of_lt (p : List Nat) (d : Bool)
    (h : (encode_binary p d).1.length < 2 ^ 32) :
    encode_binary p d = encode_binary_seq p d := by
  apply encode_binary_eq_seq
  by_contra hc
  have := length_encode_binary_ge p d (by omega)
  omega

theorem encode_binary_eq_seq_of_seq_lt (p : List Nat) (d : Bool)
    (h : (encode_binary_seq p d).1.length < 2 ^ 32 + 2) :
    encode_binary p d = encode_binary_seq p d := by
  apply encode_binary_eq_seq
  cases d
  · simp only [encode_binary_seq, Bool.false_eq_true, if_false, List.length_append, List.length_cons,
      List.length_nil] at h ⊢
    omega
  · simp only [encode_binary_seq, if_true, List.length_append, List.length_cons,
      List.length_nil] at h ⊢
    omega

theorem pokeAt_compl (img : List Nat) (i b : Nat) :
    pokeAt (complBytes img) i (b ^^^ 0xFF) = complBytes (pokeAt img i b) := by
  unfold pokeAt complBytes
  by_cases h : i < img.length
  · rw [if_pos (by simpa using h), if_pos h, List.map_set]
  · rw [if_neg (by simpa using h), if_neg h, List.map_append]
    rfl

theorem encode_binary_run_compl (p img : List Nat) (k : Nat) (hp : ∀ c ∈ p, c < 256) :
    encode_binary_desc_run p (complBytes img) k
      = (complBytes (encode_binary_asc_run p img k).1, (encode_binary_asc_run p img k).2) := by
  induction p generalizing img k with
  | nil => rfl
  | cons b p ih =>
    have hb := hp b (by simp)
    have hm : (b ^^^ 0xFF) % 256 = b ^^^ 0xFF := Nat.mod_eq_of_lt (by
      have h2 : b ^^^ 0xFF < 2 ^ 8 := Nat.xor_lt_two_pow (by omega) (by norm_num)
      omega)
    have e0 : (0 : Nat) = 0xFF ^^^ 0xFF := by decide
    rw [encode_binary_desc_run_cons, encode_binary_asc_run_cons, hm]
    by_cases h0 : b = 0
    · have e := pokeAt_compl (pokeAt img k b) ((k + 1) % 2 ^ 32) 0xFF
      rw [← e0] at e
      rw [if_pos h0, if_pos h0, pokeAt_compl, e]
      exact ih _ _ (fun c hc => hp c (by simp [hc]))
    · rw [if_neg h0, if_neg h0, pokeAt_compl]
      exact ih _ _ (fun c hc => hp c (by simp [hc]))

theorem encode_binary_compl (p : List Nat) (hp : ∀ c ∈ p, c < 256) :
    (encode_binary p false).1 = complBytes (encode_binary p true).1
    ∧ (encode_binary p false).2 = (encode_binary p true).2 := by
  have h := encode_binary_run_compl p [] 0 hp
  have e : complBytes [] = [] := rfl
  rw [e] at h
  have e1 : (0xFF : Nat) = 0 ^^^ 0xFF := by decide
  simp only [encode_binary, Bool.false_eq_true, if_false, if_true, h]
  refine ⟨?_, trivial⟩
  have a1 := pokeAt_compl (encode_binary_asc_run p [] 0).1 (encode_binary_asc_run p [] 0).2 0
  rw [← e1] at a1
  have a2 := pokeAt_compl (pokeAt (encode_binary_asc_run p [] 0).1
    (encode_binary_asc_run p [] 0).2 0) ((encode_binary_asc_run p [] 0).2 + 1) 0
  rw [← e1] at a2
  rw [a1, a2]

/-- The encoding of a payload that starts with 0x00 and makes the loop store
exactly `2 ^ 32` bytes: the store index is back at 0 after the loop, and the
terminator replaces the first escape pair. -/
theorem encode_binary_wrapped (q : List Nat)
    (h : (encode_binary_asc_loop q).length + 2 = 2 ^ 32) :
    encode_binary (0 :: q) true = (0 :: 0 :: encode_binary_asc_loop q, 2) := by
  have hl : encode_binary_asc_loop (0 :: q) = 0 :: 0xFF :: encode_binary_asc_loop q := by
    simp [encode_binary_asc_loop]
  have hr := encode_binary_asc_run_seq (0 :: q) [] (by
    rw [hl]; simp only [List.length_nil, List.length_cons]; omega)
  rw [hl] at hr
  simp only [List.length_nil, Nat.zero_mod, Nat.zero_add, List.nil_append,
    List.length_cons] at hr
  have hz : ((encode_binary_asc_loop q).length + 1 + 1) % 2 ^ 32 = 0 := by
    have : (encode_binary_asc_loop q).length + 1 + 1 = 2 ^ 32 := by omega
    rw [this]
    exact Nat.mod_self _
  rw [hz] at hr
  have p1 : pokeAt (0 :: 0xFF :: encode_binary_asc_loop q) 0 0
      = 0 :: 0xFF :: encode_binary_asc_loop q := by simp [pokeAt]
  have p2 : pokeAt (0 :: 0xFF :: encode_binary_asc_loop q) (0 + 1) 0
      = 0 :: 0 :: encode_binary_asc_loop q := by simp [pokeAt]
  simp only [encode_binary, if_true, hr, p1, p2, BINARY_PAD_LEN]
  rfl

theorem length_encode_binary_asc_loop (p : List Nat) :
    (encode_binary_asc_loop p).length = p.length + p.count 0 := by
  induction p with
  | nil => rfl
  | cons b p ih =>
    by_cases hb : b = 0
    · subst hb
      simp only [encode_binary_asc_loop, if_true, List.length_cons, ih, List.count_cons_self]
      omega
    · simp only [encode_binary_asc_loop, hb, if_false, List.length_cons, ih]
      rw [List.count_cons_of_ne (fun e => hb e.symm)]
      omega

theorem length_encode_binary_desc_loop (p : List Nat) :
    (encode_binary_desc_loop p).length = p.length + p.count 0 := by
  induction p with
  | nil => rfl
  | cons b p ih =>
    by_cases hb : b = 0
    · subst hb
      simp only [encode_binary_desc_loop, if_true, List.length_cons, ih, List.count_cons_self]
      omega
    · simp only [encode_binary_desc_loop, hb, if_false, List.length_cons, ih]
      rw [List.count_cons_of_ne (fun e => hb e.symm)]
      omega

/-- A payload whose length and number of 0x00 bytes sum to less than `2 ^ 32`
is encoded without a wrap of the store index. -/
theorem encode_binary_eq_seq_of_count (p : List Nat) (d : Bool)
    (h : p.length + p.count 0 < 2 ^ 32) : encode_binary p d = encode_binary_seq p d := by
  apply encode_binary_eq_seq
  cases d
  · simp only [Bool.false_eq_true, if_false, length_encode_binary_desc_loop]
    exact h
  · simp only [if_true, length_encode_binary_asc_loop]
    exact h

theorem storeAt_fits (r r1 : EncodedRecord) (bs : List Nat) (w : Nat)
    (h : (r.storeAt bs).bind (fun r => r.addPos w) = some r1) :
    bs.length ≤ r.getData.length := by
  unfold EncodedRecord.storeAt at h
  cases hpd : r.pData with
  | none => simp [hpd] at h
  | some buf =>
    simp only [hpd] at h
    split at h
    · next hc =>
      simp only [EncodedRecord.getData, hpd, Option.getD_some]
      omega
    · simp at h

/-! ## Payloads of `2 ^ 31` zero bytes -/

theorem length_encode_binary_asc_loop_zeros (n : Nat) :
    (encode_binary_asc_loop (List.replicate n 0)).length = 2 * n := by
  rw [length_encode_binary_asc_loop, List.length_replicate, List.count_replicate_self]
  omega

/-- The ascending encoding of `n + 2` bytes 0x00 with `2 * (n + 2) = 2 ^ 32`:
the loop stores `2 ^ 32` bytes, the store index is 0 again, the terminator
replaces the first escape pair `00 FF` and the encoder returns 2. -/
theorem encode_binary_zeros (n : Nat) (h : 2 * n + 4 = 2 ^ 32) :
    encode_binary (0 :: 0 :: List.replicate n 0) true
      = (0 :: 0 :: 0 :: 0xFF :: encode_binary_asc_loop (List.replicate n 0), 2) := by
  have hl : encode_binary_asc_loop (0 :: List.replicate n 0)
      = 0 :: 0xFF :: encode_binary_asc_loop (List.replicate n 0) := by
    simp [encode_binary_asc_loop]
  have e := encode_binary_wrapped (0 :: List.replicate n 0) (by
    rw [hl]
    simp only [List.length_cons, length_encode_binary_asc_loop_zeros]
    omega)
  rw [hl] at e
  exact e

theorem zeros_lt_256 (n : Nat) : ∀ c ∈ 0 :: 0 :: List.replicate n 0, c < 256 := by
  intro c hc
  simp only [List.mem_cons, List.mem_replicate] at hc
  rcases hc with h | h | h
  · omega
  · omega
  · omega

theorem encode_binary_order_zeros (n : Nat) (h : 2 * n + 4 = 2 ^ 32) :
    bytesLt [0] (0 :: 0 :: List.replicate n 0) = true
    ∧ 0 < memcmp (encode_binary [0] true).1
        (encode_binary (0 :: 0 :: List.replicate n 0) true).1
        (min (encode_binary [0] true).1.length
          (encode_binary (0 :: 0 :: List.replicate n 0) true).1.length) := by
  have e1 : encode_binary [0] true = ([0, 0xFF, 0, 0], 4) := by decide
  rw [encode_binary_zeros n h, e1]
  constructor
  · simp [bytesLt]
  · simp only [List.length_cons, List.length_nil, length_encode_binary_asc_loop_zeros]
    have hm : min (0 + 1 + 1 + 1 + 1) (2 * n + 1 + 1 + 1 + 1) = 3 + 1 := by omega
    rw [hm]
    simp [memcmp]

theorem decode_bytes_zeros (n : Nat) (h : 2 * n + 4 = 2 ^ 32) (t : List Nat) :
    decode_bytes ((encode_binary (0 :: 0 :: List.replicate n 0) true).1 ++ t) true
      = .ok ([], 0, 0) := by
  rw [encode_binary_zeros n h]
  simp [decode_bytes, decode_bytes_asc_loop, Except.map]

theorem encode_binary_prefix_zeros (n : Nat) (h : 2 * n + 4 = 2 ^ 32) :
    (encode_binary [] true).1 <+: (encode_binary (0 :: 0 :: List.replicate n 0) true).1 := by
  have e1 : encode_binary [] true = ([0, 0], 2) := by decide
  rw [encode_binary_zeros n h, e1]
  exact ⟨_, rfl⟩

/-! ## The order of binary payloads -/

/-- Claim C9, as stated, fails: the one-byte payload `00` is a proper initial
segment of the payload of `2 ^ 31` bytes 0x00. For the longer payload the
loop of the ascending encoder stores `2 ^ 32` bytes, its `uint32_t` store
index is 0 again and the terminator replaces the first escape pair, so the
block starts `00 00`; the encoding `00 FF 00 00` of the shorter payload is
above it under `memcmp` over the first `min(|E(a)|, |E(b)|)` bytes. -/
theorem encode_binary_order_fails_wrapped :
    (∀ c ∈ [0], c < 256) ∧ (∀ c ∈ 0 :: 0 :: List.replicate 2147483646 0, c < 256)
    ∧ bytesLt [0] (0 :: 0 :: List.replicate 2147483646 0) = true
    ∧ 0 < memcmp (encode_binary [0] true).1
        (encode_binary (0 :: 0 :: List.replicate 2147483646 0) true).1
        (min (encode_binary [0] true).1.length
          (encode_binary (0 :: 0 :: List.replicate 2147483646 0) true).1.length) :=
  ⟨by decide, zeros_lt_256 2147483646, encode_binary_order_zeros 2147483646 (by norm_num)⟩

/-- Claim C9, amended. For byte payloads `a`, `b` (0x00 bytes allowed) whose
length plus number of 0x00 bytes is below `2 ^ 32` (the loop of the encoder
stores fewer than `2 ^ 32` bytes), `a` lexicographically below `b` (a proper
initial segment counting as below), the bytes the ascending binary encoder
writes for `a` are strictly below those it writes for `b`, and the bytes the
descending binary encoder writes for `a` are strictly above those it writes
for `b`, under `memcmp` over the first `min(|E(a)|, |E(b)|)` bytes. -/
theorem encode_binary_order (a b : List Nat) (ha : ∀ c ∈ a, c < 256) (hb : ∀ c ∈ b, c < 256)
    (hla : a.length + a.count 0 < 2 ^ 32) (hlb : b.length + b.count 0 < 2 ^ 32)
    (h : bytesLt a b = true) :
    memcmp (encode_binary a true).1 (encode_binary b true).1
      (min (encode_binary a true).1.length (encode_binary b true).1.length) < 0
    ∧ 0 < memcmp (encode_binary a false).1 (encode_binary b false).1
      (min (encode_binary a false).1.length (encode_binary b false).1.length) := by
  rw [encode_binary_eq_seq_of_count a true hla, encode_binary_eq_seq_of_count b true hlb,
    encode_binary_eq_seq_of_count a false hla, encode_binary_eq_seq_of_count b false hlb]
  constructor
  · simp only [encode_binary_seq, if_true]
    exact binary_asc_lt a b h
  · simp only [encode_binary_seq, Bool.false_eq_true, if_false]
    have := binary_desc_lt a b ha hb h
    rw [memcmp_swap]
    omega

theorem encode_binary_order_witness :
    ((∀ c ∈ [0x11, 0x12], c < 256) ∧ (∀ c ∈ [0x11, 0x12, 0x00, 0x20], c < 256)
      ∧ [0x11, 0x12].length + [0x11, 0x12].count 0 < 2 ^ 32
      ∧ [0x11, 0x12, 0x00, 0x20].length + [0x11, 0x12, 0x00, 0x20].count 0 < 2 ^ 32
      ∧ bytesLt [0x11, 0x12] [0x11, 0x12, 0x00, 0x20] = true)
    ∧ memcmp (encode_binary [0x11, 0x12] true).1 (encode_binary [0x11, 0x12, 0x00, 0x20] true).1
      (min (encode_binary [0x11, 0x12] true).1.length
        (encode_binary [0x11, 0x12, 0x00, 0x20] true).1.length) < 0
    ∧ 0 < memcmp (encode_binary [0x11, 0x12] false).1
      (encode_binary [0x11, 0x12, 0x00, 0x20] false).1
      (min (encode_binary [0x11, 0x12] false).1.length
        (encode_binary [0x11, 0x12, 0x00, 0x20] false).1.length) :=
  ⟨⟨by decide, by decide, by decide, by decide, by decide⟩,
    encode_binary_order [0x11, 0x12] [0x11, 0x12, 0x00, 0x20] (by decide) (by decide)
      (by decide) (by decide) (by decide)⟩

/-! ## The record writer -/

theorem write_step (r r1 : EncodedRecord) (pre bs : List Nat) (w : Nat)
    (hw : bs.length < 2 ^ 32 → w = bs.length) (hr : Written r pre)
    (h : (r.storeAt bs).bind (fun r => r.addPos w) = some r1) :
    Written r1 (pre ++ bs) := by
  obtain ⟨tail, hd, hp, hlen⟩ := hr
  unfold EncodedRecord.storeAt at h
  cases hpd : r.pData with
  | none => simp [hpd] at h
  | some buf =>
    have hbuf : buf = pre ++ tail := by
      simpa [EncodedRecord.getData, hpd] using hd
    simp only [hpd] at h
    split at h
    · next hc =>
      have hpos : r.curPos.toNat = pre.length := by omega
      have hfit : bs.length ≤ tail.length := by
        have := hc.2
        rw [hpos, hbuf, List.length_append] at this
        omega
      have hbl : bs.length < 2 ^ 32 := by
        simp only [EncodedRecord.getData, hpd, Option.getD_some, hbuf, List.length_append] at hlen
        omega
      have hwe := hw hbl
      simp only [Option.some_bind, EncodedRecord.addPos] at h
      split at h
      · simp only [Option.some.injEq] at h
        subst h
        refine ⟨tail.drop bs.length, ?_, ?_, ?_⟩
        · simp only [EncodedRecord.getData, Option.getD_some, hpos, hbuf]
          rw [List.take_left, List.drop_append]
        · simp only [hp, hwe, List.length_append]; omega
        · simp only [EncodedRecord.getData, Option.getD_some, hpos, hbuf]
          rw [List.take_left, List.drop_append]
          simp only [EncodedRecord.getData, hpd, Option.getD_some, hbuf, List.length_append] at hlen
          simp only [List.length_append, List.length_drop]
          omega
      · simp at h
    · simp at h

theorem length_encode_string (s : List Nat) (asc : Bool) :
    (encode_string s asc).1.length = s.length + 2 := by
  cases asc <;> simp [encode_string]

theorem ret_encode_string (s : List Nat) (asc : Bool)
    (h : (encode_string s asc).1.length < 2 ^ 32) :
    (encode_string s asc).2 = (encode_string s asc).1.length := by
  rw [length_encode_string] at h ⊢
  cases asc <;> simp only [encode_string, STRING_PAD_LEN, if_true, Bool.false_eq_true, if_false]
    <;> exact Nat.mod_eq_of_lt h

theorem ret_encode_binary_seq (p : List Nat) (asc : Bool)
    (h : (encode_binary_seq p asc).1.length < 2 ^ 32) :
    (encode_binary_seq p asc).2 = (encode_binary_seq p asc).1.length := by
  cases asc
  · simp only [encode_binary_seq, BINARY_PAD_LEN, Bool.false_eq_true, if_false, List.length_append,
      List.length_cons, List.length_nil] at h ⊢
    omega
  · simp only [encode_binary_seq, BINARY_PAD_LEN, if_true, List.length_append,
      List.length_cons, List.length_nil] at h ⊢
    omega

theorem put_binary_spec (r r1 : EncodedRecord) (p : List Nat) (asc : Bool) (pre : List Nat)
    (hr : Written r pre) (h : r.put_binary p asc = some r1) :
    Written r1 (pre ++ (encode_binary_seq p asc).1) := by
  have hl : (encode_binary p asc).1.length < 2 ^ 32 := by
    obtain ⟨tail, hd, hp, hlen⟩ := hr
    exact lt_of_le_of_lt (storeAt_fits r r1 _ _ h) hlen
  have hE := encode_binary_eq_seq_of_lt p asc hl
  have h2 : (r.storeAt (encode_binary_seq p asc).1).bind
      (fun r => r.addPos (encode_binary_seq p asc).2) = some r1 := by
    rw [← hE]
    exact h
  exact write_step r r1 pre _ _ (ret_encode_binary_seq p asc) hr h2

theorem putValue_spec (le : Bool) (r r1 : EncodedRecord) (asc : Bool) (v : Value)
    (pre : List Nat) (hr : Written r pre) (h : putValue le r asc v = some r1) :
    Written r1 (pre ++ valueBytes le asc v) := by
  cases v with
  | int i => exact write_step r r1 pre _ _ (fun _ => by simp [valueBytes, length_store, LEN_INT]) hr h
  | long l => exact write_step r r1 pre _ _ (fun _ => by simp [valueBytes, length_store, LEN_LONG]) hr h
  | double d => exact write_step r r1 pre _ _ (fun _ => by simp [valueBytes, length_store, LEN_DOUBLE]) hr h
  | string s => exact write_step r r1 pre _ _ (ret_encode_string s asc) hr h
  | bool b => exact write_step r r1 pre _ _ (fun _ => by simp [valueBytes, LEN_BOOL]) hr h
  | date d => exact write_step r r1 pre _ _ (fun _ => by simp [valueBytes, length_store, LEN_LONG]) hr h
  | timestamp ts =>
    exact write_step r r1 pre _ _ (fun _ => by simp [valueBytes, length_store, LEN_TIMESTAMP]) hr h
  | binary p => exact put_binary_spec r r1 p asc pre hr h

theorem putField_spec (le : Bool) (r r1 : EncodedRecord) (asc : Bool) (f : Option Value)
    (pre : List Nat) (hr : Written r pre) (h : putField le r asc f = some r1) :
    Written r1 (pre ++ fieldBytes le asc f) := by
  cases f with
  | none => exact write_step r r1 pre _ _ (fun _ => by simp [fieldBytes, LEN_NULL]) hr h
  | some v =>
    simp only [putField, Option.bind_eq_some] at h
    obtain ⟨r0, h0, h1⟩ := h
    have hw0 := write_step r r0 pre _ _ (fun _ => by simp [LEN_NULL]) hr h0
    have hw1 := putValue_spec le r0 r1 asc v _ hw0 h1
    simpa [fieldBytes] using hw1

theorem writeRow_spec (le : Bool) (schema : List (SopeType × Bool)) (row : List (Option Value))
    (r r1 : EncodedRecord) (pre : List Nat) (hr : Written r pre)
    (h : writeRow le schema row r = some r1) :
    Written r1 (pre ++ rowBytes le schema row) := by
  induction schema generalizing row r pre with
  | nil =>
    cases row with
    | nil =>
      simp only [writeRow, Option.some.injEq] at h
      subst h
      simpa [rowBytes] using hr
    | cons f row => simp [writeRow] at h
  | cons ta schema ih =>
    obtain ⟨t, asc⟩ := ta
    cases row with
    | nil => simp [writeRow] at h
    | cons f row =>
      simp only [writeRow, Option.bind_eq_some] at h
      obtain ⟨r0, h0, h1⟩ := h
      have hw0 := putField_spec le r r0 asc f pre hr h0
      have hw1 := ih row r0 _ hw0 h1
      simpa [rowBytes] using hw1

theorem length_mallocBlock (sz : Nat) (junk : List Nat) : (mallocBlock sz junk).length = sz := by
  simp [mallocBlock]

theorem buildRecord_spec (le : Bool) (sz : Nat) (heap : Option (List Nat))
    (schema : List (SopeType × Bool)) (row : List (Option Value)) (r : EncodedRecord)
    (h : buildRecord le sz heap schema row = some r) :
    ∃ tail, r.getData = rowBytes le schema row ++ tail
      ∧ r.getEndPos = (rowBytes le schema row).length
      ∧ (rowBytes le schema row).length < 2 ^ 32 := by
  unfold buildRecord at h
  cases h0 : writeRow le schema row (EncodedRecord.empty.alloc sz heap) with
  | none => simp [h0] at h
  | some r0 =>
  have h1 : r0.setEndPos.resetPos = r := by simpa [h0] using h
  have hinit : Written (EncodedRecord.empty.alloc sz heap) [] := by
    refine ⟨(EncodedRecord.empty.alloc sz heap).getData, by simp, by simp [EncodedRecord.alloc], ?_⟩
    cases heap with
    | none => simp [EncodedRecord.alloc, EncodedRecord.getData]
    | some junk =>
      have e : (EncodedRecord.empty.alloc sz (some junk)).getData
          = mallocBlock (sz % 2 ^ 32) junk := rfl
      rw [e, length_mallocBlock]
      omega
  obtain ⟨tail, hd, hp, hlen⟩ := writeRow_spec le schema row _ r0 [] hinit h0
  simp only [List.nil_append] at hd hp
  subst h1
  refine ⟨tail, ?_, ?_, ?_⟩
  · simpa [EncodedRecord.getData, EncodedRecord.setEndPos, EncodedRecord.resetPos] using hd
  · simpa [EncodedRecord.getEndPos, EncodedRecord.setEndPos, EncodedRecord.resetPos] using hp
  · rw [hd, List.length_append] at hlen
    omega

/-! ## The writer succeeds in a block that is large enough -/

theorem write_ok (r : EncodedRecord) (pre tail bs : List Nat) (w : Nat)
    (hd : r.pData = some (pre ++ tail)) (hp : r.curPos = pre.length)
    (hfit : bs.length ≤ tail.length) (hw : w = bs.length)
    (hint : pre.length + bs.length < 2 ^ 31) :
    ∃ r1, (r.storeAt bs).bind (fun r => r.addPos w) = some r1
      ∧ r1.pData = some ((pre ++ bs) ++ tail.drop bs.length)
      ∧ r1.curPos = (pre ++ bs).length := by
  have hpos : r.curPos.toNat = pre.length := by omega
  have hc : 0 ≤ r.curPos ∧ r.curPos.toNat + bs.length ≤ (pre ++ tail).length := by
    rw [hpos, List.length_append]; omega
  have hc2 : -2 ^ 31 ≤ r.curPos + (w : Int) ∧ r.curPos + (w : Int) < 2 ^ 31 := by omega
  refine ⟨{ r with
      pData := some ((pre ++ tail).take r.curPos.toNat ++ bs
                      ++ (pre ++ tail).drop (r.curPos.toNat + bs.length)),
      curPos := r.curPos + w }, ?_, ?_, ?_⟩
  · simp only [EncodedRecord.storeAt, hd, if_pos hc, Option.some_bind, EncodedRecord.addPos,
      if_pos hc2]
  · simp only [hpos]
    rw [List.take_left, List.drop_append]
  · simp only [hp, hw, List.length_append]; omega

theorem put_binary_ok (r : EncodedRecord) (p : List Nat) (asc : Bool)
    (pre tail : List Nat) (hd : r.pData = some (pre ++ tail)) (hp : r.curPos = pre.length)
    (hfit : (encode_binary_seq p asc).1.length ≤ tail.length)
    (hint : pre.length + (encode_binary_seq p asc).1.length < 2 ^ 31) :
    ∃ r1, r.put_binary p asc = some r1
      ∧ r1.pData = some ((pre ++ (encode_binary_seq p asc).1)
          ++ tail.drop (encode_binary_seq p asc).1.length)
      ∧ r1.curPos = (pre ++ (encode_binary_seq p asc).1).length := by
  have hE := encode_binary_eq_seq_of_seq_lt p asc (by omega)
  have e : r.put_binary p asc = (r.storeAt (encode_binary_seq p asc).1).bind
      (fun r => r.addPos (encode_binary_seq p asc).2) := by
    rw [← hE]
    rfl
  rw [e]
  exact write_ok r pre tail _ _ hd hp hfit (ret_encode_binary_seq p asc (by omega)) hint

theorem putValue_ok (le : Bool) (r : EncodedRecord) (asc : Bool) (v : Value)
    (pre tail : List Nat) (hd : r.pData = some (pre ++ tail)) (hp : r.curPos = pre.length)
    (hfit : (valueBytes le asc v).length ≤ tail.length)
    (hint : pre.length + (valueBytes le asc v).length < 2 ^ 31) :
    ∃ r1, putValue le r asc v = some r1
      ∧ r1.pData = some ((pre ++ valueBytes le asc v) ++ tail.drop (valueBytes le asc v).length)
      ∧ r1.curPos = (pre ++ valueBytes le asc v).length := by
  cases v with
  | int i =>
    exact write_ok r pre tail _ _ hd hp hfit (by simp [valueBytes, length_store, LEN_INT]) hint
  | long l =>
    exact write_ok r pre tail _ _ hd hp hfit (by simp [valueBytes, length_store, LEN_LONG]) hint
  | double d =>
    exact write_ok r pre tail _ _ hd hp hfit (by simp [valueBytes, length_store, LEN_DOUBLE]) hint
  | string s =>
    exact write_ok r pre tail _ _ hd hp hfit
      (ret_encode_string s asc (by simp only [valueBytes] at hint; omega)) hint
  | bool b => exact write_ok r pre tail _ _ hd hp hfit (by simp [valueBytes, LEN_BOOL]) hint
  | date d =>
    exact write_ok r pre tail _ _ hd hp hfit (by simp [valueBytes, length_store, LEN_LONG]) hint
  | timestamp ts =>
    exact write_ok r pre tail _ _ hd hp hfit
      (by simp [valueBytes, length_store, LEN_TIMESTAMP]) hint
  | binary p => exact put_binary_ok r p asc pre tail hd hp hfit hint

theorem putField_ok (le : Bool) (r : EncodedRecord) (asc : Bool) (f : Option Value)
    (pre tail : List Nat) (hd : r.pData = some (pre ++ tail)) (hp : r.curPos = pre.length)
    (hfit : (fieldBytes le asc f).length ≤ tail.length)
    (hint : pre.length + (fieldBytes le asc f).length < 2 ^ 31) :
    ∃ r1, putField le r asc f = some r1
      ∧ r1.pData = some ((pre ++ fieldBytes le asc f) ++ tail.drop (fieldBytes le asc f).length)
      ∧ r1.curPos = (pre ++ fieldBytes le asc f).length := by
  cases f with
  | none => exact write_ok r pre tail _ _ hd hp hfit (by simp [fieldBytes, LEN_NULL]) hint
  | some v =>
    simp only [fieldBytes, List.length_cons] at hfit hint
    obtain ⟨r0, h0, hd0, hp0⟩ := write_ok r pre tail [if asc then NOT_NULL_ASC else NOT_NULL_DESC]
      LEN_NULL hd hp (by simp; omega) (by simp [LEN_NULL]) (by simp; omega)
    obtain ⟨r1, h1, hd1, hp1⟩ := putValue_ok le r0 asc v _ _ hd0 hp0
      (by simp only [List.length_drop, List.length_cons, List.length_nil]; omega)
      (by simp only [List.length_append, List.length_cons, List.length_nil]; omega)
    refine ⟨r1, ?_, ?_, ?_⟩
    · simp only [putField, EncodedRecord.putNotNullFieldIndicator, h0, Option.some_bind, h1]
    · rw [hd1]
      simp [fieldBytes, List.drop_drop, Nat.add_comm]
    · rw [hp1]
      simp [fieldBytes]

theorem writeRow_ok (le : Bool) (schema : List (SopeType × Bool)) (row : List (Option Value))
    (r : EncodedRecord) (pre tail : List Nat) (hlen : schema.length = row.length)
    (hd : r.pData = some (pre ++ tail)) (hp : r.curPos = pre.length)
    (hfit : (rowBytes le schema row).length ≤ tail.length)
    (hint : pre.length + (rowBytes le schema row).length < 2 ^ 31) :
    ∃ r1, writeRow le schema row r = some r1 := by
  induction schema generalizing row r pre tail with
  | nil =>
    cases row with
    | nil => exact ⟨r, rfl⟩
    | cons f row => simp at hlen
  | cons ta schema ih =>
    obtain ⟨t, asc⟩ := ta
    cases row with
    | nil => simp at hlen
    | cons f row =>
      simp only [rowBytes, List.length_append] at hfit hint
      obtain ⟨r0, h0, hd0, hp0⟩ := putField_ok le r asc f pre tail hd hp (by omega) (by omega)
      obtain ⟨r1, h1⟩ := ih row r0 _ _ (by simpa using hlen) hd0 hp0
        (by simp only [List.length_drop]; omega)
        (by simp only [List.length_append]; omega)
      exact ⟨r1, by simp only [writeRow, h0, Option.some_bind, h1]⟩

/-- A row whose encoding fits the block is written: `buildRecord` answers a
record whenever `malloc` succeeds, the row has the length of the schema, and
its encoded bytes fit the `sz` bytes, `sz` below `2 ^ 31`. -/
theorem buildRecord_ok (le : Bool) (sz : Nat) (junk : List Nat)
    (schema : List (SopeType × Bool)) (row : List (Option Value))
    (hlen : schema.length = row.length) (hsz : sz < 2 ^ 31)
    (hfit : (rowBytes le schema row).length ≤ sz) :
    ∃ r, buildRecord le sz (some junk) schema row = some r := by
  have hm : sz % 2 ^ 32 = sz := Nat.mod_eq_of_lt (by omega)
  obtain ⟨r1, h1⟩ := writeRow_ok le schema row (EncodedRecord.empty.alloc sz (some junk)) []
    (mallocBlock sz junk) hlen
    (by simp only [EncodedRecord.alloc, Option.map_some', hm, List.nil_append])
    (by simp [EncodedRecord.alloc])
    (by rw [length_mallocBlock]; exact hfit) (by simp only [List.length_nil]; omega)
  exact ⟨r1.setEndPos.resetPos, by simp only [buildRecord, h1, Option.map_some']⟩

/-! ## Order of the encoded fields and rows -/

theorem memcmp_beBytes_min (n x y : Nat) (hxy : x < y) (hy : y < 256 ^ n) :
    memcmp (beBytes n x) (beBytes n y) (min (beBytes n x).length (beBytes n y).length) < 0 := by
  rw [length_beBytes, length_beBytes, Nat.min_self]
  exact memcmp_beBytes_lt n x y hxy hy

theorem value_order_asc (le : Bool) (t : SopeType) (a b : Value)
    (ha : a.hasType t = true) (hb : b.hasType t = true) (h : a.lt b = true) :
    memcmp (valueBytes le true a) (valueBytes le true b)
      (min (valueBytes le true a).length (valueBytes le true b).length) < 0 := by
  cases a <;> cases b <;> simp only [Value.lt, decide_eq_true_eq, Bool.false_eq_true] at h
    <;> cases t <;> simp only [Value.hasType, decide_eq_true_eq, Bool.false_eq_true,
      Bool.and_eq_true, Bool.not_eq_true', List.all_eq_true] at ha hb
  case int.int.TYPE_INT x y =>
    simp only [valueBytes]
    rw [store_encode_int le x ha.1 ha.2, store_encode_int le y hb.1 hb.2]
    exact memcmp_beBytes_min 4 _ _ (by simp; omega) (by simp; omega)
  case long.long.TYPE_LONG x y =>
    simp only [valueBytes]
    rw [store_encode_long le x ha.1 ha.2, store_encode_long le y hb.1 hb.2]
    exact memcmp_beBytes_min 8 _ _ (by simp; omega) (by simp; omega)
  case date.date.TYPE_DATE x y =>
    simp only [valueBytes]
    rw [store_encode_long le x ha.1 ha.2, store_encode_long le y hb.1 hb.2]
    exact memcmp_beBytes_min 8 _ _ (by simp; omega) (by simp; omega)
  case double.double.TYPE_DOUBLE x y =>
    simp only [valueBytes]
    rw [store_encode_double le x ha.1, store_encode_double le y hb.1]
    have rx := signMagnitude_range x
    have ry := signMagnitude_range y
    exact memcmp_beBytes_min 8 _ _ (by simp; omega) (by simp; omega)
  case timestamp.timestamp.TYPE_TIMESTAMP x y =>
    simp only [valueBytes]
    rw [store_encode_timestamp_asc, store_encode_timestamp_asc]
    exact memcmp_beBytes_min 8 _ _ h (by simpa using hb)
  case string.string.TYPE_STRING x y =>
    simp only [valueBytes, encode_string, if_true]
    exact string_asc_lt x y (fun c hc => (ha c hc).1) (fun c hc => (hb c hc).1) h
  case binary.binary.TYPE_BINARY x y =>
    simp only [valueBytes, encode_binary_seq, if_true]
    exact binary_asc_lt x y h
  case binary.binary.TYPE_OBJECT x y =>
    simp only [valueBytes, encode_binary_seq, if_true]
    exact binary_asc_lt x y h
  case bool.bool.TYPE_BOOL x y =>
    cases x <;> cases y <;> simp at h
    simp only [valueBytes]
    decide

theorem value_order_desc (le : Bool) (t : SopeType) (a b : Value)
    (ha : a.hasType t = true) (hb : b.hasType t = true) (h : a.lt b = true) :
    memcmp (valueBytes le false b) (valueBytes le false a)
      (min (valueBytes le false b).length (valueBytes le false a).length) < 0 := by
  cases a <;> cases b <;> simp only [Value.lt, decide_eq_true_eq, Bool.false_eq_true] at h
    <;> cases t <;> simp only [Value.hasType, decide_eq_true_eq, Bool.false_eq_true,
      Bool.and_eq_true, Bool.not_eq_true', List.all_eq_true] at ha hb
  case int.int.TYPE_INT x y =>
    simp only [valueBytes]
    rw [store_encode_int le x ha.1 ha.2, store_encode_int le y hb.1 hb.2]
    exact memcmp_beBytes_min 4 _ _ (by simp; omega) (by simp; omega)
  case long.long.TYPE_LONG x y =>
    simp only [valueBytes]
    rw [store_encode_long le x ha.1 ha.2, store_encode_long le y hb.1 hb.2]
    exact memcmp_beBytes_min 8 _ _ (by simp; omega) (by simp; omega)
  case date.date.TYPE_DATE x y =>
    simp only [valueBytes]
    rw [store_encode_long le x ha.1 ha.2, store_encode_long le y hb.1 hb.2]
    exact memcmp_beBytes_min 8 _ _ (by simp; omega) (by simp; omega)
  case double.double.TYPE_DOUBLE x y =>
    simp only [valueBytes]
    rw [store_encode_double le x ha.1, store_encode_double le y hb.1]
    have rx := signMagnitude_range x
    have ry := signMagnitude_range y
    exact memcmp_beBytes_min 8 _ _ (by simp; omega) (by simp; omega)
  case timestamp.timestamp.TYPE_TIMESTAMP x y =>
    simp only [valueBytes]
    rw [store_encode_timestamp_desc_val le x ha, store_encode_timestamp_desc_val le y hb]
    exact memcmp_beBytes_min 8 _ _ (by omega) (by simp; omega)
  case string.string.TYPE_STRING x y =>
    simp only [valueBytes, encode_string, Bool.false_eq_true, if_false]
    rw [Nat.min_comm]
    exact string_desc_lt x y ha hb h
  case binary.binary.TYPE_BINARY x y =>
    simp only [valueBytes, encode_binary_seq, Bool.false_eq_true, if_false]
    rw [Nat.min_comm]
    exact binary_desc_lt x y ha hb h
  case binary.binary.TYPE_OBJECT x y =>
    simp only [valueBytes, encode_binary_seq, Bool.false_eq_true, if_false]
    rw [Nat.min_comm]
    exact binary_desc_lt x y ha hb h
  case bool.bool.TYPE_BOOL x y =>
    cases x <;> cases y <;> simp at h
    simp only [valueBytes]
    decide

theorem field_order (le asc : Bool) (t : SopeType) (x y : Option Value)
    (hx : ∀ v, x = some v → v.hasType t = true) (hy : ∀ v, y = some v → v.hasType t = true)
    (h : fieldBefore asc x y = true) :
    memcmp (fieldBytes le asc x) (fieldBytes le asc y)
      (min (fieldBytes le asc x).length (fieldBytes le asc y).length) < 0 := by
  cases asc
  · simp only [fieldBefore, Bool.false_eq_true, if_false] at h
    cases y with
    | none =>
      cases x with
      | none => simp [fieldLt] at h
      | some a =>
        have e : min (fieldBytes le false (some a)).length (fieldBytes le false none).length
            = 0 + 1 := by
          simp [fieldBytes]
        rw [e]
        simp only [fieldBytes, Bool.false_eq_true, if_false]
        exact memcmp_lt_of_head _ _ _ _ _ (by decide)
    | some b =>
      cases x with
      | none => simp [fieldLt] at h
      | some a =>
        simp only [fieldLt] at h
        have hv := value_order_desc le t b a (hy b rfl) (hx a rfl) h
        have e : min (fieldBytes le false (some a)).length (fieldBytes le false (some b)).length
            = min (valueBytes le false a).length (valueBytes le false b).length + 1 := by
          simp only [fieldBytes, List.length_cons]; omega
        rw [e]
        simp only [fieldBytes, Bool.false_eq_true, if_false]
        rw [memcmp_cons_same]
        exact hv
  · simp only [fieldBefore, if_true] at h
    cases x with
    | none =>
      cases y with
      | none => simp [fieldLt] at h
      | some b =>
        have e : min (fieldBytes le true none).length (fieldBytes le true (some b)).length
            = 0 + 1 := by
          simp [fieldBytes]
        rw [e]
        simp only [fieldBytes, if_true]
        exact memcmp_lt_of_head _ _ _ _ _ (by decide)
    | some a =>
      cases y with
      | none => simp [fieldLt] at h
      | some b =>
        simp only [fieldLt] at h
        have hv := value_order_asc le t a b (hx a rfl) (hy b rfl) h
        have e : min (fieldBytes le true (some a)).length (fieldBytes le true (some b)).length
            = min (valueBytes le true a).length (valueBytes le true b).length + 1 := by
          simp only [fieldBytes, List.length_cons]; omega
        rw [e]
        simp only [fieldBytes, if_true]
        rw [memcmp_cons_same]
        exact hv

theorem wellTyped_cons (t : SopeType) (asc : Bool) (schema : List (SopeType × Bool))
    (f : Option Value) (row : List (Option Value))
    (h : wellTyped ((t, asc) :: schema) (f :: row) = true) :
    (∀ v, f = some v → v.hasType t = true) ∧ wellTyped schema row = true := by
  simp only [wellTyped, Bool.and_eq_true] at h
  refine ⟨?_, h.2⟩
  intro v hv
  subst hv
  exact h.1

theorem row_order (le : Bool) (schema : List (SopeType × Bool)) (r1 r2 : List (Option Value))
    (t1 t2 : List Nat) (h1 : wellTyped schema r1 = true) (h2 : wellTyped schema r2 = true)
    (h : rowBefore schema r1 r2 = true) :
    memcmp (rowBytes le schema r1 ++ t1) (rowBytes le schema r2 ++ t2)
      (min (rowBytes le schema r1).length (rowBytes le schema r2).length) < 0 := by
  induction schema generalizing r1 r2 with
  | nil => simp [rowBefore] at h
  | cons ta schema ih =>
    obtain ⟨t, asc⟩ := ta
    cases r1 with
    | nil => simp [rowBefore] at h
    | cons x r1 =>
      cases r2 with
      | nil => simp [rowBefore] at h
      | cons y r2 =>
        obtain ⟨hx, hw1⟩ := wellTyped_cons t asc schema x r1 h1
        obtain ⟨hy, hw2⟩ := wellTyped_cons t asc schema y r2 h2
        simp only [rowBefore] at h
        simp only [rowBytes, List.append_assoc, List.length_append]
        by_cases hxy : x = y
        · subst hxy
          simp only [if_true] at h
          have e : min ((fieldBytes le asc x).length + (rowBytes le schema r1).length)
              ((fieldBytes le asc x).length + (rowBytes le schema r2).length)
              = (fieldBytes le asc x).length
                + min (rowBytes le schema r1).length (rowBytes le schema r2).length := by
            omega
          rw [e, memcmp_append_same]
          exact ih r1 r2 hw1 hw2 h
        · simp only [hxy, if_false] at h
          have hf := field_order le asc t x y hx hy h
          exact memcmp_lt_mono _ _ _ _ _ _ hf (by omega)

/-! ## Totality of the row order -/

theorem bytesLt_total (a b : List Nat) (h : a ≠ b) : bytesLt a b = true ∨ bytesLt b a = true := by
  induction a generalizing b with
  | nil =>
    cases b with
    | nil => exact absurd rfl h
    | cons d y => simp [bytesLt]
  | cons c x ih =>
    cases b with
    | nil => simp [bytesLt]
    | cons d y =>
      simp only [bytesLt]
      by_cases hcd : c = d
      · subst hcd
        have hxy : x ≠ y := fun e => h (by rw [e])
        simpa using ih y hxy
      · have hdc : ¬ d = c := fun e => hcd e.symm
        simp only [hcd, hdc, if_false, decide_eq_true_eq]
        omega

theorem bytesLt_irrefl (a : List Nat) : bytesLt a a = false := by
  induction a with
  | nil => rfl
  | cons c x ih => simp [bytesLt, ih]

theorem signMagnitude_inj (a b : Nat) (ha : a < 2 ^ 64) (hb : b < 2 ^ 64)
    (h : signMagnitude a = signMagnitude b) : a = b := by
  unfold signMagnitude at h
  rw [Nat.mod_eq_of_lt ha, Nat.mod_eq_of_lt hb] at h
  split at h <;> split at h <;> omega

theorem value_total (t : SopeType) (a b : Value)
    (ha : a.hasType t = true) (hb : b.hasType t = true) (h : a ≠ b) :
    a.lt b = true ∨ b.lt a = true := by
  cases t <;> cases a <;> simp only [Value.hasType, decide_eq_true_eq, Bool.false_eq_true,
      Bool.and_eq_true, Bool.not_eq_true', List.all_eq_true] at ha
    <;> cases b <;> simp only [Value.hasType, decide_eq_true_eq, Bool.false_eq_true,
      Bool.and_eq_true, Bool.not_eq_true', List.all_eq_true] at hb
    <;> simp only [Value.lt, decide_eq_true_eq]
  case TYPE_INT.int.int x y =>
    have : x ≠ y := fun e => h (by rw [e])
    omega
  case TYPE_LONG.long.long x y =>
    have : x ≠ y := fun e => h (by rw [e])
    omega
  case TYPE_DATE.date.date x y =>
    have : x ≠ y := fun e => h (by rw [e])
    omega
  case TYPE_TIMESTAMP.timestamp.timestamp x y =>
    have : x ≠ y := fun e => h (by rw [e])
    omega
  case TYPE_DOUBLE.double.double x y =>
    have hne : signMagnitude x ≠ signMagnitude y :=
      fun e => h (by rw [signMagnitude_inj x y ha.1 hb.1 e])
    omega
  case TYPE_STRING.string.string x y =>
    exact bytesLt_total x y (fun e => h (by rw [e]))
  case TYPE_BINARY.binary.binary x y =>
    exact bytesLt_total x y (fun e => h (by rw [e]))
  case TYPE_OBJECT.binary.binary x y =>
    exact bytesLt_total x y (fun e => h (by rw [e]))
  case TYPE_BOOL.bool.bool x y =>
    cases x <;> cases y <;> simp at h ⊢

theorem field_total (asc : Bool) (t : SopeType) (x y : Option Value)
    (hx : ∀ v, x = some v → v.hasType t = true) (hy : ∀ v, y = some v → v.hasType t = true)
    (h : x ≠ y) : fieldBefore asc x y = true ∨ fieldBefore asc y x = true := by
  have key : fieldLt x y = true ∨ fieldLt y x = true := by
    cases x with
    | none =>
      cases y with
      | none => exact absurd rfl h
      | some b => simp [fieldLt]
    | some a =>
      cases y with
      | none => simp [fieldLt]
      | some b =>
        simp only [fieldLt]
        exact value_total t a b (hx a rfl) (hy b rfl) (fun e => h (by rw [e]))
  cases asc
  · simp only [fieldBefore, Bool.false_eq_true, if_false]
    exact key.symm
  · simp only [fieldBefore, if_true]
    exact key

theorem row_total (schema : List (SopeType × Bool)) (r1 r2 : List (Option Value))
    (h1 : wellTyped schema r1 = true) (h2 : wellTyped schema r2 = true) (h : r1 ≠ r2) :
    rowBefore schema r1 r2 = true ∨ rowBefore schema r2 r1 = true := by
  induction schema generalizing r1 r2 with
  | nil =>
    cases r1 with
    | nil =>
      cases r2 with
      | nil => exact absurd rfl h
      | cons y r2 => simp [wellTyped] at h2
    | cons x r1 => simp [wellTyped] at h1
  | cons ta schema ih =>
    obtain ⟨t, asc⟩ := ta
    cases r1 with
    | nil => simp [wellTyped] at h1
    | cons x r1 =>
      cases r2 with
      | nil => simp [wellTyped] at h2
      | cons y r2 =>
        obtain ⟨hx, hw1⟩ := wellTyped_cons t asc schema x r1 h1
        obtain ⟨hy, hw2⟩ := wellTyped_cons t asc schema y r2 h2
        simp only [rowBefore]
        by_cases hxy : x = y
        · subst hxy
          simp only [if_true]
          exact ih r1 r2 hw1 hw2 (fun e => h (by rw [e]))
        · have hyx : ¬ y = x := fun e => hxy e.symm
          simp only [hxy, hyx, if_false]
          exact field_total asc t x y hx hy hxy

theorem rowBefore_irrefl (schema : List (SopeType × Bool)) (r : List (Option Value)) :
    rowBefore schema r r = false := by
  induction schema generalizing r with
  | nil => simp [rowBefore]
  | cons ta schema ih =>
    cases r with
    | nil => simp [rowBefore]
    | cons x r => simp [rowBefore, ih]

/-! ## Comparison of written records -/

theorem toSizeT_min (n1 n2 : Nat) (h1 : n1 < 2 ^ 32) (h2 : n2 < 2 ^ 32) :
    toSizeT (if (n1 : Int) ≤ (n2 : Int) then (n1 : Int) else (n2 : Int)) = min n1 n2 := by
  unfold toSizeT
  split <;> omega

theorem comp_of_built (r1 r2 : EncodedRecord) (b1 b2 t1 t2 : List Nat)
    (hd1 : r1.getData = b1 ++ t1) (he1 : r1.getEndPos = b1.length) (hl1 : b1.length < 2 ^ 32)
    (hd2 : r2.getData = b2 ++ t2) (he2 : r2.getEndPos = b2.length) (hl2 : b2.length < 2 ^ 32) :
    comp r1 r2 = decide (memcmp (b1 ++ t1) (b2 ++ t2) (min b1.length b2.length) < 0) := by
  unfold comp
  rw [hd1, hd2, he1, he2, toSizeT_min _ _ hl1 hl2]

theorem comp_of_rowBefore (le : Bool) (schema : List (SopeType × Bool))
    (row1 row2 : List (Option Value)) (sz1 sz2 : Nat) (heap1 heap2 : Option (List Nat))
    (r1 r2 : EncodedRecord)
    (h1 : wellTyped schema row1 = true) (h2 : wellTyped schema row2 = true)
    (hb1 : buildRecord le sz1 heap1 schema row1 = some r1)
    (hb2 : buildRecord le sz2 heap2 schema row2 = some r2)
    (h : rowBefore schema row1 row2 = true) :
    comp r1 r2 = true ∧ comp r2 r1 = false := by
  obtain ⟨t1, hd1, he1, hl1⟩ := buildRecord_spec le sz1 heap1 schema row1 r1 hb1
  obtain ⟨t2, hd2, he2, hl2⟩ := buildRecord_spec le sz2 heap2 schema row2 r2 hb2
  have hlt := row_order le schema row1 row2 t1 t2 h1 h2 h
  rw [comp_of_built r1 r2 _ _ t1 t2 hd1 he1 hl1 hd2 he2 hl2,
    comp_of_built r2 r1 _ _ t2 t1 hd2 he2 hl2 hd1 he1 hl1]
  constructor
  · simpa using hlt
  · rw [memcmp_swap, Nat.min_comm]
    simp only [decide_eq_false_iff_not]
    omega

theorem comp_of_same_row (le : Bool) (schema : List (SopeType × Bool))
    (row : List (Option Value)) (sz1 sz2 : Nat) (heap1 heap2 : Option (List Nat))
    (r1 r2 : EncodedRecord)
    (hb1 : buildRecord le sz1 heap1 schema row = some r1)
    (hb2 : buildRecord le sz2 heap2 schema row = some r2) :
    comp r1 r2 = false := by
  obtain ⟨t1, hd1, he1, hl1⟩ := buildRecord_spec le sz1 heap1 schema row r1 hb1
  obtain ⟨t2, hd2, he2, hl2⟩ := buildRecord_spec le sz2 heap2 schema row r2 hb2
  rw [comp_of_built r1 r2 _ _ t1 t2 hd1 he1 hl1 hd2 he2 hl2, Nat.min_self]
  have e := memcmp_append_same (rowBytes le schema row) t1 t2 0
  rw [Nat.add_zero] at e
  rw [e]
  cases t1 <;> cases t2 <;> simp [memcmp]

/-- Claim C1. For every schema and every two rows that fit it (each field
`NULL` or a value of the field type; strings without 0x00 byte, doubles
non-NaN and ordered by the sign-magnitude reading of their bit patterns),
written on either host as `buildRecords` writes them (per field the null
indicator alone or the not-null indicator followed by `put`, in the declared
direction), `comp(r1, r2)` is true exactly when, at the first field where the
rows differ, the field of the first row comes before that of the second in
the declared order, `NULL` being the smallest value; for equal rows `comp` is
false both ways. -/
theorem comp_record_order (le : Bool) (schema : List (SopeType × Bool))
    (row1 row2 : List (Option Value)) (sz1 sz2 : Nat) (heap1 heap2 : Option (List Nat))
    (r1 r2 : EncodedRecord)
    (h1 : wellTyped schema row1 = true) (h2 : wellTyped schema row2 = true)
    (hb1 : buildRecord le sz1 heap1 schema row1 = some r1)
    (hb2 : buildRecord le sz2 heap2 schema row2 = some r2) :
    (comp r1 r2 = true ↔ rowBefore schema row1 row2 = true)
    ∧ (row1 = row2 → comp r1 r2 = false ∧ comp r2 r1 = false) := by
  constructor
  · constructor
    · intro hc
      by_cases heq : row1 = row2
      · subst heq
        rw [comp_of_same_row le schema row1 sz1 sz2 heap1 heap2 r1 r2 hb1 hb2] at hc
        exact absurd hc (by simp)
      · rcases row_total schema row1 row2 h1 h2 heq with h | h
        · exact h
        · have := (comp_of_rowBefore le schema row2 row1 sz2 sz1 heap2 heap1 r2 r1 h2 h1 hb2 hb1 h).2
          rw [this] at hc
          exact absurd hc (by simp)
    · intro h
      exact (comp_of_rowBefore le schema row1 row2 sz1 sz2 heap1 heap2 r1 r2 h1 h2 hb1 hb2 h).1
  · intro heq
    subst heq
    exact ⟨comp_of_same_row le schema row1 sz1 sz2 heap1 heap2 r1 r2 hb1 hb2,
      comp_of_same_row le schema row1 sz2 sz1 heap2 heap1 r2 r1 hb2 hb1⟩

theorem comp_record_order_witness :
    (wellTyped [(SopeType.TYPE_INT, true), (SopeType.TYPE_STRING, false)]
        [some (Value.int (-10)), some (Value.string [0x61, 0x62])] = true
      ∧ wellTyped [(SopeType.TYPE_INT, true), (SopeType.TYPE_STRING, false)]
        [some (Value.int (-10)), none] = true
      ∧ buildRecord true 16 (some []) [(SopeType.TYPE_INT, true), (SopeType.TYPE_STRING, false)]
          [some (Value.int (-10)), some (Value.string [0x61, 0x62])]
        = some { pData := some [15, 127, 255, 255, 246, 240, 158, 157, 255, 255, 0, 0, 0, 0, 0, 0],
                 curPos := 0, endPos := 10, curLen := 16, pWorkingBuf := none,
                 lenWorkingBuf := 0 }
      ∧ buildRecord true 16 (some [0xAA, 0xAA, 0xAA, 0xAA, 0xAA, 0xAA, 0xAA, 0xAA])
          [(SopeType.TYPE_INT, true), (SopeType.TYPE_STRING, false)]
          [some (Value.int (-10)), none]
        = some { pData := some [15, 127, 255, 255, 246, 248, 170, 170, 0, 0, 0, 0, 0, 0, 0, 0],
                 curPos := 0, endPos := 6, curLen := 16, pWorkingBuf := none,
                 lenWorkingBuf := 0 })
    ∧ ((comp { pData := some [15, 127, 255, 255, 246, 240, 158, 157, 255, 255, 0, 0, 0, 0, 0, 0],
               curPos := 0, endPos := 10, curLen := 16, pWorkingBuf := none, lenWorkingBuf := 0 }
             { pData := some [15, 127, 255, 255, 246, 248, 170, 170, 0, 0, 0, 0, 0, 0, 0, 0],
               curPos := 0, endPos := 6, curLen := 16, pWorkingBuf := none, lenWorkingBuf := 0 }
            = true
          ↔ rowBefore [(SopeType.TYPE_INT, true), (SopeType.TYPE_STRING, false)]
              [some (Value.int (-10)), some (Value.string [0x61, 0x62])]
              [some (Value.int (-10)), none] = true)
      ∧ ([some (Value.int (-10)), some (Value.string [0x61, 0x62])]
            = [some (Value.int (-10)), none] →
          comp { pData := some [15, 127, 255, 255, 246, 240, 158, 157, 255, 255, 0, 0, 0, 0, 0, 0],
                 curPos := 0, endPos := 10, curLen := 16, pWorkingBuf := none,
                 lenWorkingBuf := 0 }
               { pData := some [15, 127, 255, 255, 246, 248, 170, 170, 0, 0, 0, 0, 0, 0, 0, 0],
                 curPos := 0, endPos := 6, curLen := 16, pWorkingBuf := none, lenWorkingBuf := 0 }
            = false
          ∧ comp { pData := some [15, 127, 255, 255, 246, 248, 170, 170, 0, 0, 0, 0, 0, 0, 0, 0],
                   curPos := 0, endPos := 6, curLen := 16, pWorkingBuf := none,
                   lenWorkingBuf := 0 }
                 { pData := some [15, 127, 255, 255, 246, 240, 158, 157, 255, 255, 0, 0, 0, 0, 0, 0],
                   curPos := 0, endPos := 10, curLen := 16, pWorkingBuf := none,
                   lenWorkingBuf := 0 }
            = false)) :=
  ⟨⟨by decide, by decide, by decide, by decide⟩,
    comp_record_order true [(SopeType.TYPE_INT, true), (SopeType.TYPE_STRING, false)]
      [some (Value.int (-10)), some (Value.string [0x61, 0x62])] [some (Value.int (-10)), none]
      16 16 (some []) (some [0xAA, 0xAA, 0xAA, 0xAA, 0xAA, 0xAA, 0xAA, 0xAA]) _ _
      (by decide) (by decide) (by decide) (by decide)⟩

/-! ## Round trip of doubles -/

theorem encode_double_lt (le : Bool) (u : Nat) (d : Bool) : encode_double le u d < 2 ^ 64 := by
  unfold encode_double
  exact enc64_lt le _

theorem decode_double_encode_double (le d : Bool) (u : Nat) (hu : u < 2 ^ 64) :
    decode_double le (encode_double le u d) d = u := by
  have hs := and_topBit 63 u hu
  have e1 : (0x8000000000000000 : Nat) = 2 ^ 63 := by norm_num
  have e2 : (0xFFFFFFFFFFFFFFFF : Nat) = 2 ^ 64 - 1 := by norm_num
  have e3 : (0x7FFFFFFFFFFFFFFF : Nat) = 2 ^ 63 - 1 := by norm_num
  have hm : u % 2 ^ 64 = u := Nat.mod_eq_of_lt hu
  unfold decode_double encode_double
  simp only [hm, e1, e2, e3, dec64_enc64]
  by_cases hlt : u < 2 ^ 63
  · have hn : ¬ (u &&& 2 ^ 63 ≠ 0) := by rw [hs]; omega
    cases d
    · simp only [if_neg hn, Bool.false_eq_true, if_false]
      have hx : u ^^^ (2 ^ 63 - 1) = 2 ^ 63 - 1 - u := xor_allOnes 63 u hlt
      have hX : (u ^^^ (2 ^ 63 - 1)) % 2 ^ 64 = u ^^^ (2 ^ 63 - 1) :=
        Nat.mod_eq_of_lt (by rw [hx]; omega)
      rw [hX]
      have hn2 : ¬ ((u ^^^ (2 ^ 63 - 1)) &&& 2 ^ 63 ≠ 0) := by
        rw [and_topBit 63 _ (by rw [hx]; omega), hx]; omega
      rw [if_neg hn2, xor_xor_cancel]
    · simp only [if_neg hn, if_true]
      have hx := xor_topBit 63 u hu
      simp only [hlt, if_true] at hx
      have hX : (u ^^^ 2 ^ 63) % 2 ^ 64 = u ^^^ 2 ^ 63 :=
        Nat.mod_eq_of_lt (by rw [hx]; omega)
      rw [hX]
      have hn2 : (u ^^^ 2 ^ 63) &&& 2 ^ 63 ≠ 0 := by
        rw [and_topBit 63 _ (by rw [hx]; omega), hx]; omega
      rw [if_pos hn2, xor_xor_cancel]
  · have hn : u &&& 2 ^ 63 ≠ 0 := by rw [hs]; omega
    cases d
    · simp only [if_pos hn, Bool.false_eq_true, if_false, hm]
    · simp only [if_pos hn, if_true]
      have hx := xor_allOnes 64 u hu
      have hX : (u ^^^ (2 ^ 64 - 1)) % 2 ^ 64 = u ^^^ (2 ^ 64 - 1) :=
        Nat.mod_eq_of_lt (by rw [hx]; omega)
      rw [hX]
      have hn2 : ¬ ((u ^^^ (2 ^ 64 - 1)) &&& 2 ^ 63 ≠ 0) := by
        rw [and_topBit 63 _ (by rw [hx]; omega), hx]; omega
      rw [if_neg hn2, xor_xor_cancel]

theorem decode_double_ptr_store (le : Bool) (x : Nat) (d : Bool) (t : List Nat) (hx : x < 2 ^ 64) :
    decode_double_ptr le (store le 8 x ++ t) d = decode_double le x d := by
  unfold decode_double_ptr decode_double
  rw [load_take_store, Nat.mod_eq_of_lt (by simpa using hx)]

/-- Claim C11. For every 64-bit pattern `u` (NaNs, infinities and both zeros
included), both directions `d` and either host, `decode_double` of
`encode(u, d)` in direction `d` has exactly the bit pattern `u`, from the
returned `uint64_t` and from the stored bytes. -/
theorem double_round_trip (le d : Bool) (u : Nat) (hu : u < 2 ^ 64) :
    decode_double le (encode_double le u d) d = u
    ∧ decode_double_ptr le (store le 8 (encode_double le u d)) d = u := by
  have h1 := decode_double_encode_double le d u hu
  have h2 := decode_double_ptr_store le (encode_double le u d) d [] (encode_double_lt le u d)
  rw [List.append_nil] at h2
  exact ⟨h1, h2.trans h1⟩

theorem double_round_trip_witness :
    (0x7FF8000000000001 : Nat) < 2 ^ 64
    ∧ isNaN 0x7FF8000000000001 = true
    ∧ decode_double true (encode_double true 0x7FF8000000000001 false) false = 0x7FF8000000000001
    ∧ decode_double_ptr true (store true 8 (encode_double true 0x7FF8000000000001 false)) false
        = 0x7FF8000000000001 :=
  ⟨by decide, by decide, double_round_trip true false 0x7FF8000000000001 (by decide)⟩

/-! ## Round trip of strings -/

theorem noZeroPair_of_pos (s : List Nat) (h : ∀ c ∈ s, 0 < c) : noZeroPair s = true := by
  induction s with
  | nil => rfl
  | cons c s ih =>
    have hc : 0 < c := h c (by simp)
    have hs := ih (fun z hz => h z (by simp [hz]))
    cases s with
    | nil => simp [noZeroPair]; omega
    | cons d s => simp [noZeroPair, hs]; omega

theorem noZeroPair_tail (c : Nat) (s : List Nat) (h : noZeroPair (c :: s) = true) :
    noZeroPair s = true := by
  cases s with
  | nil => rfl
  | cons d s =>
    simp only [noZeroPair, Bool.and_eq_true] at h
    exact h.2

theorem noZeroPair_head (c : Nat) (s : List Nat) (h : noZeroPair (c :: s) = true) (hc : c = 0) :
    ∃ d s2, s = d :: s2 ∧ d ≠ 0 := by
  cases s with
  | nil => simp [noZeroPair, hc] at h
  | cons d s =>
    refine ⟨d, s, rfl, ?_⟩
    simp only [noZeroPair, Bool.and_eq_true] at h
    intro hd
    simp [hc, hd] at h

theorem get_string_len_asc_loop_cons (c : Nat) (ps : List Nat) :
    get_string_len_asc_loop (c :: ps) =
      if c ≠ 0 then (get_string_len_asc_loop ps).map (fun n => n + 1)
      else
        match ps with
        | [] => none
        | d :: _ =>
          if d ≠ 0 then (get_string_len_asc_loop ps).map (fun n => n + 1)
          else some 0 := by
  cases ps <;> rfl

theorem get_string_len_desc_loop_cons (c : Nat) (ps : List Nat) :
    get_string_len_desc_loop (c :: ps) =
      if c ≠ 0xFF then (get_string_len_desc_loop ps).map (fun n => n + 1)
      else
        match ps with
        | [] => none
        | d :: _ =>
          if d ≠ 0xFF then (get_string_len_desc_loop ps).map (fun n => n + 1)
          else some 0 := by
  cases ps <;> rfl

theorem decode_string_asc_loop_cons (c : Nat) (pfrom : List Nat) :
    decode_string_asc_loop (c :: pfrom) =
      if c ≠ 0 then (decode_string_asc_loop pfrom).map (fun out => c :: out)
      else
        match pfrom with
        | [] => none
        | d :: _ =>
          if d ≠ 0 then (decode_string_asc_loop pfrom).map (fun out => c :: out)
          else some [] := by
  cases pfrom <;> rfl

theorem decode_string_desc_loop_cons (c : Nat) (pfrom : List Nat) :
    decode_string_desc_loop (c :: pfrom) =
      if c ≠ 0xFF then (decode_string_desc_loop pfrom).map (fun out => (c ^^^ 0xFF) % 256 :: out)
      else
        match pfrom with
        | [] => none
        | d :: _ =>
          if d ≠ 0xFF then
            (decode_string_desc_loop pfrom).map (fun out => (c ^^^ 0xFF) % 256 :: out)
          else some [] := by
  cases pfrom <;> rfl

theorem decode_string_asc_loop_spec (s t : List Nat) (h : noZeroPair s = true) :
    decode_string_asc_loop (s ++ 0 :: 0 :: t) = some s := by
  induction s with
  | nil => rfl
  | cons c s ih =>
    have ih2 := ih (noZeroPair_tail c s h)
    by_cases hc : c = 0
    · obtain ⟨d, s2, hs, hd⟩ := noZeroPair_head c s h hc
      subst hs
      subst hc
      simp only [List.cons_append] at ih2 ⊢
      rw [decode_string_asc_loop_cons, ih2]
      simp only [ne_eq, not_true_eq_false, if_false, hd, not_false_eq_true, if_true,
        Option.map_some']
    · rw [List.cons_append, decode_string_asc_loop_cons, ih2]
      simp only [ne_eq, hc, not_false_eq_true, if_true, Option.map_some']

theorem get_string_len_asc_loop_spec (s t : List Nat) (h : noZeroPair s = true) :
    get_string_len_asc_loop (s ++ 0 :: 0 :: t) = some s.length := by
  induction s with
  | nil => rfl
  | cons c s ih =>
    have ih2 := ih (noZeroPair_tail c s h)
    by_cases hc : c = 0
    · obtain ⟨d, s2, hs, hd⟩ := noZeroPair_head c s h hc
      subst hs
      subst hc
      simp only [List.cons_append] at ih2 ⊢
      rw [get_string_len_asc_loop_cons, ih2]
      simp only [ne_eq, not_true_eq_false, if_false, hd, not_false_eq_true, if_true,
        Option.map_some', List.length_cons]
    · rw [List.cons_append, get_string_len_asc_loop_cons, ih2]
      simp only [ne_eq, hc, not_false_eq_true, if_true, Option.map_some', List.length_cons]

theorem byte_compl_eq_ff (c : Nat) (h : c < 256) : (c ^^^ 0xFF) % 256 = 0xFF ↔ c = 0 := by
  rw [byte_compl c h]; omega

theorem byte_compl_compl (c : Nat) (h : c < 256) : (((c ^^^ 0xFF) % 256) ^^^ 0xFF) % 256 = c := by
  rw [byte_compl c h, byte_compl _ (by omega)]; omega

theorem decode_string_desc_loop_spec (s t : List Nat) (hb : ∀ c ∈ s, c < 256)
    (h : noZeroPair s = true) :
    decode_string_desc_loop (s.map (fun c => (c ^^^ 0xFF) % 256) ++ 0xFF :: 0xFF :: t)
      = some s := by
  induction s with
  | nil => rfl
  | cons c s ih =>
    have hc256 := hb c (by simp)
    have ih2 := ih (fun z hz => hb z (by simp [hz])) (noZeroPair_tail c s h)
    by_cases hc : c = 0
    · obtain ⟨d, s2, hs, hd⟩ := noZeroPair_head c s h hc
      subst hs
      have hd256 := hb d (by simp)
      have hdf : ¬ (d ^^^ 0xFF) % 256 = 0xFF := fun e => hd ((byte_compl_eq_ff d hd256).mp e)
      have hcf : (c ^^^ 0xFF) % 256 = 0xFF := (byte_compl_eq_ff c hc256).mpr hc
      simp only [List.map_cons, List.cons_append] at ih2 ⊢
      rw [decode_string_desc_loop_cons, ih2, byte_compl_compl c hc256]
      simp only [ne_eq, hcf, not_true_eq_false, if_false, hdf, not_false_eq_true, if_true,
        Option.map_some']
    · have hcf : ¬ (c ^^^ 0xFF) % 256 = 0xFF := fun e => hc ((byte_compl_eq_ff c hc256).mp e)
      simp only [List.map_cons, List.cons_append]
      rw [decode_string_desc_loop_cons, ih2, byte_compl_compl c hc256]
      simp only [ne_eq, hcf, not_false_eq_true, if_true, Option.map_some']

theorem get_string_len_desc_loop_spec (s t : List Nat) (hb : ∀ c ∈ s, c < 256)
    (h : noZeroPair s = true) :
    get_string_len_desc_loop (s.map (fun c => (c ^^^ 0xFF) % 256) ++ 0xFF :: 0xFF :: t)
      = some s.length := by
  induction s with
  | nil => rfl
  | cons c s ih =>
    have hc256 := hb c (by simp)
    have ih2 := ih (fun z hz => hb z (by simp [hz])) (noZeroPair_tail c s h)
    by_cases hc : c = 0
    · obtain ⟨d, s2, hs, hd⟩ := noZeroPair_head c s h hc
      subst hs
      have hd256 := hb d (by simp)
      have hdf : ¬ (d ^^^ 0xFF) % 256 = 0xFF := fun e => hd ((byte_compl_eq_ff d hd256).mp e)
      have hcf : (c ^^^ 0xFF) % 256 = 0xFF := (byte_compl_eq_ff c hc256).mpr hc
      simp only [List.map_cons, List.cons_append] at ih2 ⊢
      rw [get_string_len_desc_loop_cons, ih2]
      simp only [ne_eq, hcf, not_true_eq_false, if_false, hdf, not_false_eq_true, if_true,
        Option.map_some', List.length_cons]
    · have hcf : ¬ (c ^^^ 0xFF) % 256 = 0xFF := fun e => hc ((byte_compl_eq_ff c hc256).mp e)
      simp only [List.map_cons, List.cons_append]
      rw [get_string_len_desc_loop_cons, ih2]
      simp only [ne_eq, hcf, not_false_eq_true, if_true, Option.map_some', List.length_cons]

/-- Decoding what the string encoder wrote, whatever follows the terminator. -/
theorem decode_string_encode_string (s t : List Nat) (d : Bool) (hb : ∀ c ∈ s, c < 256)
    (h : noZeroPair s = true) (hlen : s.length < 2 ^ 32) :
    decode_string ((encode_string s d).1 ++ t) d = some (s, s.length) := by
  cases d
  · simp only [decode_string, encode_string, Bool.false_eq_true, if_false, List.append_assoc,
      List.cons_append, List.nil_append, decode_string_desc_loop_spec s t hb h, Option.map_some',
      Nat.mod_eq_of_lt hlen]
  · simp only [decode_string, encode_string, if_true, List.append_assoc,
      List.cons_append, List.nil_append, decode_string_asc_loop_spec s t h, Option.map_some',
      Nat.mod_eq_of_lt hlen]

theorem get_string_len_encode_string (s t : List Nat) (d : Bool) (hb : ∀ c ∈ s, c < 256)
    (h : noZeroPair s = true) (hlen : s.length < 2 ^ 32) :
    get_string_len ((encode_string s d).1 ++ t) d = some s.length := by
  cases d
  · simp only [get_string_len, encode_string, Bool.false_eq_true, if_false, List.append_assoc,
      List.cons_append, List.nil_append, get_string_len_desc_loop_spec s t hb h,
      Option.map_some', Nat.mod_eq_of_lt hlen]
  · simp only [get_string_len, encode_string, if_true, List.append_assoc,
      List.cons_append, List.nil_append, get_string_len_asc_loop_spec s t h, Option.map_some',
      Nat.mod_eq_of_lt hlen]

/-- Claim C12. For every byte string `s` without 0x00 byte (of a length that
is a `uint32_t`) and both directions `d`, `decode_string` applied in direction
`d` to the bytes the string encoder wrote in direction `d` returns, writes
exactly the bytes of `s` and returns `|s|`. -/
theorem string_round_trip (s : List Nat) (d : Bool) (hs : ∀ c ∈ s, 0 < c ∧ c < 256)
    (hlen : s.length < 2 ^ 32) :
    decode_string (encode_string s d).1 d = some (s, s.length) := by
  have h := decode_string_encode_string s [] d (fun c hc => (hs c hc).2)
    (noZeroPair_of_pos s (fun c hc => (hs c hc).1)) hlen
  rwa [List.append_nil] at h

theorem string_round_trip_witness :
    ((∀ c ∈ [0x61, 0xFF, 0x62], 0 < c ∧ c < 256) ∧ [0x61, 0xFF, 0x62].length < 2 ^ 32)
    ∧ decode_string (encode_string [0x61, 0xFF, 0x62] false).1 false
        = some ([0x61, 0xFF, 0x62], [0x61, 0xFF, 0x62].length) :=
  ⟨⟨by decide, by decide⟩, string_round_trip [0x61, 0xFF, 0x62] false (by decide) (by decide)⟩

/-- Claim C19, as stated, fails: the string `61 00` contains no 0xFF byte, and
`decode_string` applied to its descending encoding `9E FF FF FF` writes the
single byte `61` and returns 1. -/
theorem decode_string_desc_truncates :
    (∀ c ∈ [0x61, 0x00], c < 256 ∧ c ≠ 0xFF)
    ∧ (encode_string [0x61, 0x00] false).1 = [0x9E, 0xFF, 0xFF, 0xFF]
    ∧ decode_string (encode_string [0x61, 0x00] false).1 false = some ([0x61], 1)
    ∧ decode_string (encode_string [0x61, 0x00] false).1 false ≠ some ([0x61, 0x00], 2) := by
  decide

/-- Claim C19, amended. For every byte string `s` in which no 0x00 byte is
the last byte or is immediately followed by another 0x00 byte (0xFF bytes
are allowed), `decode_string` applied in direction desc to the bytes the
descending string encoder wrote for `s` writes exactly `s` and returns
`|s|`. -/
theorem decode_string_desc_round_trip (s : List Nat) (hb : ∀ c ∈ s, c < 256)
    (h : noZeroPair s = true) (hlen : s.length < 2 ^ 32) :
    decode_string (encode_string s false).1 false = some (s, s.length) := by
  have h := decode_string_encode_string s [] false hb h hlen
  rwa [List.append_nil] at h

theorem decode_string_desc_round_trip_witness :
    ((∀ c ∈ [0x61, 0x00, 0xFF, 0x62], c < 256) ∧ noZeroPair [0x61, 0x00, 0xFF, 0x62] = true
      ∧ [0x61, 0x00, 0xFF, 0x62].length < 2 ^ 32)
    ∧ decode_string (encode_string [0x61, 0x00, 0xFF, 0x62] false).1 false
        = some ([0x61, 0x00, 0xFF, 0x62], [0x61, 0x00, 0xFF, 0x62].length) :=
  ⟨⟨by decide, by decide, by decide⟩,
    decode_string_desc_round_trip [0x61, 0x00, 0xFF, 0x62] (by decide) (by decide) (by decide)⟩

/-- Claim C18, as stated, fails: the descending encoding of "ab" does not
compare below that of "ac" under `memcmp`. -/
theorem desc_ab_not_below_ac :
    ¬ (memcmp (encode_string [0x61, 0x62] false).1 (encode_string [0x61, 0x63] false).1
        (min (encode_string [0x61, 0x62] false).1.length
          (encode_string [0x61, 0x63] false).1.length) < 0) := by
  decide

/-- Claim C18, amended. The descending string encoding of "ab" is
`9E 9D FF FF`, that of "ac" is `9E 9C FF FF`, and the encoding of "ab"
compares strictly above the encoding of "ac" under `memcmp`. -/
theorem desc_ab_above_ac :
    (encode_string [0x61, 0x62] false).1 = [0x9E, 0x9D, 0xFF, 0xFF]
    ∧ (encode_string [0x61, 0x63] false).1 = [0x9E, 0x9C, 0xFF, 0xFF]
    ∧ 0 < memcmp (encode_string [0x61, 0x62] false).1 (encode_string [0x61, 0x63] false).1
        (min (encode_string [0x61, 0x62] false).1.length
          (encode_string [0x61, 0x63] false).1.length) := by
  decide

/-! ## Round trip and length of binary payloads -/

theorem get_bytes_len_asc_loop_cons (c : Nat) (pb : List Nat) :
    get_bytes_len_asc_loop (c :: pb) =
      if c ≠ 0 then (get_bytes_len_asc_loop pb).map (fun n => n + 1)
      else
        match pb with
        | [] => .error .undefined
        | d :: pb2 =>
          if d = 0 then .ok 0
          else if d = 0xFF then (get_bytes_len_asc_loop pb2).map (fun n => n + 1)
          else .error .abort := by
  cases pb <;> rfl

theorem get_bytes_len_desc_loop_cons (c : Nat) (pb : List Nat) :
    get_bytes_len_desc_loop (c :: pb) =
      if c ≠ 0xFF then (get_bytes_len_desc_loop pb).map (fun n => n + 1)
      else
        match pb with
        | [] => .error .undefined
        | d :: pb2 =>
          if d = 0xFF then .ok 0
          else if d = 0 then (get_bytes_len_desc_loop pb2).map (fun n => n + 1)
          else .error .abort := by
  cases pb <;> rfl

theorem decode_bytes_asc_loop_cons (c : Nat) (pfrom : List Nat) :
    decode_bytes_asc_loop (c :: pfrom) =
      if c ≠ 0 then (decode_bytes_asc_loop pfrom).map (fun o => (c :: o.1, o.2 + 1))
      else
        match pfrom with
        | [] => .error .undefined
        | d :: pfrom2 =>
          if d = 0 then .ok ([], 0)
          else if d = 0xFF then
            (decode_bytes_asc_loop pfrom2).map (fun o => (0 :: o.1, o.2 + 2))
          else .error .abort := by
  cases pfrom <;> rfl

theorem decode_bytes_desc_loop_cons (c : Nat) (pfrom : List Nat) :
    decode_bytes_desc_loop (c :: pfrom) =
      if c ≠ 0xFF then
        (decode_bytes_desc_loop pfrom).map (fun o => ((c ^^^ 0xFF) % 256 :: o.1, o.2 + 1))
      else
        match pfrom with
        | [] => .error .undefined
        | d :: pfrom2 =>
          if d = 0xFF then .ok ([], 0)
          else if d = 0 then
            (decode_bytes_desc_loop pfrom2).map (fun o => (0 :: o.1, o.2 + 2))
          else .error .abort := by
  cases pfrom <;> rfl

theorem decode_bytes_asc_loop_spec (p t : List Nat) :
    decode_bytes_asc_loop (encode_binary_asc_loop p ++ 0 :: 0 :: t)
      = .ok (p, (encode_binary_asc_loop p).length) := by
  induction p with
  | nil => rfl
  | cons b p ih =>
    by_cases hb : b = 0
    · subst hb
      simp only [encode_binary_asc_loop, if_true, List.cons_append, List.length_cons]
      rw [decode_bytes_asc_loop_cons]
      simp only [ne_eq, not_true_eq_false, if_false, ih]
      rfl
    · simp only [encode_binary_asc_loop, hb, if_false, List.cons_append, List.length_cons]
      rw [decode_bytes_asc_loop_cons, ih]
      simp only [ne_eq, hb, not_false_eq_true, if_true]
      rfl

theorem get_bytes_len_asc_loop_spec (p t : List Nat) :
    get_bytes_len_asc_loop (encode_binary_asc_loop p ++ 0 :: 0 :: t) = .ok p.length := by
  induction p with
  | nil => rfl
  | cons b p ih =>
    by_cases hb : b = 0
    · subst hb
      simp only [encode_binary_asc_loop, if_true, List.cons_append, List.length_cons]
      rw [get_bytes_len_asc_loop_cons]
      simp only [ne_eq, not_true_eq_false, if_false, ih]
      rfl
    · simp only [encode_binary_asc_loop, hb, if_false, List.cons_append, List.length_cons]
      rw [get_bytes_len_asc_loop_cons, ih]
      simp only [ne_eq, hb, not_false_eq_true, if_true]
      rfl

theorem decode_bytes_desc_loop_spec (p t : List Nat) (h : ∀ c ∈ p, c < 256) :
    decode_bytes_desc_loop (encode_binary_desc_loop p ++ 0xFF :: 0xFF :: t)
      = .ok (p, (encode_binary_desc_loop p).length) := by
  induction p with
  | nil => rfl
  | cons b p ih =>
    have hb256 := h b (by simp)
    have ih2 := ih (fun z hz => h z (by simp [hz]))
    by_cases hb : b = 0
    · subst hb
      have e0 : (0 ^^^ 0xFF) % 256 = 0xFF := by decide
      simp only [encode_binary_desc_loop, if_true, List.cons_append, List.length_cons, e0]
      rw [decode_bytes_desc_loop_cons]
      simp only [ne_eq, not_true_eq_false, if_false, ih2]
      rfl
    · have hcf : ¬ (b ^^^ 0xFF) % 256 = 0xFF := fun e => hb ((byte_compl_eq_ff b hb256).mp e)
      simp only [encode_binary_desc_loop, hb, if_false, List.cons_append, List.length_cons]
      rw [decode_bytes_desc_loop_cons, ih2]
      simp only [ne_eq, hcf, not_false_eq_true, if_true, Except.map, byte_compl_compl b hb256]

theorem get_bytes_len_desc_loop_spec (p t : List Nat) (h : ∀ c ∈ p, c < 256) :
    get_bytes_len_desc_loop (encode_binary_desc_loop p ++ 0xFF :: 0xFF :: t) = .ok p.length := by
  induction p with
  | nil => rfl
  | cons b p ih =>
    have hb256 := h b (by simp)
    have ih2 := ih (fun z hz => h z (by simp [hz]))
    by_cases hb : b = 0
    · subst hb
      have e0 : (0 ^^^ 0xFF) % 256 = 0xFF := by decide
      simp only [encode_binary_desc_loop, if_true, List.cons_append, List.length_cons, e0]
      rw [get_bytes_len_desc_loop_cons]
      simp only [ne_eq, not_true_eq_false, if_false, ih2]
      rfl
    · have hcf : ¬ (b ^^^ 0xFF) % 256 = 0xFF := fun e => hb ((byte_compl_eq_ff b hb256).mp e)
      simp only [encode_binary_desc_loop, hb, if_false, List.cons_append, List.length_cons]
      rw [get_bytes_len_desc_loop_cons, ih2]
      simp only [ne_eq, hcf, not_false_eq_true, if_true, Except.map]

/-- Decoding what the binary encoder wrote, whatever follows the terminator. -/
theorem decode_bytes_encode_binary_seq (p t : List Nat) (d : Bool) (hb : ∀ c ∈ p, c < 256) :
    decode_bytes ((encode_binary_seq p d).1 ++ t) d
      = .ok (p, p.length % 2 ^ 32,
          ((encode_binary_seq p d).1.length - BINARY_PAD_LEN) % 2 ^ 32) := by
  cases d
  · simp only [decode_bytes, encode_binary_seq, Bool.false_eq_true, if_false, List.append_assoc,
      List.cons_append, List.nil_append, decode_bytes_desc_loop_spec p t hb, Except.map,
      List.length_append, List.length_cons, List.length_nil, BINARY_PAD_LEN]
    rfl
  · simp only [decode_bytes, encode_binary_seq, if_true, List.append_assoc,
      List.cons_append, List.nil_append, decode_bytes_asc_loop_spec p t, Except.map,
      List.length_append, List.length_cons, List.length_nil, BINARY_PAD_LEN]
    rfl

theorem get_bytes_len_encode_binary_seq (p t : List Nat) (d : Bool) (hb : ∀ c ∈ p, c < 256) :
    get_bytes_len ((encode_binary_seq p d).1 ++ t) d = .ok (p.length % 2 ^ 32) := by
  cases d
  · simp only [get_bytes_len, encode_binary_seq, Bool.false_eq_true, if_false, List.append_assoc,
      List.cons_append, List.nil_append, get_bytes_len_desc_loop_spec p t hb, Except.map]
  · simp only [get_bytes_len, encode_binary_seq, if_true, List.append_assoc,
      List.cons_append, List.nil_append, get_bytes_len_asc_loop_spec p t, Except.map]

/-- Claim C13, as stated, fails: for the payload of `2 ^ 31` bytes 0x00 (a
length that is a `uint32_t`) the loop of the ascending encoder stores
`2 ^ 32` bytes, the terminator replaces the first escape pair, and
`decode_bytes` on the block finds the terminator at once: it returns the
empty payload and length 0. -/
theorem binary_round_trip_fails_wrapped :
    (∀ c ∈ 0 :: 0 :: List.replicate 2147483646 0, c < 256)
    ∧ (0 :: 0 :: List.replicate 2147483646 0).length = 2 ^ 31
    ∧ decode_bytes (encode_binary (0 :: 0 :: List.replicate 2147483646 0) true).1 true
        = .ok ([], 0, 0) := by
  refine ⟨zeros_lt_256 2147483646, ?_, ?_⟩
  · rw [List.length_cons, List.length_cons, List.length_replicate]
    norm_num
  · have h := decode_bytes_zeros 2147483646 (by norm_num) []
    rwa [List.append_nil] at h

/-- Claim C13, amended. For every byte payload `p` (any number of 0x00 and
0xFF bytes, the empty payload included) whose length plus number of 0x00
bytes is below `2 ^ 32`, and both directions `d`, `decode_bytes` applied in
direction `d` to the bytes the binary encoder wrote in direction `d` returns
without `abort()`, writes exactly the bytes of `p`, leaves `|p|` in `len` and
returns the number of encoded bytes in front of the terminator. -/
theorem binary_round_trip (p : List Nat) (d : Bool) (hb : ∀ c ∈ p, c < 256)
    (hlen : p.length + p.count 0 < 2 ^ 32) :
    decode_bytes (encode_binary p d).1 d
      = .ok (p, p.length, ((encode_binary p d).1.length - BINARY_PAD_LEN) % 2 ^ 32) := by
  rw [encode_binary_eq_seq_of_count p d hlen]
  have h := decode_bytes_encode_binary_seq p [] d hb
  rwa [List.append_nil, Nat.mod_eq_of_lt (by omega)] at h

theorem binary_round_trip_witness :
    ((∀ c ∈ [0x11, 0x22, 0x00, 0x33, 0xFF, 0x00], c < 256)
      ∧ [0x11, 0x22, 0x00, 0x33, 0xFF, 0x00].length
          + [0x11, 0x22, 0x00, 0x33, 0xFF, 0x00].count 0 < 2 ^ 32)
    ∧ decode_bytes (encode_binary [0x11, 0x22, 0x00, 0x33, 0xFF, 0x00] false).1 false
      = .ok ([0x11, 0x22, 0x00, 0x33, 0xFF, 0x00], [0x11, 0x22, 0x00, 0x33, 0xFF, 0x00].length,
          ((encode_binary [0x11, 0x22, 0x00, 0x33, 0xFF, 0x00] false).1.length
            - BINARY_PAD_LEN) % 2 ^ 32) :=
  ⟨⟨by decide, by decide⟩,
    binary_round_trip [0x11, 0x22, 0x00, 0x33, 0xFF, 0x00] false (by decide) (by decide)⟩


theorem calc_binary_zero_count_eq (p : List Nat) (z : Int) :
    calc_binary_zero_count p z = z + (p.count 0 : Nat) := by
  induction p generalizing z with
  | nil => simp [calc_binary_zero_count]
  | cons b p ih =>
    by_cases hb : b = 0
    · subst hb
      simp only [calc_binary_zero_count, if_true, ih, List.count_cons_self]
      push_cast
      omega
    · simp only [calc_binary_zero_count, hb, if_false, ih]
      rw [List.count_cons_of_ne (fun e => hb e.symm)]

/-- Claim C20. For every byte payload `p` of length `len` with
`len + 2 + (number of 0x00 bytes)` below `2 ^ 32`, and both directions, the
value the binary encoder returns equals `calc_binary_encoded_len(p, len)` and
equals `len + 2 + (number of 0x00 bytes in p)`; for a string of length `len`
the string encoder returns `calc_string_encoded_len(len)`, which is `len + 2`
when that is below `2 ^ 32`. -/
theorem encoded_len (p s : List Nat) (asc : Bool) (hp : p.length + 2 + p.count 0 < 2 ^ 32)
    (hs : s.length + 2 < 2 ^ 32) :
    (encode_binary p asc).2 = calc_binary_encoded_len p
    ∧ (encode_binary p asc).2 = p.length + 2 + p.count 0
    ∧ (encode_string s asc).2 = calc_string_encoded_len s.length
    ∧ calc_string_encoded_len s.length = s.length + 2 := by
  rw [encode_binary_eq_seq_of_count p asc (by omega)]
  have h1 : (encode_binary_seq p asc).2 = p.length + 2 + p.count 0 := by
    cases asc
    · simp only [encode_binary_seq, Bool.false_eq_true, if_false, length_encode_binary_desc_loop,
        BINARY_PAD_LEN]
      omega
    · simp only [encode_binary_seq, if_true, length_encode_binary_asc_loop, BINARY_PAD_LEN]
      omega
  have h2 : calc_binary_encoded_len p = p.length + 2 + p.count 0 := by
    simp only [calc_binary_encoded_len, calc_binary_zero_count_eq, BINARY_PAD_LEN, toU32]
    omega
  refine ⟨h1.trans h2.symm, h1, ?_, ?_⟩
  · cases asc <;> simp [encode_string, calc_string_encoded_len]
  · simp only [calc_string_encoded_len, STRING_PAD_LEN]
    omega

theorem encoded_len_witness :
    ([0x11, 0x12, 0x00, 0x20].length + 2 + [0x11, 0x12, 0x00, 0x20].count 0 < 2 ^ 32
      ∧ [0x61, 0x62].length + 2 < 2 ^ 32)
    ∧ (encode_binary [0x11, 0x12, 0x00, 0x20] true).2
        = calc_binary_encoded_len [0x11, 0x12, 0x00, 0x20]
    ∧ (encode_binary [0x11, 0x12, 0x00, 0x20] true).2
        = [0x11, 0x12, 0x00, 0x20].length + 2 + [0x11, 0x12, 0x00, 0x20].count 0
    ∧ (encode_string [0x61, 0x62] true).2 = calc_string_encoded_len [0x61, 0x62].length
    ∧ calc_string_encoded_len [0x61, 0x62].length = [0x61, 0x62].length + 2 :=
  ⟨⟨by decide, by decide⟩,
    encoded_len [0x11, 0x12, 0x00, 0x20] [0x61, 0x62] true (by decide) (by decide)⟩

/-! ## Bool through the record -/

/-- Claim C14, the failing input. In direction desc, `put(true, false)` at
cursor position 0 followed by `getBool(false)` at the same position returns
`false`, and `put(false, false)` followed by `getBool(false)` returns `true`:
`put` stores the negation and `getBool` does not undo it. In direction asc
the value comes back. -/
theorem getBool_ignores_direction :
    (((EncodedRecord.empty.alloc 1 (some [])).put_bool true false).bind
        (fun r => (r.resetPos.getBool false).map Prod.fst) = some false)
    ∧ (((EncodedRecord.empty.alloc 1 (some [])).put_bool false false).bind
        (fun r => (r.resetPos.getBool false).map Prod.fst) = some true)
    ∧ (((EncodedRecord.empty.alloc 1 (some [])).put_bool true true).bind
        (fun r => (r.resetPos.getBool true).map Prod.fst) = some true)
    ∧ (((EncodedRecord.empty.alloc 1 (some [])).put_bool false true).bind
        (fun r => (r.resetPos.getBool true).map Prod.fst) = some false) := by
  decide

/-! ## Null indicators under `comp` -/

theorem comp_differ_at (r1 r2 : EncodedRecord) (pre t1 t2 : List Nat) (a b : Nat) (hab : a < b)
    (hd1 : r1.getData = pre ++ a :: t1) (hd2 : r2.getData = pre ++ b :: t2)
    (he1 : (pre.length : Int) < r1.getEndPos) (he2 : (pre.length : Int) < r2.getEndPos)
    (hi1 : r1.getEndPos < 2 ^ 31) (hi2 : r2.getEndPos < 2 ^ 31) :
    comp r1 r2 = true ∧ comp r2 r1 = false := by
  have key : ∀ e1 e2 : Int, (pre.length : Int) < e1 → (pre.length : Int) < e2 →
      e1 < 2 ^ 31 → e2 < 2 ^ 31 →
      ∃ k, toSizeT (if e1 ≤ e2 then e1 else e2) = pre.length + (k + 1) := by
    intro e1 e2 h1 h2 h3 h4
    refine ⟨toSizeT (if e1 ≤ e2 then e1 else e2) - pre.length - 1, ?_⟩
    unfold toSizeT
    split <;> omega
  obtain ⟨k, hk⟩ := key _ _ he1 he2 hi1 hi2
  obtain ⟨k2, hk2⟩ := key _ _ he2 he1 hi2 hi1
  have hlt : memcmp (pre ++ a :: t1) (pre ++ b :: t2) (pre.length + (k + 1)) < 0 := by
    rw [memcmp_append_same]
    exact memcmp_lt_of_head a b t1 t2 k hab
  have hgt : ¬ (memcmp (pre ++ b :: t2) (pre ++ a :: t1) (pre.length + (k2 + 1)) < 0) := by
    rw [memcmp_swap, memcmp_append_same]
    have := memcmp_lt_of_head a b t1 t2 k2 hab
    omega
  unfold comp
  rw [hd1, hd2, hk, hk2]
  exact ⟨by simpa using hlt, by simpa using hgt⟩

/-- Claim C16, as stated, fails under desc: of two records written for a
schema with one descending int field, the one holding `NULL` (bytes `F8`)
does not compare below the one holding the value 5 (bytes `F0 ...`); `comp`
is false for (null, value) and true for (value, null). -/
theorem null_not_below_value_desc :
    (buildRecord true 8 (some []) [(SopeType.TYPE_INT, false)] [none]).bind (fun rn =>
      (buildRecord true 8 (some []) [(SopeType.TYPE_INT, false)] [some (Value.int 5)]).map
        (fun rv => (comp rn rv, comp rv rn))) = some (false, true) := by
  decide

/-- Claim C16, amended. For every field position `|pre|`, a record that
holds the stored null indicator at that position and a record with the same
bytes `pre` before it that holds the not-null indicator followed by any
bytes, both sealed beyond that position: under asc the record with `NULL`
compares strictly below the other (`comp` true, and false the other way
round); under desc the record with the value compares strictly below the
record with `NULL`. -/
theorem null_indicator_order (asc : Bool) (rn rv : EncodedRecord) (pre tn tv : List Nat)
    (hn : rn.getData = pre ++ (if asc then NULL_ASC else NULL_DESC) :: tn)
    (hv : rv.getData = pre ++ (if asc then NOT_NULL_ASC else NOT_NULL_DESC) :: tv)
    (hen : (pre.length : Int) < rn.getEndPos) (hev : (pre.length : Int) < rv.getEndPos)
    (hin : rn.getEndPos < 2 ^ 31) (hiv : rv.getEndPos < 2 ^ 31) :
    (asc = true → comp rn rv = true ∧ comp rv rn = false)
    ∧ (asc = false → comp rv rn = true ∧ comp rn rv = false) := by
  constructor
  · intro ha
    subst ha
    exact comp_differ_at rn rv pre tn tv _ _ (by decide) hn hv hen hev hin hiv
  · intro ha
    subst ha
    exact comp_differ_at rv rn pre tv tn _ _ (by decide) hv hn hev hen hiv hin

theorem null_indicator_order_witness :
    (({ pData := some [0xF8, 0, 0, 0, 0], curPos := 0, endPos := 1, curLen := 5,
        pWorkingBuf := none, lenWorkingBuf := 0 } : EncodedRecord).getData
        = [] ++ (if false then NULL_ASC else NULL_DESC) :: [0, 0, 0, 0]
      ∧ ({ pData := some [0xF0, 0x7F, 0xFF, 0xFF, 0xFA], curPos := 0, endPos := 5, curLen := 5,
           pWorkingBuf := none, lenWorkingBuf := 0 } : EncodedRecord).getData
        = [] ++ (if false then NOT_NULL_ASC else NOT_NULL_DESC) :: [0x7F, 0xFF, 0xFF, 0xFA]
      ∧ (([] : List Nat).length : Int)
          < ({ pData := some [0xF8, 0, 0, 0, 0], curPos := 0, endPos := 1, curLen := 5,
               pWorkingBuf := none, lenWorkingBuf := 0 } : EncodedRecord).getEndPos
      ∧ (([] : List Nat).length : Int)
          < ({ pData := some [0xF0, 0x7F, 0xFF, 0xFF, 0xFA], curPos := 0, endPos := 5,
               curLen := 5, pWorkingBuf := none, lenWorkingBuf := 0 } : EncodedRecord).getEndPos)
    ∧ ((false = true →
          comp { pData := some [0xF8, 0, 0, 0, 0], curPos := 0, endPos := 1, curLen := 5,
                 pWorkingBuf := none, lenWorkingBuf := 0 }
               { pData := some [0xF0, 0x7F, 0xFF, 0xFF, 0xFA], curPos := 0, endPos := 5,
                 curLen := 5, pWorkingBuf := none, lenWorkingBuf := 0 } = true
          ∧ comp { pData := some [0xF0, 0x7F, 0xFF, 0xFF, 0xFA], curPos := 0, endPos := 5,
                   curLen := 5, pWorkingBuf := none, lenWorkingBuf := 0 }
                 { pData := some [0xF8, 0, 0, 0, 0], curPos := 0, endPos := 1, curLen := 5,
                   pWorkingBuf := none, lenWorkingBuf := 0 } = false)
      ∧ (false = false →
          comp { pData := some [0xF0, 0x7F, 0xFF, 0xFF, 0xFA], curPos := 0, endPos := 5,
                 curLen := 5, pWorkingBuf := none, lenWorkingBuf := 0 }
               { pData := some [0xF8, 0, 0, 0, 0], curPos := 0, endPos := 1, curLen := 5,
                 pWorkingBuf := none, lenWorkingBuf := 0 } = true
          ∧ comp { pData := some [0xF8, 0, 0, 0, 0], curPos := 0, endPos := 1, curLen := 5,
                   pWorkingBuf := none, lenWorkingBuf := 0 }
                 { pData := some [0xF0, 0x7F, 0xFF, 0xFF, 0xFA], curPos := 0, endPos := 5,
                   curLen := 5, pWorkingBuf := none, lenWorkingBuf := 0 } = false)) :=
  ⟨⟨by decide, by decide, by decide, by decide⟩,
    null_indicator_order false _ _ [] [0, 0, 0, 0] [0x7F, 0xFF, 0xFF, 0xFA]
      (by decide) (by decide) (by decide) (by decide) (by decide) (by decide)⟩

/-! ## Frame of the record writer -/

theorem write_frame (r r1 : EncodedRecord) (bs : List Nat) (w : Nat)
    (h : (r.storeAt bs).bind (fun r => r.addPos w) = some r1) :
    r1.pWorkingBuf = r.pWorkingBuf ∧ r1.lenWorkingBuf = r.lenWorkingBuf
      ∧ r1.endPos = r.endPos ∧ r1.curLen = r.curLen ∧ r1.curPos < 2 ^ 31 := by
  unfold EncodedRecord.storeAt at h
  cases hpd : r.pData with
  | none => simp [hpd] at h
  | some buf =>
    simp only [hpd] at h
    split at h
    · simp only [Option.some_bind, EncodedRecord.addPos] at h
      split at h
      · next hc =>
        simp only [Option.some.injEq] at h
        subst h
        exact ⟨rfl, rfl, rfl, rfl, hc.2⟩
      · simp at h
    · simp at h

theorem putField_frame (le : Bool) (r r1 : EncodedRecord) (asc : Bool) (f : Option Value)
    (h : putField le r asc f = some r1) :
    r1.pWorkingBuf = r.pWorkingBuf ∧ r1.lenWorkingBuf = r.lenWorkingBuf
      ∧ r1.endPos = r.endPos ∧ r1.curLen = r.curLen ∧ r1.curPos < 2 ^ 31 := by
  cases f with
  | none => exact write_frame r r1 _ _ h
  | some v =>
    simp only [putField, Option.bind_eq_some] at h
    obtain ⟨r0, h0, h1⟩ := h
    have f0 := write_frame r r0 _ _ h0
    have f1 : r1.pWorkingBuf = r0.pWorkingBuf ∧ r1.lenWorkingBuf = r0.lenWorkingBuf
        ∧ r1.endPos = r0.endPos ∧ r1.curLen = r0.curLen ∧ r1.curPos < 2 ^ 31 := by
      cases v <;> exact write_frame r0 r1 _ _ h1
    exact ⟨f1.1.trans f0.1, f1.2.1.trans f0.2.1, f1.2.2.1.trans f0.2.2.1,
      f1.2.2.2.1.trans f0.2.2.2.1, f1.2.2.2.2⟩

theorem writeRow_frame (le : Bool) (schema : List (SopeType × Bool)) (row : List (Option Value))
    (r r1 : EncodedRecord) (hr : r.curPos < 2 ^ 31) (h : writeRow le schema row r = some r1) :
    r1.pWorkingBuf = r.pWorkingBuf ∧ r1.lenWorkingBuf = r.lenWorkingBuf
      ∧ r1.endPos = r.endPos ∧ r1.curLen = r.curLen ∧ r1.curPos < 2 ^ 31 := by
  induction schema generalizing row r with
  | nil =>
    cases row with
    | nil =>
      simp only [writeRow, Option.some.injEq] at h
      subst h
      exact ⟨rfl, rfl, rfl, rfl, hr⟩
    | cons f row => simp [writeRow] at h
  | cons ta schema ih =>
    obtain ⟨t, asc⟩ := ta
    cases row with
    | nil => simp [writeRow] at h
    | cons f row =>
      simp only [writeRow, Option.bind_eq_some] at h
      obtain ⟨r0, h0, h1⟩ := h
      have f0 := putField_frame le r r0 asc f h0
      have f1 := ih row r0 f0.2.2.2.2 h1
      exact ⟨f1.1.trans f0.1, f1.2.1.trans f0.2.1, f1.2.2.1.trans f0.2.2.1,
        f1.2.2.2.1.trans f0.2.2.2.1, f1.2.2.2.2⟩

/-- What `buildRecord` leaves: the row bytes at the start of the block, the
cursor at 0, the end position behind the row bytes and below `2 ^ 31`, no
scratch block. -/
theorem buildRecord_state (le : Bool) (sz : Nat) (heap : Option (List Nat))
    (schema : List (SopeType × Bool)) (row : List (Option Value)) (r : EncodedRecord)
    (h : buildRecord le sz heap schema row = some r) :
    ∃ tail, r.getData = rowBytes le schema row ++ tail
      ∧ r.curPos = 0
      ∧ r.endPos = (rowBytes le schema row).length
      ∧ (rowBytes le schema row).length < 2 ^ 31
      ∧ r.pWorkingBuf = none := by
  obtain ⟨tail, hd, he, _⟩ := buildRecord_spec le sz heap schema row r h
  unfold buildRecord at h
  cases h0 : writeRow le schema row (EncodedRecord.empty.alloc sz heap) with
  | none => simp [h0] at h
  | some r0 =>
    have h1 : r0.setEndPos.resetPos = r := by simpa [h0] using h
    have fr := writeRow_frame le schema row _ r0 (by simp [EncodedRecord.alloc]) h0
    subst h1
    refine ⟨tail, hd, rfl, he, ?_, ?_⟩
    · have : r0.setEndPos.resetPos.getEndPos = r0.curPos := rfl
      rw [this] at he
      have := fr.2.2.2.2
      omega
    · exact fr.1

/-! ## The record reader -/

theorem memAt_of (r : EncodedRecord) (pre m : List Nat) (hd : r.pData = some (pre ++ m))
    (hp : r.curPos = pre.length) : r.memAt = some m := by
  have hpos : r.curPos.toNat = pre.length := by omega
  have hc : 0 ≤ r.curPos ∧ pre.length ≤ (pre ++ m).length := by
    rw [List.length_append]; omega
  simp only [EncodedRecord.memAt, hd, hpos, if_pos hc, List.drop_left]

theorem loadAt_of (r : EncodedRecord) (pre m : List Nat) (n : Nat)
    (hd : r.pData = some (pre ++ m)) (hp : r.curPos = pre.length) (hn : n ≤ m.length) :
    r.loadAt n = some m := by
  simp only [EncodedRecord.loadAt, memAt_of r pre m hd hp, Option.some_bind, if_pos hn]

theorem addPos_of (r : EncodedRecord) (p w : Nat) (hp : r.curPos = p) (hb : p + w < 2 ^ 31) :
    r.addPos w = some { r with curPos := ((p + w : Nat) : Int) } := by
  have hc : -2 ^ 31 ≤ (p : Int) + (w : Int) ∧ (p : Int) + (w : Int) < 2 ^ 31 := by omega
  simp only [EncodedRecord.addPos, hp, if_pos hc, Nat.cast_add]

theorem fixed_get {α : Type} (r : EncodedRecord) (pre m : List Nat) (n w : Nat)
    (dec : List Nat → α) (hd : r.pData = some (pre ++ m)) (hp : r.curPos = pre.length)
    (hn : n ≤ m.length) (hb : pre.length + w < 2 ^ 31) (hw : WorkingOk r) :
    ∃ r1, (r.loadAt n).bind (fun m => (r.addPos w).map (fun r1 => (dec m, r1)))
        = some (dec m, r1) ∧ ReadTo r r1 (pre.length + w) := by
  refine ⟨{ r with curPos := ((pre.length + w : Nat) : Int) }, ?_, rfl, rfl, rfl, rfl, hw⟩
  simp only [loadAt_of r pre m n hd hp hn, Option.some_bind, addPos_of r pre.length w hp hb,
    Option.map_some']

theorem getWorkingBuf_spec (r : EncodedRecord) (len : Nat) (heap : Option (List Nat))
    (hw : WorkingOk r) (hh : heap.isSome = true) :
    WorkingOk (r.getWorkingBuf len heap)
    ∧ (∃ buf, (r.getWorkingBuf len heap).pWorkingBuf = some buf ∧ len ≤ buf.length)
    ∧ (r.getWorkingBuf len heap).pData = r.pData
    ∧ (r.getWorkingBuf len heap).endPos = r.endPos
    ∧ (r.getWorkingBuf len heap).curLen = r.curLen
    ∧ (r.getWorkingBuf len heap).curPos = r.curPos := by
  unfold EncodedRecord.getWorkingBuf
  split
  · next hc =>
    refine ⟨hw, ?_, rfl, rfl, rfl, rfl⟩
    cases hb : r.pWorkingBuf with
    | none => exact absurd hb hc.1
    | some buf =>
      refine ⟨buf, rfl, ?_⟩
      have := hw buf hb
      omega
  · obtain ⟨junk, hj⟩ := Option.isSome_iff_exists.mp hh
    subst hj
    refine ⟨?_, ⟨mallocBlock len junk, rfl, by rw [length_mallocBlock]⟩, rfl, rfl, rfl, rfl⟩
    intro buf hbuf
    simp only [Option.map_some', Option.some.injEq] at hbuf
    subst hbuf
    exact length_mallocBlock len junk

theorem storeWorking_spec (r : EncodedRecord) (out : List Nat) (hw : WorkingOk r)
    (hfit : ∃ buf, r.pWorkingBuf = some buf ∧ out.length ≤ buf.length) :
    ∃ r1, r.storeWorking out = some r1
      ∧ (r1.pWorkingBuf.getD []).take out.length = out
      ∧ WorkingOk r1 ∧ r1.pData = r.pData ∧ r1.endPos = r.endPos ∧ r1.curLen = r.curLen
      ∧ r1.curPos = r.curPos := by
  obtain ⟨buf, hbuf, hlen⟩ := hfit
  cases out with
  | nil =>
    exact ⟨r, by simp [EncodedRecord.storeWorking], by simp, hw, rfl, rfl, rfl, rfl⟩
  | cons c out =>
    refine ⟨{ r with pWorkingBuf := some ((c :: out) ++ buf.drop (c :: out).length) }, ?_, ?_, ?_,
      rfl, rfl, rfl, rfl⟩
    · simp only [EncodedRecord.storeWorking, hbuf, if_pos hlen]
    · simp only [Option.getD_some, List.take_left]
    · intro b hb
      simp only [Option.some.injEq] at hb
      subst hb
      have := hw buf hbuf
      simp only [List.length_append, List.length_drop]
      omega

theorem ReadTo_trans (r r1 r2 : EncodedRecord) (p1 p2 : Nat) (h1 : ReadTo r r1 p1)
    (h2 : ReadTo r1 r2 p2) : ReadTo r r2 p2 :=
  ⟨h2.1.trans h1.1, h2.2.1.trans h1.2.1, h2.2.2.1.trans h1.2.2.1, h2.2.2.2.1, h2.2.2.2.2⟩

theorem checkNull_spec (r : EncodedRecord) (pre m : List Nat) (b : Nat) (asc : Bool)
    (hd : r.pData = some (pre ++ b :: m)) (hp : r.curPos = pre.length)
    (hb : pre.length + 1 < 2 ^ 31) (hw : WorkingOk r) :
    ∃ r1, r.checkNullFieldIndicator asc
        = some (decide (b = (if asc then NULL_ASC else NULL_DESC)), r1)
      ∧ ReadTo r r1 (pre.length + 1) := by
  obtain ⟨r1, h1, h2⟩ := fixed_get r pre (b :: m) 1 LEN_NULL
    (fun m => decide (m.head? = some (if asc then NULL_ASC else NULL_DESC))) hd hp
    (by simp) hb hw
  refine ⟨r1, ?_, h2⟩
  unfold EncodedRecord.checkNullFieldIndicator
  rw [h1]
  simp

theorem getString_spec (r : EncodedRecord) (asc : Bool) (heap : Option (List Nat))
    (pre rest s : List Nat) (hd : r.pData = some (pre ++ ((encode_string s asc).1 ++ rest)))
    (hp : r.curPos = pre.length) (hs : ∀ c ∈ s, 0 < c ∧ c < 256)
    (hb : pre.length + (s.length + 2) < 2 ^ 31) (hh : heap.isSome = true) (hw : WorkingOk r) :
    ∃ wb r1, r.getString asc heap = some (wb, s.length, r1)
      ∧ (wb.getD []).take s.length = s
      ∧ ReadTo r r1 (pre.length + (s.length + 2)) := by
  have hlen : s.length < 2 ^ 32 := by omega
  have hm := memAt_of r pre _ hd hp
  have hl := get_string_len_encode_string s rest asc (fun c hc => (hs c hc).2)
    (noZeroPair_of_pos s (fun c hc => (hs c hc).1)) hlen
  have hdec := decode_string_encode_string s rest asc (fun c hc => (hs c hc).2)
    (noZeroPair_of_pos s (fun c hc => (hs c hc).1)) hlen
  obtain ⟨hw1, hfit, f1, f2, f3, f4⟩ := getWorkingBuf_spec r s.length heap hw hh
  obtain ⟨r1, hst, htake, hw2, g1, g2, g3, g4⟩ := storeWorking_spec _ s hw1 hfit
  have hpos1 : r1.curPos = pre.length := g4.trans (f4.trans hp)
  have hwidth : (s.length + STRING_PAD_LEN) % 2 ^ 32 = s.length + 2 := by
    simp only [STRING_PAD_LEN]; omega
  have ha := addPos_of r1 pre.length (s.length + 2) hpos1 hb
  refine ⟨r1.pWorkingBuf, { r1 with curPos := ((pre.length + (s.length + 2) : Nat) : Int) },
    ?_, htake, g1.trans f1, g2.trans f2, g3.trans f3, rfl, hw2⟩
  simp only [EncodedRecord.getString, hm, Option.some_bind, hl, hdec, hst, hwidth, ha,
    Option.map_some']

theorem getBinary_spec (r : EncodedRecord) (asc : Bool) (heap : Option (List Nat))
    (pre rest p : List Nat) (hd : r.pData = some (pre ++ ((encode_binary_seq p asc).1 ++ rest)))
    (hp : r.curPos = pre.length) (hs : ∀ c ∈ p, c < 256)
    (hb : pre.length + (encode_binary_seq p asc).1.length < 2 ^ 31) (hh : heap.isSome = true)
    (hw : WorkingOk r) :
    ∃ wb r1, r.getBinary asc heap = .ok (wb, p.length, r1)
      ∧ (wb.getD []).take p.length = p
      ∧ ReadTo r r1 (pre.length + (encode_binary_seq p asc).1.length) := by
  have hE : p.length + 2 ≤ (encode_binary_seq p asc).1.length := by
    cases asc
    · simp only [encode_binary_seq, Bool.false_eq_true, if_false, List.length_append,
        length_encode_binary_desc_loop, List.length_cons, List.length_nil]
      omega
    · simp only [encode_binary_seq, if_true, List.length_append,
        length_encode_binary_asc_loop, List.length_cons, List.length_nil]
      omega
  have hlen : p.length % 2 ^ 32 = p.length := Nat.mod_eq_of_lt (by omega)
  have hm := memAt_of r pre _ hd hp
  have hl := get_bytes_len_encode_binary_seq p rest asc hs
  have hdec := decode_bytes_encode_binary_seq p rest asc hs
  rw [hlen] at hl hdec
  obtain ⟨hw1, hfit, f1, f2, f3, f4⟩ := getWorkingBuf_spec r p.length heap hw hh
  obtain ⟨r1, hst, htake, hw2, g1, g2, g3, g4⟩ := storeWorking_spec _ p hw1 hfit
  have hpos1 : r1.curPos = pre.length := g4.trans (f4.trans hp)
  have hwidth : (((encode_binary_seq p asc).1.length - BINARY_PAD_LEN) % 2 ^ 32 + BINARY_PAD_LEN)
      % 2 ^ 32 = (encode_binary_seq p asc).1.length := by
    simp only [BINARY_PAD_LEN]; omega
  have ha := addPos_of r1 pre.length (encode_binary_seq p asc).1.length hpos1 hb
  refine ⟨r1.pWorkingBuf,
    { r1 with curPos := ((pre.length + (encode_binary_seq p asc).1.length : Nat) : Int) },
    ?_, htake, g1.trans f1, g2.trans f2, g3.trans f3, rfl, hw2⟩
  simp only [EncodedRecord.getBinary, hm, hl, hdec, hst, hwidth, ha]

theorem decode_date_ptr_eq (le : Bool) (p : List Nat) (asc : Bool) :
    decode_date_ptr le p asc = decode_long_ptr le p asc := rfl

theorem ReadTo_pos (r r1 : EncodedRecord) (p q : Nat) (h : ReadTo r r1 p) (e : p = q) :
    ReadTo r r1 q := e ▸ h

theorem readField_spec (le : Bool) (heap : Option (List Nat)) (r : EncodedRecord) (t : SopeType)
    (asc : Bool) (f : Option Value) (pre rest : List Nat)
    (hd : r.pData = some (pre ++ (fieldBytes le asc f ++ rest))) (hp : r.curPos = pre.length)
    (hb : pre.length + (fieldBytes le asc f).length < 2 ^ 31)
    (hf : ∀ v, f = some v → v.storable t = true) (hbool : t = .TYPE_BOOL → asc = true)
    (hh : heap.isSome = true) (hw : WorkingOk r) :
    ∃ r1, readField le heap r t asc = .ok (f, r1)
      ∧ ReadTo r r1 (pre.length + (fieldBytes le asc f).length) := by
  cases f with
  | none =>
    simp only [fieldBytes, List.cons_append, List.nil_append, List.length_cons,
      List.length_nil] at hd hb ⊢
    obtain ⟨r1, h1, h2⟩ := checkNull_spec r pre rest _ asc hd hp hb hw
    refine ⟨r1, ?_, h2⟩
    simp only [readField, h1, decide_True]
  | some v =>
    have hv := hf v rfl
    simp only [fieldBytes, List.cons_append, List.length_cons] at hd hb ⊢
    obtain ⟨r1, h1, h2⟩ := checkNull_spec r pre (valueBytes le asc v ++ rest) _ asc hd hp
      (by omega) hw
    have hne : decide ((if asc then NOT_NULL_ASC else NOT_NULL_DESC)
        = (if asc then NULL_ASC else NULL_DESC)) = false := by
      cases asc <;> decide
    rw [hne] at h1
    have hd1 : r1.pData = some ((pre ++ [if asc then NOT_NULL_ASC else NOT_NULL_DESC])
        ++ (valueBytes le asc v ++ rest)) := by
      rw [h2.1, hd]; simp
    have hp1 : r1.curPos = ((pre ++ [if asc then NOT_NULL_ASC else NOT_NULL_DESC]).length : Nat) := by
      rw [h2.2.2.2.1]; simp
    have hw1 := h2.2.2.2.2
    have hl1 : (pre ++ [if asc then NOT_NULL_ASC else NOT_NULL_DESC]).length = pre.length + 1 := by
      simp
    cases t <;> cases v <;> simp only [Value.storable, decide_eq_true_eq, Bool.false_eq_true,
      List.all_eq_true] at hv
    case TYPE_INT.int i =>
      simp only [valueBytes] at hd1 hb ⊢
      obtain ⟨r2, hg, hr2⟩ := fixed_get r1 _ _ 4 LEN_INT (fun m => decode_int_ptr le m asc)
        hd1 hp1 (by simp [length_store]) (by simp only [List.length_append, List.length_cons, List.length_nil, length_store, LEN_INT, LEN_LONG, LEN_DATE, LEN_DOUBLE, LEN_TIMESTAMP, LEN_BOOL] at *; try omega)
        hw1
      have hdv : decode_int_ptr le (store le 4 (encode_int le i asc) ++ rest) asc = i :=
        (decode_int_ptr_store le _ asc rest (enc32_lt le _)).trans
          (decode_int_encode_int le i asc hv.1 hv.2)
      simp only [hdv] at hg
      refine ⟨r2, ?_, ReadTo_pos _ _ _ _ (ReadTo_trans r r1 r2 _ _ h2 hr2)
        (by simp only [List.length_append, List.length_cons, List.length_nil, length_store, LEN_INT, LEN_LONG, LEN_DATE, LEN_DOUBLE, LEN_TIMESTAMP, LEN_BOOL] at *; try omega)⟩
      simp only [readField, h1, EncodedRecord.getInt, hg, Option.map_some', orUndefined]
    case TYPE_LONG.long l =>
      simp only [valueBytes] at hd1 hb ⊢
      obtain ⟨r2, hg, hr2⟩ := fixed_get r1 _ _ 8 LEN_LONG (fun m => decode_long_ptr le m asc)
        hd1 hp1 (by simp [length_store]) (by simp only [List.length_append, List.length_cons, List.length_nil, length_store, LEN_INT, LEN_LONG, LEN_DATE, LEN_DOUBLE, LEN_TIMESTAMP, LEN_BOOL] at *; try omega)
        hw1
      have hdv : decode_long_ptr le (store le 8 (encode_long le l asc) ++ rest) asc = l :=
        (decode_long_ptr_store le _ asc rest (enc64_lt le _)).trans
          (decode_long_encode_long le l asc hv.1 hv.2)
      simp only [hdv] at hg
      refine ⟨r2, ?_, ReadTo_pos _ _ _ _ (ReadTo_trans r r1 r2 _ _ h2 hr2)
        (by simp only [List.length_append, List.length_cons, List.length_nil, length_store, LEN_INT, LEN_LONG, LEN_DATE, LEN_DOUBLE, LEN_TIMESTAMP, LEN_BOOL] at *; try omega)⟩
      simp only [readField, h1, EncodedRecord.getLong, hg, Option.map_some', orUndefined]
    case TYPE_DATE.date l =>
      simp only [valueBytes] at hd1 hb ⊢
      obtain ⟨r2, hg, hr2⟩ := fixed_get r1 _ _ 8 LEN_DATE (fun m => decode_date_ptr le m asc)
        hd1 hp1 (by simp [length_store]) (by simp only [List.length_append, List.length_cons, List.length_nil, length_store, LEN_INT, LEN_LONG, LEN_DATE, LEN_DOUBLE, LEN_TIMESTAMP, LEN_BOOL] at *; try omega)
        hw1
      have hdv : decode_date_ptr le (store le 8 (encode_long le l asc) ++ rest) asc = l :=
        (decode_long_ptr_store le _ asc rest (enc64_lt le _)).trans
          (decode_long_encode_long le l asc hv.1 hv.2)
      simp only [hdv] at hg
      refine ⟨r2, ?_, ReadTo_pos _ _ _ _ (ReadTo_trans r r1 r2 _ _ h2 hr2)
        (by simp only [List.length_append, List.length_cons, List.length_nil, length_store, LEN_INT, LEN_LONG, LEN_DATE, LEN_DOUBLE, LEN_TIMESTAMP, LEN_BOOL] at *; try omega)⟩
      simp only [readField, h1, EncodedRecord.getDate, hg, Option.map_some', orUndefined]
    case TYPE_DOUBLE.double u =>
      simp only [valueBytes] at hd1 hb ⊢
      obtain ⟨r2, hg, hr2⟩ := fixed_get r1 _ _ 8 LEN_DOUBLE
        (fun m => decode_double_ptr le m asc)
        hd1 hp1 (by simp [length_store])
        (by simp only [List.length_append, List.length_cons, List.length_nil, length_store, LEN_INT, LEN_LONG, LEN_DATE, LEN_DOUBLE, LEN_TIMESTAMP, LEN_BOOL] at *; try omega) hw1
      have hdv : decode_double_ptr le (store le 8 (encode_double le u asc) ++ rest) asc = u :=
        (decode_double_ptr_store le _ asc rest (encode_double_lt le u asc)).trans
          (decode_double_encode_double le asc u hv)
      simp only [hdv] at hg
      refine ⟨r2, ?_, ReadTo_pos _ _ _ _ (ReadTo_trans r r1 r2 _ _ h2 hr2)
        (by simp only [List.length_append, List.length_cons, List.length_nil, length_store, LEN_INT, LEN_LONG, LEN_DATE, LEN_DOUBLE, LEN_TIMESTAMP, LEN_BOOL] at *; try omega)⟩
      simp only [readField, h1, EncodedRecord.getDouble, hg, Option.map_some', orUndefined]
    case TYPE_TIMESTAMP.timestamp ts =>
      simp only [valueBytes] at hd1 hb ⊢
      obtain ⟨r2, hg, hr2⟩ := fixed_get r1 _ _ 8 LEN_TIMESTAMP
        (fun m => decode_timestamp le m asc)
        hd1 hp1 (by simp [length_store])
        (by simp only [List.length_append, List.length_cons, List.length_nil, length_store, LEN_INT, LEN_LONG, LEN_DATE, LEN_DOUBLE, LEN_TIMESTAMP, LEN_BOOL] at *; try omega) hw1
      have hdv : decode_timestamp le (store le 8 (encode_timestamp le ts asc) ++ rest) asc = ts :=
        decode_timestamp_encode le ts asc rest hv
      simp only [hdv] at hg
      refine ⟨r2, ?_, ReadTo_pos _ _ _ _ (ReadTo_trans r r1 r2 _ _ h2 hr2)
        (by simp only [List.length_append, List.length_cons, List.length_nil, length_store, LEN_INT, LEN_LONG, LEN_DATE, LEN_DOUBLE, LEN_TIMESTAMP, LEN_BOOL] at *; try omega)⟩
      simp only [readField, h1, EncodedRecord.getTimestamp, hg, Option.map_some', orUndefined]
    case TYPE_BOOL.bool b =>
      have hasc := hbool rfl
      subst hasc
      simp only [valueBytes, if_true] at hd1 hb ⊢
      obtain ⟨r2, hg, hr2⟩ := fixed_get r1 _ _ 1 LEN_BOOL
        (fun m => decide (m.head? ≠ some 0))
        hd1 hp1 (by simp) (by simp only [List.length_append, List.length_cons, List.length_nil, length_store, LEN_INT, LEN_LONG, LEN_DATE, LEN_DOUBLE, LEN_TIMESTAMP, LEN_BOOL] at *; try omega) hw1
      have hdv : decide (([if b = true then 1 else 0] ++ rest).head? ≠ some 0) = b := by
        cases b <;> simp
      simp only [hdv] at hg
      refine ⟨r2, ?_, ReadTo_pos _ _ _ _ (ReadTo_trans r r1 r2 _ _ h2 hr2)
        (by simp only [List.length_append, List.length_cons, List.length_nil, length_store, LEN_INT, LEN_LONG, LEN_DATE, LEN_DOUBLE, LEN_TIMESTAMP, LEN_BOOL] at *; try omega)⟩
      simp only [readField, h1, EncodedRecord.getBool, hg, Option.map_some', orUndefined]
    case TYPE_STRING.string s =>
      simp only [valueBytes] at hd1 hb ⊢
      rw [length_encode_string] at hb ⊢
      obtain ⟨wb, r2, hg, htake, hr2⟩ := getString_spec r1 asc heap _ rest s hd1 hp1 hv
        (by rw [hl1]; omega) hh hw1
      refine ⟨r2, ?_, ReadTo_pos _ _ _ _ (ReadTo_trans r r1 r2 _ _ h2 hr2) (by rw [hl1]; omega)⟩
      simp only [readField, h1, hg, Option.map_some', orUndefined, htake]
    case TYPE_BINARY.binary p =>
      simp only [valueBytes] at hd1 hb ⊢
      obtain ⟨wb, r2, hg, htake, hr2⟩ := getBinary_spec r1 asc heap _ rest p hd1 hp1 hv
        (by rw [hl1]; omega) hh hw1
      refine ⟨r2, ?_, ReadTo_pos _ _ _ _ (ReadTo_trans r r1 r2 _ _ h2 hr2) (by rw [hl1]; omega)⟩
      simp only [readField, h1, hg, Except.map, htake]
    case TYPE_OBJECT.binary p =>
      simp only [valueBytes] at hd1 hb ⊢
      obtain ⟨wb, r2, hg, htake, hr2⟩ := getBinary_spec r1 asc heap _ rest p hd1 hp1 hv
        (by rw [hl1]; omega) hh hw1
      refine ⟨r2, ?_, ReadTo_pos _ _ _ _ (ReadTo_trans r r1 r2 _ _ h2 hr2) (by rw [hl1]; omega)⟩
      simp only [readField, h1, hg, Except.map, htake]

theorem storableRow_cons (t : SopeType) (asc : Bool) (schema : List (SopeType × Bool))
    (f : Option Value) (row : List (Option Value))
    (h : storableRow ((t, asc) :: schema) (f :: row) = true) :
    (∀ v, f = some v → v.storable t = true) ∧ storableRow schema row = true := by
  simp only [storableRow, Bool.and_eq_true] at h
  refine ⟨?_, h.2⟩
  intro v hv
  subst hv
  exact h.1

theorem readRow_spec (le : Bool) (heap : Nat → Option (List Nat))
    (schema : List (SopeType × Bool)) (row : List (Option Value)) (r : EncodedRecord)
    (pre rest : List Nat) (hd : r.pData = some (pre ++ (rowBytes le schema row ++ rest)))
    (hp : r.curPos = pre.length) (hb : pre.length + (rowBytes le schema row).length < 2 ^ 31)
    (hs : storableRow schema row = true)
    (hbool : ∀ ta ∈ schema, ta.1 = SopeType.TYPE_BOOL → ta.2 = true)
    (hh : ∀ i, (heap i).isSome = true) (hw : WorkingOk r) :
    ∃ r1, readRow le heap schema r = .ok (row, r1)
      ∧ ReadTo r r1 (pre.length + (rowBytes le schema row).length) := by
  induction schema generalizing row r pre heap with
  | nil =>
    cases row with
    | nil => exact ⟨r, rfl, rfl, rfl, rfl, by simpa [rowBytes] using hp, hw⟩
    | cons f row => simp [storableRow] at hs
  | cons ta schema ih =>
    obtain ⟨t, asc⟩ := ta
    cases row with
    | nil => simp [storableRow] at hs
    | cons f row =>
      obtain ⟨hf, hs2⟩ := storableRow_cons t asc schema f row hs
      simp only [rowBytes, List.append_assoc, List.length_append] at hd hb ⊢
      obtain ⟨r1, h1, hr1⟩ := readField_spec le (heap 0) r t asc f pre _ hd hp (by omega) hf
        (hbool (t, asc) (by simp)) (hh 0) hw
      have hd1 : r1.pData = some ((pre ++ fieldBytes le asc f) ++ (rowBytes le schema row ++ rest)) := by
        rw [hr1.1, hd]; simp
      obtain ⟨r2, h2, hr2⟩ := ih (fun i => heap (i + 1)) row r1 (pre ++ fieldBytes le asc f) hd1
        (by rw [hr1.2.2.2.1]; simp) (by rw [List.length_append]; omega) hs2
        (fun ta hta => hbool ta (by simp [hta])) (fun i => hh (i + 1)) hr1.2.2.2.2
      refine ⟨r2, ?_, ReadTo_pos _ _ _ _ (ReadTo_trans r r1 r2 _ _ hr1 hr2)
        (by rw [List.length_append]; omega)⟩
      simp only [readRow, h1, h2]

/-- Reading back what `buildRecord` wrote, for a schema without descending
bool field: the `for` loop of `display` returns the row and leaves the cursor
at the end position. -/
theorem readRow_buildRecord (le : Bool) (sz : Nat) (heap : Option (List Nat))
    (mheap : Nat → Option (List Nat)) (schema : List (SopeType × Bool))
    (row : List (Option Value)) (r : EncodedRecord)
    (hs : storableRow schema row = true)
    (hbool : ∀ ta ∈ schema, ta.1 = SopeType.TYPE_BOOL → ta.2 = true)
    (hb : buildRecord le sz heap schema row = some r)
    (hm : ∀ i, (mheap i).isSome = true) :
    ∃ r1, readRow le mheap schema r = .ok (row, r1)
      ∧ r1.getPos = r1.getEndPos ∧ r1.getEndPos = r.getEndPos := by
  obtain ⟨tail, hd, hp, he, hlt, hwb⟩ := buildRecord_state le sz heap schema row r hb
  have hw : WorkingOk r := by
    intro buf hbuf
    rw [hwb] at hbuf
    exact absurd hbuf (by simp)
  cases hpd : r.pData with
  | none =>
    have hnil : rowBytes le schema row = [] := by
      have : r.getData = [] := by simp [EncodedRecord.getData, hpd]
      rw [this] at hd
      exact (List.append_eq_nil.mp hd.symm).1
    cases schema with
    | nil =>
      cases row with
      | nil =>
        refine ⟨r, rfl, ?_, rfl⟩
        simp only [EncodedRecord.getPos, EncodedRecord.getEndPos, hp, he, hnil, List.length_nil,
          Nat.cast_zero]
      | cons f row => simp [storableRow] at hs
    | cons ta schema =>
      cases row with
      | nil => simp [storableRow] at hs
      | cons f row =>
        obtain ⟨t, asc⟩ := ta
        cases f <;> simp [rowBytes, fieldBytes] at hnil
  | some buf =>
    have hbuf : buf = rowBytes le schema row ++ tail := by
      simpa [EncodedRecord.getData, hpd] using hd
    obtain ⟨r1, h1, hr1⟩ := readRow_spec le mheap schema row r [] tail
      (by rw [hpd, hbuf]; simp) (by simpa using hp) (by simpa using hlt) hs hbool hm hw
    refine ⟨r1, h1, ?_, hr1.2.1⟩
    simp only [EncodedRecord.getPos, EncodedRecord.getEndPos, hr1.2.2.2.1, hr1.2.1, he,
      List.length_nil, Nat.zero_add]

/-- Claim C15. For every row of the test schema (int asc, long asc, string
desc, binary asc, double desc) in which each field is `NULL` or a value
(strings without 0x00 byte, doubles of any bit pattern), written on either
host as `buildRecords` writes it (per field the null indicator alone or the
not-null indicator followed by `put`, then `setEndPos` and `resetPos`), the
`for` loop of `display` (per field `checkNullFieldIndicator`, then the typed
`get` when not `NULL`; every `malloc` of the scratch block succeeding) returns
the same sequence of `NULL`s and values and leaves the cursor equal to
`getEndPos()`. -/
theorem record_round_trip (le : Bool) (sz : Nat) (heap : Option (List Nat))
    (mheap : Nat → Option (List Nat)) (row : List (Option Value)) (r : EncodedRecord)
    (hs : storableRow create_test_schema row = true)
    (hb : buildRecord le sz heap create_test_schema row = some r)
    (hm : ∀ i, (mheap i).isSome = true) :
    ∃ r1, readRow le mheap create_test_schema r = .ok (row, r1)
      ∧ r1.getPos = r1.getEndPos ∧ r1.getEndPos = r.getEndPos :=
  readRow_buildRecord le sz heap mheap create_test_schema row r hs (by decide) hb hm

theorem record_round_trip_witness :
    (storableRow create_test_schema
        [some (Value.int (-10)), none, some (Value.string [0x61, 0xFF]),
          some (Value.binary [0, 1, 0]), some (Value.double 0x7FF8000000000001)] = true
      ∧ buildRecord true 28 (some []) create_test_schema
        [some (Value.int (-10)), none, some (Value.string [0x61, 0xFF]),
          some (Value.binary [0, 1, 0]), some (Value.double 0x7FF8000000000001)]
      = some
        { pData := some [15, 127, 255, 255, 246, 7, 240, 158, 0, 255, 255, 15, 0, 255, 1, 0, 255, 0,
                         0, 240, 0, 7, 255, 255, 255, 255, 255, 254],
          curPos := 0, endPos := 28, curLen := 28, pWorkingBuf := none, lenWorkingBuf := 0 }
      ∧ ∀ i : Nat, ((fun _ => some []) i : Option (List Nat)).isSome = true)
    ∧ ∃ r1, readRow true (fun _ => some []) create_test_schema
        { pData := some [15, 127, 255, 255, 246, 7, 240, 158, 0, 255, 255, 15, 0, 255, 1, 0, 255, 0,
                         0, 240, 0, 7, 255, 255, 255, 255, 255, 254],
          curPos := 0, endPos := 28, curLen := 28, pWorkingBuf := none, lenWorkingBuf := 0 }
      = .ok ([some (Value.int (-10)), none, some (Value.string [0x61, 0xFF]),
          some (Value.binary [0, 1, 0]), some (Value.double 0x7FF8000000000001)], r1)
      ∧ r1.getPos = r1.getEndPos
      ∧ r1.getEndPos = EncodedRecord.getEndPos
        { pData := some [15, 127, 255, 255, 246, 7, 240, 158, 0, 255, 255, 15, 0, 255, 1, 0, 255, 0,
                         0, 240, 0, 7, 255, 255, 255, 255, 255, 254],
          curPos := 0, endPos := 28, curLen := 28, pWorkingBuf := none, lenWorkingBuf := 0 } :=
  ⟨⟨by decide, by decide, fun _ => rfl⟩,
    record_round_trip true 28 (some []) (fun _ => some [])
      [some (Value.int (-10)), none, some (Value.string [0x61, 0xFF]),
          some (Value.binary [0, 1, 0]), some (Value.double 0x7FF8000000000001)] _ (by decide) (by decide) (fun _ => rfl)⟩

/-! ## Tuples of the simple test -/

theorem storeInto_at (pre old bs : List Nat) (h : bs.length ≤ old.length) :
    storeInto (pre ++ old) pre.length bs = some (pre ++ bs ++ old.drop bs.length) := by
  have hc : pre.length + bs.length ≤ (pre ++ old).length := by
    rw [List.length_append]; omega
  simp only [storeInto, if_pos hc, List.take_left, List.drop_append]

theorem strlen_terminated (s t : List Nat) (h : ∀ c ∈ s, 0 < c) :
    strlen (s ++ 0 :: t) = some s.length := by
  induction s with
  | nil => simp [strlen]
  | cons c s ih =>
    have hc : c ≠ 0 := by
      have := h c (by simp)
      omega
    have ih2 := ih (fun x hx => h x (by simp [hx]))
    rw [List.cons_append, strlen, if_neg hc, ih2]
    rfl

theorem length_tupleBytes (le : Bool) (a : Int × List Nat × Nat) :
    (tupleBytes le a).length = 4 + (a.2.1.length + 2) + 8 := by
  simp [tupleBytes, length_store]; omega

theorem make_spec (le : Bool) (junk : List Nat) (a : Int × List Nat × Nat)
    (hs : ∀ c ∈ a.2.1, 0 < c) (hfit : 4 + (a.2.1.length + 2) + 8 ≤ 64) :
    ∃ tail, EncodedTuple.make le junk a.1 (a.2.1 ++ [0]) a.2.2
        = some { len := (tupleBytes le a).length, tuple := tupleBytes le a ++ tail } := by
  obtain ⟨i, s, d⟩ := a
  simp only at hs hfit ⊢
  have hsl : s.length % 2 ^ 32 = s.length := by omega
  have e2 : (s.length + 2) % 2 ^ 32 = s.length + 2 := by omega
  have h1 : storeInto (mallocBlock 64 junk) 0 (store le 4 (encode_int le i true))
      = some (store le 4 (encode_int le i true) ++ (mallocBlock 64 junk).drop 4) := by
    have h := storeInto_at [] (mallocBlock 64 junk) (store le 4 (encode_int le i true))
      (by rw [length_store, length_mallocBlock]; omega)
    simpa only [List.nil_append, List.length_nil, length_store] using h
  have h2 : storeInto (store le 4 (encode_int le i true) ++ (mallocBlock 64 junk).drop 4) 4
        (s ++ [0, 0])
      = some (store le 4 (encode_int le i true) ++ (s ++ [0, 0])
          ++ ((mallocBlock 64 junk).drop 4).drop (s ++ [0, 0]).length) := by
    have h := storeInto_at (store le 4 (encode_int le i true))
      ((mallocBlock 64 junk).drop 4) (s ++ [0, 0])
      (by simp [length_mallocBlock]; omega)
    simpa only [length_store, List.append_assoc] using h
  have h3 : storeInto (store le 4 (encode_int le i true) ++ (s ++ [0, 0])
          ++ ((mallocBlock 64 junk).drop 4).drop (s ++ [0, 0]).length) (4 + (s.length + 2))
        (store le 8 (encode_double le d true))
      = some (store le 4 (encode_int le i true) ++ (s ++ [0, 0])
          ++ store le 8 (encode_double le d true)
          ++ (((mallocBlock 64 junk).drop 4).drop (s ++ [0, 0]).length).drop 8) := by
    have h := storeInto_at (store le 4 (encode_int le i true) ++ (s ++ [0, 0]))
      (((mallocBlock 64 junk).drop 4).drop (s ++ [0, 0]).length)
      (store le 8 (encode_double le d true))
      (by simp [length_store, length_mallocBlock]; omega)
    have hl : (store le 4 (encode_int le i true) ++ (s ++ [0, 0])).length = 4 + (s.length + 2) := by
      simp [length_store]
    rw [hl] at h
    simpa only [length_store] using h
  refine ⟨(((mallocBlock 64 junk).drop 4).drop (s ++ [0, 0]).length).drop 8, ?_⟩
  rw [length_tupleBytes]
  unfold EncodedTuple.make
  rw [h1, strlen_terminated s [] hs]
  simp only [Option.some_bind, hsl, List.take_left, encode_string, if_true, STRING_PAD_LEN, e2]
  rw [h2]
  simp only [Option.some_bind]
  rw [h3]
  simp only [Option.map_some', tupleBytes, List.append_assoc]

theorem MIN_eq (x y : Nat) : MIN x y = min x y := by
  unfold MIN
  split <;> omega

theorem doubleMagnitude_pos (e m : Nat) (h : ¬ (e = 0 ∧ m = 0)) : 0 < doubleMagnitude e m := by
  unfold doubleMagnitude
  split
  · omega
  · exact Nat.mul_pos (by omega) (Nat.pos_pow_of_pos _ (by norm_num))

/-- Patterns that are smaller in the sign-magnitude reading are numerically
smaller, or are `-0.0` against `+0.0`. -/
theorem doubleLt_of_signMagnitude (a b : Nat) (ha : a < 2 ^ 64) (hb : b < 2 ^ 64)
    (h : signMagnitude a < signMagnitude b) : doubleLt a b = true := by
  unfold signMagnitude at h
  rw [Nat.mod_eq_of_lt ha, Nat.mod_eq_of_lt hb] at h
  simp only [doubleLt, Bool.or_eq_true, Bool.and_eq_true, decide_eq_true_eq, beq_iff_eq,
    doubleScaled]
  by_cases sa : a < 2 ^ 63 <;> by_cases sb : b < 2 ^ 63
  · simp only [if_pos sa, if_pos sb] at h
    have n1 : ¬ a / 2 ^ 63 % 2 = 1 := by omega
    have n2 : ¬ b / 2 ^ 63 % 2 = 1 := by omega
    simp only [if_neg n1, if_neg n2]
    left
    have := doubleMagnitude_mono (a / 2 ^ 52 % 2048) (a % 2 ^ 52) (b / 2 ^ 52 % 2048)
      (b % 2 ^ 52) (Nat.mod_lt _ (by norm_num)) (Nat.mod_lt _ (by norm_num)) (by omega)
    omega
  · simp only [if_pos sa, if_neg sb] at h
    omega
  · have n1 : a / 2 ^ 63 % 2 = 1 := by omega
    have n2 : ¬ b / 2 ^ 63 % 2 = 1 := by omega
    simp only [if_pos n1, if_neg n2]
    by_cases hz : a = 2 ^ 63 ∧ b = 0
    · right
      exact ⟨by omega, hz.2⟩
    · left
      by_cases hza : a = 2 ^ 63
      · have := doubleMagnitude_pos (b / 2 ^ 52 % 2048) (b % 2 ^ 52) (by omega)
        omega
      · have := doubleMagnitude_pos (a / 2 ^ 52 % 2048) (a % 2 ^ 52) (by omega)
        omega
  · simp only [if_neg sa, if_neg sb] at h
    have n1 : a / 2 ^ 63 % 2 = 1 := by omega
    have n2 : b / 2 ^ 63 % 2 = 1 := by omega
    simp only [if_pos n1, if_pos n2]
    left
    have := doubleMagnitude_mono (b / 2 ^ 52 % 2048) (b % 2 ^ 52) (a / 2 ^ 52 % 2048)
      (a % 2 ^ 52) (Nat.mod_lt _ (by norm_num)) (Nat.mod_lt _ (by norm_num)) (by omega)
    omega

theorem signMagnitude_of_doubleLt (a b : Nat) (ha : a < 2 ^ 64) (hb : b < 2 ^ 64)
    (h : doubleLt a b = true) : signMagnitude a < signMagnitude b := by
  simp only [doubleLt, Bool.or_eq_true, Bool.and_eq_true, decide_eq_true_eq, beq_iff_eq] at h
  exact signMagnitude_lt_of_scaled a b ha hb (by simpa using h)

theorem tupleLt_iff (a b : Int × List Nat × Nat) :
    tupleLt a b = true ↔
      (a.1 < b.1 ∨ (a.1 = b.1 ∧ (bytesLt a.2.1 b.2.1 = true
        ∨ (a.2.1 = b.2.1 ∧ doubleLt a.2.2 b.2.2 = true)))) := by
  simp only [tupleLt, Bool.or_eq_true, Bool.and_eq_true, decide_eq_true_eq]

theorem tuple_total (a b : Int × List Nat × Nat) (ha : a.2.2 < 2 ^ 64) (hb : b.2.2 < 2 ^ 64) :
    tupleLt a b = true ∨ a = b ∨ tupleLt b a = true := by
  obtain ⟨i, s, d⟩ := a
  obtain ⟨j, t, e⟩ := b
  simp only at ha hb
  simp only [tupleLt_iff, Prod.mk.injEq]
  rcases lt_trichotomy i j with h | h | h
  · exact Or.inl (Or.inl h)
  · subst h
    by_cases hst : s = t
    · subst hst
      by_cases hde : d = e
      · exact Or.inr (Or.inl ⟨rfl, rfl, hde⟩)
      · have hne : signMagnitude d ≠ signMagnitude e :=
          fun x => hde (signMagnitude_inj d e ha hb x)
        rcases lt_or_gt_of_ne hne with h | h
        · exact Or.inl (Or.inr ⟨rfl, Or.inr ⟨rfl, doubleLt_of_signMagnitude d e ha hb h⟩⟩)
        · exact Or.inr (Or.inr (Or.inr ⟨rfl, Or.inr ⟨rfl, doubleLt_of_signMagnitude e d hb ha h⟩⟩))
    · rcases bytesLt_total s t hst with h | h
      · exact Or.inl (Or.inr ⟨rfl, Or.inl h⟩)
      · exact Or.inr (Or.inr (Or.inr ⟨rfl, Or.inl h⟩))
  · exact Or.inr (Or.inr (Or.inl h))

theorem tuple_lt_memcmp (le : Bool) (a b : Int × List Nat × Nat) (ta tb : List Nat)
    (hai : -2 ^ 31 ≤ a.1 ∧ a.1 < 2 ^ 31) (hbi : -2 ^ 31 ≤ b.1 ∧ b.1 < 2 ^ 31)
    (has : ∀ c ∈ a.2.1, 0 < c) (hbs : ∀ c ∈ b.2.1, 0 < c)
    (had : a.2.2 < 2 ^ 64) (hbd : b.2.2 < 2 ^ 64) (h : tupleLt a b = true) :
    memcmp (tupleBytes le a ++ ta) (tupleBytes le b ++ tb)
      (min (tupleBytes le a).length (tupleBytes le b).length) < 0 := by
  obtain ⟨i, s, d⟩ := a
  obtain ⟨j, t, e⟩ := b
  simp only at hai hbi has hbs had hbd
  rw [tupleLt_iff] at h
  simp only at h
  rw [length_tupleBytes, length_tupleBytes]
  simp only [tupleBytes, List.append_assoc]
  rcases h with h | ⟨rfl, h | ⟨rfl, h⟩⟩
  · have k : memcmp (store le 4 (encode_int le i true)) (store le 4 (encode_int le j true)) 4
        < 0 := by
      rw [store_encode_int le i hai.1 hai.2, store_encode_int le j hbi.1 hbi.2]
      exact memcmp_beBytes_lt 4 _ _ (by simp; omega) (by simp; omega)
    exact memcmp_lt_mono _ _ _ _ 4 _ k (by omega)
  · have e1 : min (4 + (s.length + 2) + 8) (4 + (t.length + 2) + 8)
        = (store le 4 (encode_int le i true)).length
          + min ((s.length + 2) + 8) ((t.length + 2) + 8) := by
      rw [length_store]; omega
    rw [e1, memcmp_append_same]
    have k := string_asc_lt s t has hbs h
    have k2 := memcmp_lt_mono (s ++ [0, 0]) (t ++ [0, 0])
      (store le 8 (encode_double le d true) ++ ta) (store le 8 (encode_double le e true) ++ tb)
      _ (min ((s.length + 2) + 8) ((t.length + 2) + 8)) k
      (by simp only [List.length_append, List.length_cons, List.length_nil]; omega)
    simpa only [List.append_assoc] using k2
  · have e1 : min (4 + (s.length + 2) + 8) (4 + (s.length + 2) + 8)
        = (store le 4 (encode_int le i true) ++ (s ++ [0, 0])).length + 8 := by
      simp only [List.length_append, List.length_cons, List.length_nil, length_store]; omega
    have k : memcmp (store le 8 (encode_double le d true)) (store le 8 (encode_double le e true)) 8
        < 0 := by
      rw [store_encode_double le d had, store_encode_double le e hbd]
      have rx := signMagnitude_range d
      have ry := signMagnitude_range e
      have hlt := signMagnitude_of_doubleLt d e had hbd h
      exact memcmp_beBytes_lt 8 _ _ (by simp; omega) (by simp; omega)
    have k2 := memcmp_lt_mono _ _ ta tb 8 8 k (le_refl 8)
    have k3 := memcmp_append_same (store le 4 (encode_int le i true) ++ (s ++ [0, 0]))
      (store le 8 (encode_double le d true) ++ ta) (store le 8 (encode_double le e true) ++ tb) 8
    rw [e1]
    simp only [List.append_assoc] at k3
    rw [k3]
    exact k2

theorem memcmp_tuple_self (x ta tb : List Nat) :
    memcmp (x ++ ta) (x ++ tb) (min x.length x.length) = 0 := by
  have h := memcmp_append_same x ta tb 0
  rw [Nat.min_self]
  rw [Nat.add_zero] at h
  rw [h]
  cases ta <;> cases tb <;> simp [memcmp]

theorem compTuple_lt (le : Bool) (a b : Int × List Nat × Nat) (ta tb : List Nat)
    (hai : -2 ^ 31 ≤ a.1 ∧ a.1 < 2 ^ 31) (hbi : -2 ^ 31 ≤ b.1 ∧ b.1 < 2 ^ 31)
    (has : ∀ c ∈ a.2.1, 0 < c) (hbs : ∀ c ∈ b.2.1, 0 < c)
    (had : a.2.2 < 2 ^ 64) (hbd : b.2.2 < 2 ^ 64) (h : tupleLt a b = true) :
    compTuple { len := (tupleBytes le a).length, tuple := tupleBytes le a ++ ta }
      { len := (tupleBytes le b).length, tuple := tupleBytes le b ++ tb } = -1 := by
  have k := tuple_lt_memcmp le a b ta tb hai hbi has hbs had hbd h
  have n0 : ¬ memcmp (tupleBytes le a ++ ta) (tupleBytes le b ++ tb)
      (min (tupleBytes le a).length (tupleBytes le b).length) = 0 := by omega
  simp only [compTuple, MIN_eq, if_neg n0, if_pos k]

theorem compTuple_gt (le : Bool) (a b : Int × List Nat × Nat) (ta tb : List Nat)
    (hai : -2 ^ 31 ≤ a.1 ∧ a.1 < 2 ^ 31) (hbi : -2 ^ 31 ≤ b.1 ∧ b.1 < 2 ^ 31)
    (has : ∀ c ∈ a.2.1, 0 < c) (hbs : ∀ c ∈ b.2.1, 0 < c)
    (had : a.2.2 < 2 ^ 64) (hbd : b.2.2 < 2 ^ 64) (h : tupleLt b a = true) :
    compTuple { len := (tupleBytes le a).length, tuple := tupleBytes le a ++ ta }
      { len := (tupleBytes le b).length, tuple := tupleBytes le b ++ tb } = 1 := by
  have k := tuple_lt_memcmp le b a tb ta hbi hai hbs has hbd had h
  rw [memcmp_swap, Nat.min_comm] at k
  have n0 : ¬ memcmp (tupleBytes le a ++ ta) (tupleBytes le b ++ tb)
      (min (tupleBytes le a).length (tupleBytes le b).length) = 0 := by omega
  have n1 : ¬ memcmp (tupleBytes le a ++ ta) (tupleBytes le b ++ tb)
      (min (tupleBytes le a).length (tupleBytes le b).length) < 0 := by omega
  simp only [compTuple, MIN_eq, if_neg n0, if_neg n1]

theorem compTuple_eq (le : Bool) (a : Int × List Nat × Nat) (ta tb : List Nat) :
    compTuple { len := (tupleBytes le a).length, tuple := tupleBytes le a ++ ta }
      { len := (tupleBytes le a).length, tuple := tupleBytes le a ++ tb } = 0 := by
  simp only [compTuple, MIN_eq, memcmp_tuple_self, if_true, lt_self_iff_false, if_false,
    gt_iff_lt]

theorem compTuple_made (le : Bool) (j1 j2 : List Nat) (a b : Int × List Nat × Nat)
    (hai : -2 ^ 31 ≤ a.1 ∧ a.1 < 2 ^ 31) (hbi : -2 ^ 31 ≤ b.1 ∧ b.1 < 2 ^ 31)
    (has : ∀ c ∈ a.2.1, 0 < c) (hbs : ∀ c ∈ b.2.1, 0 < c)
    (had : a.2.2 < 2 ^ 64) (hbd : b.2.2 < 2 ^ 64)
    (hafit : 4 + (a.2.1.length + 2) + 8 ≤ 64) (hbfit : 4 + (b.2.1.length + 2) + 8 ≤ 64) :
    ∃ t1 t2, EncodedTuple.make le j1 a.1 (a.2.1 ++ [0]) a.2.2 = some t1
      ∧ EncodedTuple.make le j2 b.1 (b.2.1 ++ [0]) b.2.2 = some t2
      ∧ (compTuple t1 t2 = -1 ↔ tupleLt a b = true)
      ∧ (compTuple t1 t2 = 0 ↔ a = b)
      ∧ (compTuple t1 t2 = 1 ↔ tupleLt b a = true) := by
  obtain ⟨ta, h1⟩ := make_spec le j1 a has hafit
  obtain ⟨tb, h2⟩ := make_spec le j2 b hbs hbfit
  refine ⟨_, _, h1, h2, ?_⟩
  have klt := compTuple_lt le a b ta tb hai hbi has hbs had hbd
  have kgt := compTuple_gt le a b ta tb hai hbi has hbs had hbd
  have keq : a = b → compTuple
      { len := (tupleBytes le a).length, tuple := tupleBytes le a ++ ta }
      { len := (tupleBytes le b).length, tuple := tupleBytes le b ++ tb } = 0 := by
    intro e
    subst e
    exact compTuple_eq le a ta tb
  rcases tuple_total a b had hbd with h | h | h
  · have r := klt h
    refine ⟨⟨fun _ => h, fun _ => r⟩, ⟨fun x => ?_, fun x => ?_⟩, ⟨fun x => ?_, fun x => ?_⟩⟩
    · rw [r] at x; omega
    · rw [keq x] at r; omega
    · rw [r] at x; omega
    · rw [kgt x] at r; omega
  · have r := keq h
    refine ⟨⟨fun x => ?_, fun x => ?_⟩, ⟨fun _ => h, fun _ => r⟩, ⟨fun x => ?_, fun x => ?_⟩⟩
    · rw [r] at x; omega
    · rw [klt x] at r; omega
    · rw [r] at x; omega
    · rw [kgt x] at r; omega
  · have r := kgt h
    refine ⟨⟨fun x => ?_, fun x => ?_⟩, ⟨fun x => ?_, fun x => ?_⟩, ⟨fun _ => h, fun _ => r⟩⟩
    · rw [r] at x; omega
    · rw [klt x] at r; omega
    · rw [r] at x; omega
    · rw [keq x] at r; omega

theorem main_results (le : Bool) (junk : Nat → List Nat) :
    main le junk = some [1, -1, -1, 1, 1, 0] := by
  have hS : ∀ c ∈ [0x54, 0x68, 0x69, 0x73, 0x20, 0x69, 0x73, 0x20, 0x61, 0x20, 0x73, 0x74, 0x72,
      0x69, 0x6e, 0x67], 0 < c := by decide
  have hS1 : ∀ c ∈ [0x54, 0x68, 0x69, 0x73, 0x20, 0x69, 0x73, 0x20, 0x61, 0x20, 0x73, 0x74, 0x72,
      0x69, 0x6e, 0x67, 0x31], 0 < c := by decide
  have hS5 : ∀ c ∈ [0x54, 0x68, 0x69, 0x73, 0x20, 0x69, 0x73, 0x20, 0x61, 0x20, 0x73, 0x74, 0x72,
      0x69, 0x6e], 0 < c := by decide
  obtain ⟨x1, h1⟩ := make_spec le (junk 1) (10, _, 0x40934A456D5CFAAD) hS (by decide)
  obtain ⟨x2, h2⟩ := make_spec le (junk 2) (-10, _, 0x40C81CD6E631F8A1) hS (by decide)
  obtain ⟨x3, h3⟩ := make_spec le (junk 3) (100, _, 0x40934A456D5CFAAD) hS (by decide)
  obtain ⟨x4, h4⟩ := make_spec le (junk 4) (10, _, 0x40934A456D5CFAAD) hS1 (by decide)
  obtain ⟨x5, h5⟩ := make_spec le (junk 5) (10, _, 0x40934A456D5CFAAD) hS5 (by decide)
  obtain ⟨x6, h6⟩ := make_spec le (junk 6) (10, _, 0xC0934A456D5CFAAD) hS (by decide)
  obtain ⟨x7, h7⟩ := make_spec le (junk 7) (10, _, 0x40934A456D5CFAAD) hS (by decide)
  simp only [List.cons_append, List.nil_append] at h1 h2 h3 h4 h5 h6 h7
  have hd : doubleLt 0xC0934A456D5CFAAD 0x40934A456D5CFAAD = true :=
    doubleLt_of_signMagnitude _ _ (by norm_num) (by norm_num) (by decide)
  simp only [main, str_this_is_a_string, str_this_is_a_string1, str_this_is_a_strin,
    h1, h2, h3, h4, h5, h6, h7, Option.some_bind, Option.map_some']
  have ht : tupleLt (10, [0x54, 0x68, 0x69, 0x73, 0x20, 0x69, 0x73, 0x20, 0x61, 0x20, 0x73, 0x74,
        0x72, 0x69, 0x6e, 0x67], 0xC0934A456D5CFAAD)
      (10, [0x54, 0x68, 0x69, 0x73, 0x20, 0x69, 0x73, 0x20, 0x61, 0x20, 0x73, 0x74,
        0x72, 0x69, 0x6e, 0x67], 0x40934A456D5CFAAD) = true := by
    rw [tupleLt_iff]
    exact Or.inr ⟨rfl, Or.inr ⟨rfl, hd⟩⟩
  rw [compTuple_gt le _ _ x1 x2 ⟨by decide, by decide⟩ ⟨by decide, by decide⟩ hS hS
      (by norm_num) (by norm_num) (by decide),
    compTuple_lt le _ _ x1 x3 ⟨by decide, by decide⟩ ⟨by decide, by decide⟩ hS hS
      (by norm_num) (by norm_num) (by decide),
    compTuple_lt le _ _ x1 x4 ⟨by decide, by decide⟩ ⟨by decide, by decide⟩ hS hS1
      (by norm_num) (by norm_num) (by decide),
    compTuple_gt le _ _ x1 x5 ⟨by decide, by decide⟩ ⟨by decide, by decide⟩ hS hS5
      (by norm_num) (by norm_num) (by decide),
    compTuple_gt le _ _ x1 x6 ⟨by decide, by decide⟩ ⟨by decide, by decide⟩ hS hS
      (by norm_num) (by norm_num) ht,
    compTuple_eq le _ x1 x7]

/-- Claim C17. For every two tuples `a`, `b` of an `int`, a string of nonzero
bytes and the bit pattern of a non-NaN `double`, whose encodings fit the
64-byte array, on either host and whatever the arrays held before, the two
constructors of `EncodedTuple` succeed and `compTuple` on the results returns
`-1` exactly when `a` is below `b` in the lexicographic order of the tuples
(int, then string by bytes with a proper initial segment smaller, then double
by value with `-0.0` below `+0.0`), `0` exactly when `a = b`, and `1` exactly
when `b` is below `a`; and the six comparisons of `main` give
`1, -1, -1, 1, 1, 0`. -/
theorem compTuple_order (le : Bool) (j1 j2 : List Nat) (a b : Int × List Nat × Nat)
    (hai : -2 ^ 31 ≤ a.1 ∧ a.1 < 2 ^ 31) (hbi : -2 ^ 31 ≤ b.1 ∧ b.1 < 2 ^ 31)
    (has : ∀ c ∈ a.2.1, 0 < c ∧ c < 256) (hbs : ∀ c ∈ b.2.1, 0 < c ∧ c < 256)
    (had : a.2.2 < 2 ^ 64 ∧ isNaN a.2.2 = false) (hbd : b.2.2 < 2 ^ 64 ∧ isNaN b.2.2 = false)
    (hafit : 4 + (a.2.1.length + 2) + 8 ≤ 64) (hbfit : 4 + (b.2.1.length + 2) + 8 ≤ 64) :
    (∃ t1 t2, EncodedTuple.make le j1 a.1 (a.2.1 ++ [0]) a.2.2 = some t1
      ∧ EncodedTuple.make le j2 b.1 (b.2.1 ++ [0]) b.2.2 = some t2
      ∧ (compTuple t1 t2 = -1 ↔ tupleLt a b = true)
      ∧ (compTuple t1 t2 = 0 ↔ a = b)
      ∧ (compTuple t1 t2 = 1 ↔ tupleLt b a = true))
    ∧ ∀ junk : Nat → List Nat, main le junk = some [1, -1, -1, 1, 1, 0] :=
  ⟨compTuple_made le j1 j2 a b hai hbi (fun c hc => (has c hc).1) (fun c hc => (hbs c hc).1)
      had.1 hbd.1 hafit hbfit,
    main_results le⟩

theorem compTuple_order_witness :
    (((-2 ^ 31 : Int) ≤ 1 ∧ (1 : Int) < 2 ^ 31) ∧ ((-2 ^ 31 : Int) ≤ 1 ∧ (1 : Int) < 2 ^ 31)
      ∧ (∀ c ∈ [0x61], 0 < c ∧ c < 256) ∧ (∀ c ∈ [0x61, 0x62], 0 < c ∧ c < 256)
      ∧ ((1 : Nat) < 2 ^ 64 ∧ isNaN 1 = false) ∧ ((0 : Nat) < 2 ^ 64 ∧ isNaN 0 = false)
      ∧ 4 + ([0x61].length + 2) + 8 ≤ 64 ∧ 4 + ([0x61, 0x62].length + 2) + 8 ≤ 64)
    ∧ (∃ t1 t2, EncodedTuple.make true [] 1 ([0x61] ++ [0]) 1 = some t1
      ∧ EncodedTuple.make true [] 1 ([0x61, 0x62] ++ [0]) 0 = some t2
      ∧ (compTuple t1 t2 = -1 ↔ tupleLt (1, [0x61], 1) (1, [0x61, 0x62], 0) = true)
      ∧ (compTuple t1 t2 = 0 ↔ ((1 : Int), [0x61], 1) = (1, [0x61, 0x62], 0))
      ∧ (compTuple t1 t2 = 1 ↔ tupleLt (1, [0x61, 0x62], 0) (1, [0x61], 1) = true))
    ∧ ∀ junk : Nat → List Nat, main true junk = some [1, -1, -1, 1, 1, 0] :=
  ⟨⟨⟨by decide, by decide⟩, ⟨by decide, by decide⟩, by decide, by decide,
      ⟨by decide, by decide⟩, ⟨by decide, by decide⟩, by decide, by decide⟩,
    compTuple_order true [] [] (1, [0x61], 1) (1, [0x61, 0x62], 0)
      ⟨by decide, by decide⟩ ⟨by decide, by decide⟩ (by decide) (by decide)
      ⟨by decide, by decide⟩ ⟨by decide, by decide⟩ (by decide) (by decide)⟩

/-! ## Wire format of the signed integers -/

/-- Claim C25. For every `int` value `v`, on either host, the 4 bytes stored
for `encode(v, asc)` are the big-endian serialisation of `v` reinterpreted as
unsigned XOR `0x80000000`, and those stored for `encode(v, desc)` of `v`
reinterpreted as unsigned XOR `0x7FFFFFFF`; under asc the most negative value
is stored as `00 00 00 00`, zero as `80 00 00 00`, the most positive value as
`FF FF FF FF`, and `-10`, `10`, `100` as `7F FF FF F6`, `80 00 00 0A`,
`80 00 00 64`. -/
theorem encode_int_wire_format (le : Bool) (v : Int) :
    store le 4 (encode_int le v true) = beBytes 4 (toU32 v ^^^ 0x80000000)
    ∧ store le 4 (encode_int le v false) = beBytes 4 (toU32 v ^^^ 0x7FFFFFFF)
    ∧ store le 4 (encode_int le (-2 ^ 31) true) = [0x00, 0x00, 0x00, 0x00]
    ∧ store le 4 (encode_int le 0 true) = [0x80, 0x00, 0x00, 0x00]
    ∧ store le 4 (encode_int le (2 ^ 31 - 1) true) = [0xFF, 0xFF, 0xFF, 0xFF]
    ∧ store le 4 (encode_int le (-10) true) = [0x7F, 0xFF, 0xFF, 0xF6]
    ∧ store le 4 (encode_int le 10 true) = [0x80, 0x00, 0x00, 0x0A]
    ∧ store le 4 (encode_int le 100 true) = [0x80, 0x00, 0x00, 0x64] := by
  have key : ∀ x : Int,
      store le 4 (encode_int le x true) = beBytes 4 (toU32 x ^^^ 0x80000000) := by
    intro x
    simp only [encode_int, if_true, store_enc32]
  refine ⟨key v, ?_, ?_, ?_, ?_, ?_, ?_, ?_⟩
  · simp only [encode_int, Bool.false_eq_true, if_false, store_enc32]
  · rw [key]; decide
  · rw [key]; decide
  · rw [key]; decide
  · rw [key]; decide
  · rw [key]; decide
  · rw [key]; decide

/-! ## Descending as the complement of ascending -/

theorem beBytes_xor_allOnes (n w : Nat) (h : w < 256 ^ n) :
    beBytes n (256 ^ n - 1 - w) = complBytes (beBytes n w) := by
  rw [beBytes_compl n w h]
  exact map_compl_eq_xor _ (beBytes_lt n w)

theorem encode_int_compl (le : Bool) (i : Int) :
    store le 4 (encode_int le i false) = complBytes (store le 4 (encode_int le i true)) := by
  have hu := toU32_lt i
  have e1 : (0x80000000 : Nat) = 2 ^ 31 := by norm_num
  have e2 : (0x7FFFFFFF : Nat) = 2 ^ 31 - 1 := by norm_num
  have hx := xor_lowBits 31 (toU32 i) (by simpa using hu)
  have ht := xor_topBit 31 (toU32 i) (by simpa using hu)
  have hlt : toU32 i ^^^ 2 ^ 31 < 256 ^ 4 := by
    rw [ht]; split <;> omega
  simp only [encode_int, if_true, Bool.false_eq_true, if_false, store_enc32, e1, e2]
  rw [hx, ← beBytes_xor_allOnes 4 _ hlt]
  norm_num

theorem encode_long_compl (le : Bool) (l : Int) :
    store le 8 (encode_long le l false) = complBytes (store le 8 (encode_long le l true)) := by
  have hu := toU64_lt l
  have e1 : (0x8000000000000000 : Nat) = 2 ^ 63 := by norm_num
  have e2 : (0x7FFFFFFFFFFFFFFF : Nat) = 2 ^ 63 - 1 := by norm_num
  have hx := xor_lowBits 63 (toU64 l) (by simpa using hu)
  have ht := xor_topBit 63 (toU64 l) (by simpa using hu)
  have hlt : toU64 l ^^^ 2 ^ 63 < 256 ^ 8 := by
    rw [ht]; split <;> omega
  simp only [encode_long, if_true, Bool.false_eq_true, if_false, store_enc64, e1, e2]
  rw [hx, ← beBytes_xor_allOnes 8 _ hlt]
  norm_num

theorem encode_timestamp_compl (le : Bool) (ts : Nat) :
    store le 8 (encode_timestamp le ts false)
      = complBytes (store le 8 (encode_timestamp le ts true)) := by
  rw [store_encode_timestamp_desc, store_encode_timestamp_asc]
  rfl

theorem encode_double_compl (le : Bool) (dd : Nat) :
    store le 8 (encode_double le dd false)
      = complBytes (store le 8 (encode_double le dd true)) := by
  have hu : dd % 2 ^ 64 < 2 ^ 64 := Nat.mod_lt _ (by norm_num)
  have e1 : (0x8000000000000000 : Nat) = 2 ^ 63 := by norm_num
  have e2 : (0x7FFFFFFFFFFFFFFF : Nat) = 2 ^ 63 - 1 := by norm_num
  have e3 : (0xFFFFFFFFFFFFFFFF : Nat) = 2 ^ 64 - 1 := by norm_num
  simp only [encode_double, if_true, Bool.false_eq_true, if_false, store_enc64, e1, e2, e3]
  by_cases hs : dd % 2 ^ 64 &&& 2 ^ 63 ≠ 0
  · simp only [if_pos hs]
    rw [xor_allOnes 64 _ hu]
    have h := beBytes_xor_allOnes 8 (2 ^ 64 - 1 - dd % 2 ^ 64) (by norm_num; omega)
    have e : 256 ^ 8 - 1 - (2 ^ 64 - 1 - dd % 2 ^ 64) = dd % 2 ^ 64 := by norm_num; omega
    rw [e] at h
    exact h
  · simp only [if_neg hs]
    have hx := xor_lowBits 63 (dd % 2 ^ 64) (by simpa using hu)
    have ht := xor_topBit 63 (dd % 2 ^ 64) (by simpa using hu)
    have hlt : dd % 2 ^ 64 ^^^ 2 ^ 63 < 256 ^ 8 := by
      rw [ht]; split <;> omega
    rw [hx, ← beBytes_xor_allOnes 8 _ hlt]
    norm_num

theorem encode_string_compl (s : List Nat) (hs : ∀ c ∈ s, c < 256) :
    (encode_string s false).1 = complBytes (encode_string s true).1
    ∧ (encode_string s false).2 = (encode_string s true).2 := by
  refine ⟨?_, rfl⟩
  simp only [encode_string, Bool.false_eq_true, if_false, if_true, complBytes, List.map_append,
    List.map_cons, List.map_nil]
  congr 1
  apply List.map_congr_left
  intro c hc
  have := hs c hc
  exact Nat.mod_eq_of_lt (by
    have h2 : c ^^^ 0xFF < 2 ^ 8 := Nat.xor_lt_two_pow (by omega) (by norm_num)
    omega)

theorem encode_binary_loop_compl (p : List Nat) (hp : ∀ c ∈ p, c < 256) :
    encode_binary_desc_loop p = complBytes (encode_binary_asc_loop p) := by
  induction p with
  | nil => rfl
  | cons b p ih =>
    have hb := hp b (by simp)
    have ih2 := ih (fun c hc => hp c (by simp [hc]))
    have hm : (b ^^^ 0xFF) % 256 = b ^^^ 0xFF := Nat.mod_eq_of_lt (by
      have h2 : b ^^^ 0xFF < 2 ^ 8 := Nat.xor_lt_two_pow (by omega) (by norm_num)
      omega)
    by_cases h0 : b = 0
    · simp only [encode_binary_desc_loop, encode_binary_asc_loop, if_pos h0, ih2, complBytes,
        List.map_cons, hm]
      norm_num
    · simp only [encode_binary_desc_loop, encode_binary_asc_loop, if_neg h0, ih2, complBytes,
        List.map_cons, hm]

theorem encode_binary_seq_compl (p : List Nat) (hp : ∀ c ∈ p, c < 256) :
    (encode_binary_seq p false).1 = complBytes (encode_binary_seq p true).1
    ∧ (encode_binary_seq p false).2 = (encode_binary_seq p true).2 := by
  have h := encode_binary_loop_compl p hp
  simp only [encode_binary_seq, Bool.false_eq_true, if_false, if_true, h]
  constructor
  · simp [complBytes]
  · simp [complBytes]

/-- Claim C30. For every `int`, `long`, timestamp, `double` bit pattern, string
payload and binary payload (of bytes), on either host, the bytes of the desc
encoding are the bytes of the asc encoding each XOR 0xFF, terminators and
escapes included, and the encoders return the same length in both directions;
the desc indicator bytes are the asc indicator bytes XOR 0xFF. -/
theorem desc_is_complement (le : Bool) (i l : Int) (ts dd : Nat) (s p : List Nat)
    (hs : ∀ c ∈ s, c < 256) (hp : ∀ c ∈ p, c < 256) :
    store le 4 (encode_int le i false) = complBytes (store le 4 (encode_int le i true))
    ∧ store le 8 (encode_long le l false) = complBytes (store le 8 (encode_long le l true))
    ∧ store le 8 (encode_timestamp le ts false)
        = complBytes (store le 8 (encode_timestamp le ts true))
    ∧ store le 8 (encode_double le dd false)
        = complBytes (store le 8 (encode_double le dd true))
    ∧ (encode_string s false).1 = complBytes (encode_string s true).1
    ∧ (encode_string s false).2 = (encode_string s true).2
    ∧ (encode_binary p false).1 = complBytes (encode_binary p true).1
    ∧ (encode_binary p false).2 = (encode_binary p true).2
    ∧ [NOT_NULL_DESC] = complBytes [NOT_NULL_ASC]
    ∧ [NULL_DESC] = complBytes [NULL_ASC] :=
  ⟨encode_int_compl le i, encode_long_compl le l, encode_timestamp_compl le ts,
    encode_double_compl le dd, (encode_string_compl s hs).1, (encode_string_compl s hs).2,
    (encode_binary_compl p hp).1, (encode_binary_compl p hp).2, by decide, by decide⟩

theorem desc_is_complement_witness :
    ((∀ c ∈ [0x61, 0x00, 0xFF], c < 256) ∧ (∀ c ∈ [0x00, 0x11, 0xFF, 0x00], c < 256))
    ∧ store true 4 (encode_int true (-10) false)
        = complBytes (store true 4 (encode_int true (-10) true))
    ∧ store true 8 (encode_long true (-200000) false)
        = complBytes (store true 8 (encode_long true (-200000) true))
    ∧ store true 8 (encode_timestamp true 1234567890123 false)
        = complBytes (store true 8 (encode_timestamp true 1234567890123 true))
    ∧ store true 8 (encode_double true 0xC0934A456D5CFAAD false)
        = complBytes (store true 8 (encode_double true 0xC0934A456D5CFAAD true))
    ∧ (encode_string [0x61, 0x00, 0xFF] false).1
        = complBytes (encode_string [0x61, 0x00, 0xFF] true).1
    ∧ (encode_string [0x61, 0x00, 0xFF] false).2 = (encode_string [0x61, 0x00, 0xFF] true).2
    ∧ (encode_binary [0x00, 0x11, 0xFF, 0x00] false).1
        = complBytes (encode_binary [0x00, 0x11, 0xFF, 0x00] true).1
    ∧ (encode_binary [0x00, 0x11, 0xFF, 0x00] false).2
        = (encode_binary [0x00, 0x11, 0xFF, 0x00] true).2
    ∧ [NOT_NULL_DESC] = complBytes [NOT_NULL_ASC]
    ∧ [NULL_DESC] = complBytes [NULL_ASC] :=
  ⟨⟨by decide, by decide⟩,
    desc_is_complement true (-10) (-200000) 1234567890123 0xC0934A456D5CFAAD
      [0x61, 0x00, 0xFF] [0x00, 0x11, 0xFF, 0x00] (by decide) (by decide)⟩

/-! ## Indicator bytes -/

/-- Claim C24. A stored record `r` whose field at byte offset `|pre|` begins
with a stored indicator (0x07, 0x0F, 0xF0 or 0xF8), and a scan key `k` with
the same bytes `pre` in front and at that offset the byte of
`putNullConditionIndicator`, both sealed beyond the offset: a key written
with `start = true` compares below the record (`comp(k, r)` true, `comp(r, k)`
false), a key written with `start = false` above it (`comp(r, k)` true,
`comp(k, r)` false), whatever the direction of the field. -/
theorem scan_key_brackets (start : Bool) (r k : EncodedRecord) (pre tr tk : List Nat) (b : Nat)
    (hb : b = NULL_ASC ∨ b = NOT_NULL_ASC ∨ b = NOT_NULL_DESC ∨ b = NULL_DESC)
    (hr : r.getData = pre ++ b :: tr)
    (hk : k.getData = pre ++ (if start then NULL_COND_START else NULL_COND_END) :: tk)
    (her : (pre.length : Int) < r.getEndPos) (hek : (pre.length : Int) < k.getEndPos)
    (hir : r.getEndPos < 2 ^ 31) (hik : k.getEndPos < 2 ^ 31) :
    (start = true → comp k r = true ∧ comp r k = false)
    ∧ (start = false → comp r k = true ∧ comp k r = false) := by
  have hlo : 0 < b := by
    rcases hb with h | h | h | h <;> rw [h] <;> decide
  have hhi : b < 0xFF := by
    rcases hb with h | h | h | h <;> rw [h] <;> decide
  constructor
  · intro hs
    subst hs
    simp only [if_true, NULL_COND_START] at hk
    exact comp_differ_at k r pre tk tr 0 b hlo hk hr hek her hik hir
  · intro hs
    subst hs
    simp only [Bool.false_eq_true, if_false, NULL_COND_END] at hk
    exact comp_differ_at r k pre tr tk b 0xFF hhi hr hk her hek hir hik

theorem scan_key_brackets_witness :
    (((0xF8 : Nat) = NULL_ASC ∨ (0xF8 : Nat) = NOT_NULL_ASC ∨ (0xF8 : Nat) = NOT_NULL_DESC
        ∨ (0xF8 : Nat) = NULL_DESC)
      ∧ EncodedRecord.getData
          { pData := some [0x0F, 0x80, 0x00, 0x00, 0x01, 0xF8, 0x00], curPos := 0, endPos := 6,
            curLen := 7, pWorkingBuf := none, lenWorkingBuf := 0 }
          = [0x0F, 0x80, 0x00, 0x00, 0x01] ++ 0xF8 :: [0x00]
      ∧ EncodedRecord.getData
          { pData := some [0x0F, 0x80, 0x00, 0x00, 0x01, 0xFF], curPos := 0, endPos := 6,
            curLen := 6, pWorkingBuf := none, lenWorkingBuf := 0 }
          = [0x0F, 0x80, 0x00, 0x00, 0x01]
              ++ (if false then NULL_COND_START else NULL_COND_END) :: [])
    ∧ (false = true →
        comp { pData := some [0x0F, 0x80, 0x00, 0x00, 0x01, 0xFF], curPos := 0, endPos := 6,
               curLen := 6, pWorkingBuf := none, lenWorkingBuf := 0 }
          { pData := some [0x0F, 0x80, 0x00, 0x00, 0x01, 0xF8, 0x00], curPos := 0, endPos := 6,
            curLen := 7, pWorkingBuf := none, lenWorkingBuf := 0 } = true
        ∧ comp { pData := some [0x0F, 0x80, 0x00, 0x00, 0x01, 0xF8, 0x00], curPos := 0,
                 endPos := 6, curLen := 7, pWorkingBuf := none, lenWorkingBuf := 0 }
            { pData := some [0x0F, 0x80, 0x00, 0x00, 0x01, 0xFF], curPos := 0, endPos := 6,
              curLen := 6, pWorkingBuf := none, lenWorkingBuf := 0 } = false)
    ∧ (false = false →
        comp { pData := some [0x0F, 0x80, 0x00, 0x00, 0x01, 0xF8, 0x00], curPos := 0,
               endPos := 6, curLen := 7, pWorkingBuf := none, lenWorkingBuf := 0 }
          { pData := some [0x0F, 0x80, 0x00, 0x00, 0x01, 0xFF], curPos := 0, endPos := 6,
            curLen := 6, pWorkingBuf := none, lenWorkingBuf := 0 } = true
        ∧ comp { pData := some [0x0F, 0x80, 0x00, 0x00, 0x01, 0xFF], curPos := 0, endPos := 6,
                 curLen := 6, pWorkingBuf := none, lenWorkingBuf := 0 }
            { pData := some [0x0F, 0x80, 0x00, 0x00, 0x01, 0xF8, 0x00], curPos := 0,
              endPos := 6, curLen := 7, pWorkingBuf := none, lenWorkingBuf := 0 } = false) :=
  ⟨⟨by decide, rfl, rfl⟩,
    scan_key_brackets false
      { pData := some [0x0F, 0x80, 0x00, 0x00, 0x01, 0xF8, 0x00], curPos := 0, endPos := 6,
        curLen := 7, pWorkingBuf := none, lenWorkingBuf := 0 }
      { pData := some [0x0F, 0x80, 0x00, 0x00, 0x01, 0xFF], curPos := 0, endPos := 6,
        curLen := 6, pWorkingBuf := none, lenWorkingBuf := 0 }
      [0x0F, 0x80, 0x00, 0x00, 0x01] [0x00] [] 0xF8 (by decide) rfl rfl
      (by decide) (by decide) (by decide) (by decide)⟩

/-! ## The frame of `put` -/

theorem noZeroPair_split (s : List Nat) (h : noZeroPair s = false) :
    ∃ pre rest, s = pre ++ 0 :: rest ∧ noZeroPair pre = true
      ∧ (rest = [] ∨ ∃ t, rest = 0 :: t) := by
  induction s with
  | nil => simp [noZeroPair] at h
  | cons c s ih =>
    cases s with
    | nil =>
      simp only [noZeroPair, bne_eq_false_iff_eq] at h
      exact ⟨[], [], by simp [h], rfl, Or.inl rfl⟩
    | cons e s =>
      by_cases hce : c = 0 ∧ e = 0
      · exact ⟨[], e :: s, by simp [hce.1], rfl, Or.inr ⟨s, by rw [hce.2]⟩⟩
      · have hn : noZeroPair (e :: s) = false := by
          simp only [noZeroPair, Bool.and_eq_false_iff, Bool.not_eq_false', Bool.and_eq_true,
            beq_iff_eq] at h
          rcases h with h | h
          · exact absurd h hce
          · exact h
        obtain ⟨pre, rest, e1, e2, e3⟩ := ih hn
        refine ⟨c :: pre, rest, by rw [e1]; rfl, ?_, e3⟩
        cases pre with
        | nil =>
          simp only [List.nil_append, List.cons.injEq] at e1
          have hc0 : c ≠ 0 := fun x => hce ⟨x, e1.1⟩
          simp [noZeroPair, hc0]
        | cons f pre =>
          simp only [List.cons_append, List.cons.injEq] at e1
          rw [← e1.1]
          rw [← e1.1] at e2
          simp only [noZeroPair, Bool.and_eq_true, Bool.not_eq_true', Bool.and_eq_false_iff,
            beq_eq_false_iff_ne, ne_eq]
          exact ⟨by by_cases hc : c = 0
                    · exact Or.inr (fun x => hce ⟨hc, x⟩)
                    · exact Or.inl hc, e2⟩

/-- Claim C27. An asc string payload `s` (of a `uint32_t` length) in which
some 0x00 byte is the last byte or is immediately followed by another 0x00
byte splits at the first such byte, `s = pre ++ 0x00 :: rest`; on the asc
encoding of `s`, `decode_string` and `get_string_len` return without an
error, `decode_string` writes `pre` and both report `|pre|`, which is less
than `|s|`. -/
theorem embedded_terminator_truncates (s : List Nat) (hlen : s.length < 2 ^ 32)
    (h : noZeroPair s = false) :
    ∃ pre rest, s = pre ++ 0 :: rest ∧ noZeroPair pre = true
      ∧ (rest = [] ∨ ∃ t, rest = 0 :: t)
      ∧ decode_string (encode_string s true).1 true = some (pre, pre.length)
      ∧ get_string_len (encode_string s true).1 true = some pre.length
      ∧ pre.length < s.length := by
  obtain ⟨pre, rest, e1, e2, e3⟩ := noZeroPair_split s h
  have hl : pre.length < s.length := by
    rw [e1, List.length_append, List.length_cons]; omega
  have hm : pre.length % 2 ^ 32 = pre.length := Nat.mod_eq_of_lt (by omega)
  have hE : ∃ t, (encode_string s true).1 = pre ++ 0 :: 0 :: t := by
    rcases e3 with e3 | ⟨t, e3⟩
    · exact ⟨[0], by simp [encode_string, e1, e3]⟩
    · exact ⟨t ++ [0, 0], by simp [encode_string, e1, e3]⟩
  obtain ⟨t, hE⟩ := hE
  refine ⟨pre, rest, e1, e2, e3, ?_, ?_, hl⟩
  · simp only [decode_string, if_true, hE, decode_string_asc_loop_spec pre t e2,
      Option.map_some', hm]
  · simp only [get_string_len, if_true, hE, get_string_len_asc_loop_spec pre t e2,
      Option.map_some', hm]

theorem embedded_terminator_truncates_witness :
    (([0x61, 0x00, 0x62, 0x00, 0x00, 0x63] : List Nat).length < 2 ^ 32
      ∧ noZeroPair [0x61, 0x00, 0x62, 0x00, 0x00, 0x63] = false)
    ∧ ∃ pre rest, [0x61, 0x00, 0x62, 0x00, 0x00, 0x63] = pre ++ 0 :: rest
      ∧ noZeroPair pre = true
      ∧ (rest = [] ∨ ∃ t, rest = 0 :: t)
      ∧ decode_string (encode_string [0x61, 0x00, 0x62, 0x00, 0x00, 0x63] true).1 true
          = some (pre, pre.length)
      ∧ get_string_len (encode_string [0x61, 0x00, 0x62, 0x00, 0x00, 0x63] true).1 true
          = some pre.length
      ∧ pre.length < ([0x61, 0x00, 0x62, 0x00, 0x00, 0x63] : List Nat).length :=
  ⟨⟨by decide, by decide⟩,
    embedded_terminator_truncates [0x61, 0x00, 0x62, 0x00, 0x00, 0x63] (by decide) (by decide)⟩

/-! ## Corrupt binary encodings -/

theorem except_map_abort {α β : Type} (f : α → β) (x : Except Fault α) :
    x.map f = .error .abort ↔ x = .error .abort := by
  cases x with
  | error e => simp [Except.map]
  | ok a => simp [Except.map]

theorem get_bytes_len_asc_abort (p : List Nat) :
    get_bytes_len_asc_loop p = .error .abort ↔ CorruptAsc p := by
  constructor
  · intro h
    generalize hn : p.length = n
    induction n using Nat.strong_induction_on generalizing p with
    | _ n ih =>
      cases p with
      | nil => simp [get_bytes_len_asc_loop] at h
      | cons c pb =>
        rw [get_bytes_len_asc_loop_cons] at h
        by_cases hc : c ≠ 0
        · rw [if_pos hc, except_map_abort] at h
          obtain ⟨toks, x, rest, h1, h2, h3, h4⟩ := ih pb.length (by rw [← hn]; simp) pb h rfl
          refine ⟨[c] :: toks, x, rest, ?_, h2, h3, by rw [h4]; rfl⟩
          intro t ht
          rcases List.mem_cons.mp ht with rfl | ht
          · simpa [isAscToken] using hc
          · exact h1 t ht
        · rw [if_neg hc] at h
          have hc0 : c = 0 := by simpa using hc
          cases pb with
          | nil => simp at h
          | cons d pb2 =>
            simp only at h
            by_cases hd : d = 0
            · simp [hd] at h
            · rw [if_neg hd] at h
              by_cases hf : d = 0xFF
              · rw [if_pos hf, except_map_abort] at h
                obtain ⟨toks, x, rest, h1, h2, h3, h4⟩ :=
                  ih pb2.length (by rw [← hn]; simp; omega) pb2 h rfl
                refine ⟨[c, d] :: toks, x, rest, ?_, h2, h3, by rw [h4]; rfl⟩
                intro t ht
                rcases List.mem_cons.mp ht with rfl | ht
                · simp [isAscToken, hc0, hf]
                · exact h1 t ht
              · exact ⟨[], d, pb2, by simp, hd, hf, by rw [hc0]; rfl⟩
  · rintro ⟨toks, x, rest, h1, h2, h3, h4⟩
    subst h4
    induction toks with
    | nil =>
      simp only [List.flatten_nil, List.nil_append]
      rw [get_bytes_len_asc_loop_cons]
      simp [h2, h3]
    | cons t toks ih =>
      have ht := h1 t (by simp)
      have ih2 := ih (fun u hu => h1 u (by simp [hu]))
      match t, ht with
      | [c], ht =>
        have hc : c ≠ 0 := by simpa [isAscToken] using ht
        simp only [List.flatten_cons, List.cons_append, List.nil_append]
        rw [get_bytes_len_asc_loop_cons, if_pos hc, ih2]
        rfl
      | [c, d], ht =>
        simp only [isAscToken, Bool.and_eq_true, beq_iff_eq] at ht
        obtain ⟨rfl, rfl⟩ := ht
        simp only [List.flatten_cons, List.cons_append, List.nil_append]
        rw [get_bytes_len_asc_loop_cons]
        simp only [ne_eq, not_true_eq_false, if_false]
        rw [if_neg (by decide), if_pos trivial, ih2]
        rfl

theorem decode_bytes_asc_abort (p : List Nat) :
    decode_bytes_asc_loop p = .error .abort ↔ CorruptAsc p := by
  constructor
  · intro h
    generalize hn : p.length = n
    induction n using Nat.strong_induction_on generalizing p with
    | _ n ih =>
      cases p with
      | nil => simp [decode_bytes_asc_loop] at h
      | cons c pb =>
        rw [decode_bytes_asc_loop_cons] at h
        by_cases hc : c ≠ 0
        · rw [if_pos hc, except_map_abort] at h
          obtain ⟨toks, x, rest, h1, h2, h3, h4⟩ := ih pb.length (by rw [← hn]; simp) pb h rfl
          refine ⟨[c] :: toks, x, rest, ?_, h2, h3, by rw [h4]; rfl⟩
          intro t ht
          rcases List.mem_cons.mp ht with rfl | ht
          · simpa [isAscToken] using hc
          · exact h1 t ht
        · rw [if_neg hc] at h
          have hc0 : c = 0 := by simpa using hc
          cases pb with
          | nil => simp at h
          | cons d pb2 =>
            simp only at h
            by_cases hd : d = 0
            · simp [hd] at h
            · rw [if_neg hd] at h
              by_cases hf : d = 0xFF
              · rw [if_pos hf, except_map_abort] at h
                obtain ⟨toks, x, rest, h1, h2, h3, h4⟩ :=
                  ih pb2.length (by rw [← hn]; simp; omega) pb2 h rfl
                refine ⟨[c, d] :: toks, x, rest, ?_, h2, h3, by rw [h4]; rfl⟩
                intro t ht
                rcases List.mem_cons.mp ht with rfl | ht
                · simp [isAscToken, hc0, hf]
                · exact h1 t ht
              · exact ⟨[], d, pb2, by simp, hd, hf, by rw [hc0]; rfl⟩
  · rintro ⟨toks, x, rest, h1, h2, h3, h4⟩
    subst h4
    induction toks with
    | nil =>
      simp only [List.flatten_nil, List.nil_append]
      rw [decode_bytes_asc_loop_cons]
      simp [h2, h3]
    | cons t toks ih =>
      have ht := h1 t (by simp)
      have ih2 := ih (fun u hu => h1 u (by simp [hu]))
      match t, ht with
      | [c], ht =>
        have hc : c ≠ 0 := by simpa [isAscToken] using ht
        simp only [List.flatten_cons, List.cons_append, List.nil_append]
        rw [decode_bytes_asc_loop_cons, if_pos hc, ih2]
        rfl
      | [c, d], ht =>
        simp only [isAscToken, Bool.and_eq_true, beq_iff_eq] at ht
        obtain ⟨rfl, rfl⟩ := ht
        simp only [List.flatten_cons, List.cons_append, List.nil_append]
        rw [decode_bytes_asc_loop_cons]
        simp only [ne_eq, not_true_eq_false, if_false]
        rw [if_neg (by decide), if_pos trivial, ih2]
        rfl

theorem get_bytes_len_desc_abort (p : List Nat) :
    get_bytes_len_desc_loop p = .error .abort ↔ CorruptDesc p := by
  constructor
  · intro h
    generalize hn : p.length = n
    induction n using Nat.strong_induction_on generalizing p with
    | _ n ih =>
      cases p with
      | nil => simp [get_bytes_len_desc_loop] at h
      | cons c pb =>
        rw [get_bytes_len_desc_loop_cons] at h
        by_cases hc : c ≠ 0xFF
        · rw [if_pos hc, except_map_abort] at h
          obtain ⟨toks, x, rest, h1, h2, h3, h4⟩ := ih pb.length (by rw [← hn]; simp) pb h rfl
          refine ⟨[c] :: toks, x, rest, ?_, h2, h3, by rw [h4]; rfl⟩
          intro t ht
          rcases List.mem_cons.mp ht with rfl | ht
          · simpa [isDescToken] using hc
          · exact h1 t ht
        · rw [if_neg hc] at h
          have hc0 : c = 0xFF := by simpa using hc
          cases pb with
          | nil => simp at h
          | cons d pb2 =>
            simp only at h
            by_cases hd : d = 0xFF
            · simp [hd] at h
            · rw [if_neg hd] at h
              by_cases hf : d = 0
              · rw [if_pos hf, except_map_abort] at h
                obtain ⟨toks, x, rest, h1, h2, h3, h4⟩ :=
                  ih pb2.length (by rw [← hn]; simp; omega) pb2 h rfl
                refine ⟨[c, d] :: toks, x, rest, ?_, h2, h3, by rw [h4]; rfl⟩
                intro t ht
                rcases List.mem_cons.mp ht with rfl | ht
                · simp [isDescToken, hc0, hf]
                · exact h1 t ht
              · exact ⟨[], d, pb2, by simp, hd, hf, by rw [hc0]; rfl⟩
  · rintro ⟨toks, x, rest, h1, h2, h3, h4⟩
    subst h4
    induction toks with
    | nil =>
      simp only [List.flatten_nil, List.nil_append]
      rw [get_bytes_len_desc_loop_cons]
      simp [h2, h3]
    | cons t toks ih =>
      have ht := h1 t (by simp)
      have ih2 := ih (fun u hu => h1 u (by simp [hu]))
      match t, ht with
      | [c], ht =>
        have hc : c ≠ 0xFF := by simpa [isDescToken] using ht
        simp only [List.flatten_cons, List.cons_append, List.nil_append]
        rw [get_bytes_len_desc_loop_cons, if_pos hc, ih2]
        rfl
      | [c, d], ht =>
        simp only [isDescToken, Bool.and_eq_true, beq_iff_eq] at ht
        obtain ⟨rfl, rfl⟩ := ht
        simp only [List.flatten_cons, List.cons_append, List.nil_append]
        rw [get_bytes_len_desc_loop_cons]
        simp only [ne_eq, not_true_eq_false, if_false]
        rw [if_neg (by decide), if_pos trivial, ih2]
        rfl

theorem decode_bytes_desc_abort (p : List Nat) :
    decode_bytes_desc_loop p = .error .abort ↔ CorruptDesc p := by
  constructor
  · intro h
    generalize hn : p.length = n
    induction n using Nat.strong_induction_on generalizing p with
    | _ n ih =>
      cases p with
      | nil => simp [decode_bytes_desc_loop] at h
      | cons c pb =>
        rw [decode_bytes_desc_loop_cons] at h
        by_cases hc : c ≠ 0xFF
        · rw [if_pos hc, except_map_abort] at h
          obtain ⟨toks, x, rest, h1, h2, h3, h4⟩ := ih pb.length (by rw [← hn]; simp) pb h rfl
          refine ⟨[c] :: toks, x, rest, ?_, h2, h3, by rw [h4]; rfl⟩
          intro t ht
          rcases List.mem_cons.mp ht with rfl | ht
          · simpa [isDescToken] using hc
          · exact h1 t ht
        · rw [if_neg hc] at h
          have hc0 : c = 0xFF := by simpa using hc
          cases pb with
          | nil => simp at h
          | cons d pb2 =>
            simp only at h
            by_cases hd : d = 0xFF
            · simp [hd] at h
            · rw [if_neg hd] at h
              by_cases hf : d = 0
              · rw [if_pos hf, except_map_abort] at h
                obtain ⟨toks, x, rest, h1, h2, h3, h4⟩ :=
                  ih pb2.length (by rw [← hn]; simp; omega) pb2 h rfl
                refine ⟨[c, d] :: toks, x, rest, ?_, h2, h3, by rw [h4]; rfl⟩
                intro t ht
                rcases List.mem_cons.mp ht with rfl | ht
                · simp [isDescToken, hc0, hf]
                · exact h1 t ht
              · exact ⟨[], d, pb2, by simp, hd, hf, by rw [hc0]; rfl⟩
  · rintro ⟨toks, x, rest, h1, h2, h3, h4⟩
    subst h4
    induction toks with
    | nil =>
      simp only [List.flatten_nil, List.nil_append]
      rw [decode_bytes_desc_loop_cons]
      simp [h2, h3]
    | cons t toks ih =>
      have ht := h1 t (by simp)
      have ih2 := ih (fun u hu => h1 u (by simp [hu]))
      match t, ht with
      | [c], ht =>
        have hc : c ≠ 0xFF := by simpa [isDescToken] using ht
        simp only [List.flatten_cons, List.cons_append, List.nil_append]
        rw [decode_bytes_desc_loop_cons, if_pos hc, ih2]
        rfl
      | [c, d], ht =>
        simp only [isDescToken, Bool.and_eq_true, beq_iff_eq] at ht
        obtain ⟨rfl, rfl⟩ := ht
        simp only [List.flatten_cons, List.cons_append, List.nil_append]
        rw [decode_bytes_desc_loop_cons]
        simp only [ne_eq, not_true_eq_false, if_false]
        rw [if_neg (by decide), if_pos trivial, ih2]
        rfl

/-- Claim C22. For every input byte sequence, `get_bytes_len` and
`decode_bytes` in direction asc call `abort()` exactly when the token scan
reaches, before a 00 00 terminator, a 0x00 byte whose next byte is neither
0x00 nor 0xFF, and in direction desc exactly when it reaches, before an FF FF
terminator, a 0xFF byte whose next byte is neither 0xFF nor 0x00; on
`11 22 00 07` (asc) both abort, so no decoded result is returned. -/
theorem corrupt_binary_aborts (p : List Nat) :
    (get_bytes_len p true = .error .abort ↔ CorruptAsc p)
    ∧ (decode_bytes p true = .error .abort ↔ CorruptAsc p)
    ∧ (get_bytes_len p false = .error .abort ↔ CorruptDesc p)
    ∧ (decode_bytes p false = .error .abort ↔ CorruptDesc p)
    ∧ decode_bytes [0x11, 0x22, 0x00, 0x07] true = .error .abort
    ∧ get_bytes_len [0x11, 0x22, 0x00, 0x07] true = .error .abort := by
  refine ⟨?_, ?_, ?_, ?_, by decide, by decide⟩
  · simp only [get_bytes_len, if_true, except_map_abort]
    exact get_bytes_len_asc_abort p
  · simp only [decode_bytes, if_true, except_map_abort]
    exact decode_bytes_asc_abort p
  · simp only [get_bytes_len, Bool.false_eq_true, if_false, except_map_abort]
    exact get_bytes_len_desc_abort p
  · simp only [decode_bytes, Bool.false_eq_true, if_false, except_map_abort]
    exact decode_bytes_desc_abort p

/-! ## The length scans and the decoders -/

theorem get_string_len_asc_loop_eq (p : List Nat) :
    get_string_len_asc_loop p = (decode_string_asc_loop p).map List.length := by
  induction p with
  | nil => rfl
  | cons c ps ih =>
    rw [get_string_len_asc_loop_cons, decode_string_asc_loop_cons, ih]
    by_cases hc : c ≠ 0
    · rw [if_pos hc, if_pos hc]
      cases decode_string_asc_loop ps <;> rfl
    · rw [if_neg hc, if_neg hc]
      cases ps with
      | nil => rfl
      | cons d ps2 =>
        simp only
        by_cases hd : d ≠ 0
        · rw [if_pos hd, if_pos hd]
          cases decode_string_asc_loop (d :: ps2) <;> rfl
        · rw [if_neg hd, if_neg hd]
          rfl

theorem get_string_len_desc_loop_eq (p : List Nat) :
    get_string_len_desc_loop p = (decode_string_desc_loop p).map List.length := by
  induction p with
  | nil => rfl
  | cons c ps ih =>
    rw [get_string_len_desc_loop_cons, decode_string_desc_loop_cons, ih]
    by_cases hc : c ≠ 0xFF
    · rw [if_pos hc, if_pos hc]
      cases decode_string_desc_loop ps <;> rfl
    · rw [if_neg hc, if_neg hc]
      cases ps with
      | nil => rfl
      | cons d ps2 =>
        simp only
        by_cases hd : d ≠ 0xFF
        · rw [if_pos hd, if_pos hd]
          cases decode_string_desc_loop (d :: ps2) <;> rfl
        · rw [if_neg hd, if_neg hd]
          rfl

theorem get_bytes_len_asc_loop_eq (p : List Nat) :
    get_bytes_len_asc_loop p = (decode_bytes_asc_loop p).map (fun o => o.1.length) := by
  generalize hn : p.length = n
  induction n using Nat.strong_induction_on generalizing p with
  | _ n ih =>
    cases p with
    | nil => rfl
    | cons c pb =>
      rw [get_bytes_len_asc_loop_cons, decode_bytes_asc_loop_cons]
      by_cases hc : c ≠ 0
      · rw [if_pos hc, if_pos hc, ih pb.length (by rw [← hn]; simp) pb rfl]
        cases decode_bytes_asc_loop pb <;> rfl
      · rw [if_neg hc, if_neg hc]
        cases pb with
        | nil => rfl
        | cons d pb2 =>
          simp only
          by_cases hd : d = 0
          · rw [if_pos hd, if_pos hd]
            rfl
          · rw [if_neg hd, if_neg hd]
            by_cases hf : d = 0xFF
            · rw [if_pos hf, if_pos hf, ih pb2.length (by rw [← hn]; simp; omega) pb2 rfl]
              cases decode_bytes_asc_loop pb2 <;> rfl
            · rw [if_neg hf, if_neg hf]
              rfl

theorem get_bytes_len_desc_loop_eq (p : List Nat) :
    get_bytes_len_desc_loop p = (decode_bytes_desc_loop p).map (fun o => o.1.length) := by
  generalize hn : p.length = n
  induction n using Nat.strong_induction_on generalizing p with
  | _ n ih =>
    cases p with
    | nil => rfl
    | cons c pb =>
      rw [get_bytes_len_desc_loop_cons, decode_bytes_desc_loop_cons]
      by_cases hc : c ≠ 0xFF
      · rw [if_pos hc, if_pos hc, ih pb.length (by rw [← hn]; simp) pb rfl]
        cases decode_bytes_desc_loop pb <;> rfl
      · rw [if_neg hc, if_neg hc]
        cases pb with
        | nil => rfl
        | cons d pb2 =>
          simp only
          by_cases hd : d = 0xFF
          · rw [if_pos hd, if_pos hd]
            rfl
          · rw [if_neg hd, if_neg hd]
            by_cases hf : d = 0
            · rw [if_pos hf, if_pos hf, ih pb2.length (by rw [← hn]; simp; omega) pb2 rfl]
              cases decode_bytes_desc_loop pb2 <;> rfl
            · rw [if_neg hf, if_neg hf]
              rfl

theorem get_string_len_agrees (p : List Nat) (asc : Bool) (len : Nat) (dec : List Nat × Nat)
    (h1 : get_string_len p asc = some len) (h2 : decode_string p asc = some dec) :
    len = dec.1.length % 2 ^ 32 ∧ dec.2 = len := by
  cases asc
  · simp only [get_string_len, decode_string, Bool.false_eq_true, if_false,
      get_string_len_desc_loop_eq] at h1 h2
    cases hd : decode_string_desc_loop p with
    | none => simp [hd] at h2
    | some out =>
      simp only [hd, Option.map_some', Option.some.injEq] at h1 h2
      subst h1 h2
      exact ⟨rfl, rfl⟩
  · simp only [get_string_len, decode_string, if_true, get_string_len_asc_loop_eq] at h1 h2
    cases hd : decode_string_asc_loop p with
    | none => simp [hd] at h2
    | some out =>
      simp only [hd, Option.map_some', Option.some.injEq] at h1 h2
      subst h1 h2
      exact ⟨rfl, rfl⟩

theorem get_bytes_len_agrees (p : List Nat) (asc : Bool) (len : Nat) (dec : List Nat × Nat × Nat)
    (h1 : get_bytes_len p asc = .ok len) (h2 : decode_bytes p asc = .ok dec) :
    len = dec.1.length % 2 ^ 32 ∧ dec.2.1 = len := by
  cases asc
  · simp only [get_bytes_len, decode_bytes, Bool.false_eq_true, if_false,
      get_bytes_len_desc_loop_eq] at h1 h2
    cases hd : decode_bytes_desc_loop p with
    | error e => simp [hd, Except.map] at h2
    | ok o =>
      simp only [hd, Except.map, Except.ok.injEq] at h1 h2
      subst h1 h2
      exact ⟨rfl, rfl⟩
  · simp only [get_bytes_len, decode_bytes, if_true, get_bytes_len_asc_loop_eq] at h1 h2
    cases hd : decode_bytes_asc_loop p with
    | error e => simp [hd, Except.map] at h2
    | ok o =>
      simp only [hd, Except.map, Except.ok.injEq] at h1 h2
      subst h1 h2
      exact ⟨rfl, rfl⟩

/-! ## The scratch buffer only grows -/

theorem storeWorking_inv (r r1 : EncodedRecord) (out : List Nat)
    (h : r.storeWorking out = some r1) :
    r1.lenWorkingBuf = r.lenWorkingBuf ∧ r1.curPos = r.curPos
      ∧ (r1.pWorkingBuf = none → r.pWorkingBuf = none ∧ out = []) := by
  unfold EncodedRecord.storeWorking at h
  split at h
  · simp only [Option.some.injEq] at h
    subst h
    refine ⟨rfl, rfl, fun x => ⟨x, ?_⟩⟩
    rfl
  · simp at h
  · split at h
    · simp only [Option.some.injEq] at h
      subst h
      exact ⟨rfl, rfl, fun x => by simp at x⟩
    · simp at h

theorem addPos_inv (r r1 : EncodedRecord) (w : Nat) (h : r.addPos w = some r1) :
    r1.lenWorkingBuf = r.lenWorkingBuf ∧ r1.pWorkingBuf = r.pWorkingBuf := by
  unfold EncodedRecord.addPos at h
  split at h
  · simp only [Option.some.injEq] at h
    subst h
    exact ⟨rfl, rfl⟩
  · simp at h

theorem getWorkingBuf_len (r : EncodedRecord) (len : Nat) (heap : Option (List Nat))
    (hi : ScratchInv r) :
    (r.getWorkingBuf len heap).lenWorkingBuf = max r.lenWorkingBuf len
    ∧ ((r.getWorkingBuf len heap).pWorkingBuf = none →
        (r.getWorkingBuf len heap).lenWorkingBuf = len) := by
  unfold EncodedRecord.getWorkingBuf
  by_cases hc : r.pWorkingBuf ≠ none ∧ r.lenWorkingBuf ≥ len
  · rw [if_pos hc]
    exact ⟨by omega, fun x => absurd x hc.1⟩
  · rw [if_neg hc]
    simp only
    refine ⟨?_, fun _ => trivial⟩
    by_cases hp : r.pWorkingBuf = none
    · rw [hi hp]; omega
    · have : ¬ r.lenWorkingBuf ≥ len := fun x => hc ⟨hp, x⟩
      omega

theorem getString_scratch (r : EncodedRecord) (asc : Bool) (heap : Option (List Nat))
    (wb : Option (List Nat)) (len : Nat) (r1 : EncodedRecord) (hi : ScratchInv r)
    (h : r.getString asc heap = some (wb, len, r1)) :
    r1.lenWorkingBuf = max r.lenWorkingBuf len ∧ ScratchInv r1 := by
  unfold EncodedRecord.getString at h
  cases hm : r.memAt with
  | none => simp [hm] at h
  | some m =>
    cases hl : get_string_len m asc with
    | none => simp [hm, hl] at h
    | some l0 =>
      cases hd : decode_string m asc with
      | none => simp [hm, hl, hd] at h
      | some dec =>
        cases hs : (r.getWorkingBuf l0 heap).storeWorking dec.1 with
        | none => simp [hm, hl, hd, hs] at h
        | some ra =>
          cases ha : ra.addPos ((l0 + STRING_PAD_LEN) % 2 ^ 32) with
          | none =>
            simp only [hm, hl, hd, hs, ha, Option.some_bind, Option.map_none'] at h
            cases h
          | some rb =>
            simp only [hm, hl, hd, hs, ha, Option.some_bind, Option.map_some',
              Option.some.injEq, Prod.mk.injEq] at h
            obtain ⟨_, h2, h3⟩ := h
            subst h2 h3
            have g := getWorkingBuf_len r l0 heap hi
            have s1 := storeWorking_inv _ ra dec.1 hs
            have a1 := addPos_inv ra rb _ ha
            have ag := get_string_len_agrees m asc l0 dec hl hd
            refine ⟨by rw [a1.1, s1.1, g.1], ?_⟩
            intro hn
            rw [a1.2] at hn
            have s2 := s1.2.2 hn
            rw [a1.1, s1.1, g.2 s2.1, ag.1, s2.2]
            rfl

theorem getBinary_scratch (r : EncodedRecord) (asc : Bool) (heap : Option (List Nat))
    (wb : Option (List Nat)) (len : Nat) (r1 : EncodedRecord) (hi : ScratchInv r)
    (h : r.getBinary asc heap = .ok (wb, len, r1)) :
    r1.lenWorkingBuf = max r.lenWorkingBuf len ∧ ScratchInv r1 := by
  unfold EncodedRecord.getBinary at h
  cases hm : r.memAt with
  | none => simp [hm] at h
  | some m =>
    cases hl : get_bytes_len m asc with
    | error e => simp [hm, hl] at h
    | ok l0 =>
      cases hd : decode_bytes m asc with
      | error e => simp [hm, hl, hd] at h
      | ok dec =>
        cases hs : (r.getWorkingBuf l0 heap).storeWorking dec.1 with
        | none => simp [hm, hl, hd, hs] at h
        | some ra =>
          cases ha : ra.addPos ((dec.2.2 + BINARY_PAD_LEN) % 2 ^ 32) with
          | none =>
            simp only [hm, hl, hd, hs, ha] at h
            cases h
          | some rb =>
            simp only [hm, hl, hd, hs, ha, Except.ok.injEq, Prod.mk.injEq] at h
            obtain ⟨_, h2, h3⟩ := h
            subst h3
            have g := getWorkingBuf_len r l0 heap hi
            have s1 := storeWorking_inv _ ra dec.1 hs
            have a1 := addPos_inv ra rb _ ha
            have ag := get_bytes_len_agrees m asc l0 dec hl hd
            have hll : len = l0 := by rw [← h2, ag.2]
            subst hll
            refine ⟨by rw [a1.1, s1.1, g.1], ?_⟩
            intro hn
            rw [a1.2] at hn
            have s2 := s1.2.2 hn
            rw [a1.1, s1.1, g.2 s2.1, ag.1, s2.2]
            rfl

theorem run_scratch (r : EncodedRecord) (heap : Option (List Nat)) (c : ScratchCall)
    (len : Nat) (r1 : EncodedRecord) (hi : ScratchInv r) (h : c.run r heap = .ok (len, r1)) :
    r1.lenWorkingBuf = max r.lenWorkingBuf len ∧ ScratchInv r1 := by
  cases c with
  | getString asc =>
    simp only [ScratchCall.run] at h
    cases hg : r.getString asc heap with
    | none => simp [hg, orUndefined] at h
    | some x =>
      obtain ⟨wb, l, r2⟩ := x
      simp only [hg, Option.map_some', orUndefined, Except.ok.injEq, Prod.mk.injEq] at h
      obtain ⟨h1, h2⟩ := h
      subst h1 h2
      exact getString_scratch r asc heap wb _ _ hi hg
  | getBinary asc =>
    simp only [ScratchCall.run] at h
    cases hg : r.getBinary asc heap with
    | error e => simp [hg, Except.map] at h
    | ok x =>
      obtain ⟨wb, l, r2⟩ := x
      simp only [hg, Except.map, Except.ok.injEq, Prod.mk.injEq] at h
      obtain ⟨h1, h2⟩ := h
      subst h1 h2
      exact getBinary_scratch r asc heap wb _ _ hi hg

theorem getWorkingBuf_reuse (r : EncodedRecord) (len : Nat) (heap : Option (List Nat))
    (hp : r.pWorkingBuf ≠ none) (hl : len ≤ r.lenWorkingBuf) : r.getWorkingBuf len heap = r := by
  unfold EncodedRecord.getWorkingBuf
  rw [if_pos ⟨hp, hl⟩]

theorem getString_reuse (r : EncodedRecord) (asc : Bool) (heap heap2 : Option (List Nat))
    (wb : Option (List Nat)) (len : Nat) (r1 : EncodedRecord)
    (h : r.getString asc heap = some (wb, len, r1))
    (hp : r.pWorkingBuf ≠ none) (hle : len ≤ r.lenWorkingBuf) :
    r.getString asc heap2 = some (wb, len, r1) := by
  unfold EncodedRecord.getString at h ⊢
  cases hm : r.memAt with
  | none => simp [hm] at h
  | some m =>
    cases hl : get_string_len m asc with
    | none => simp [hm, hl] at h
    | some l0 =>
      cases hd : decode_string m asc with
      | none => simp [hm, hl, hd] at h
      | some dec =>
        cases hs : (r.getWorkingBuf l0 heap).storeWorking dec.1 with
        | none => simp [hm, hl, hd, hs] at h
        | some ra =>
          cases ha : ra.addPos ((l0 + STRING_PAD_LEN) % 2 ^ 32) with
          | none =>
            simp only [hm, hl, hd, hs, ha, Option.some_bind, Option.map_none'] at h
            cases h
          | some rb =>
            simp only [hm, hl, hd, hs, ha, Option.some_bind, Option.map_some',
              Option.some.injEq, Prod.mk.injEq] at h
            obtain ⟨h1, h2, h3⟩ := h
            subst h1 h2 h3
            rw [getWorkingBuf_reuse r l0 heap hp hle] at hs
            simp only [hl, hd, Option.some_bind, getWorkingBuf_reuse r l0 heap2 hp hle, hs, ha,
              Option.map_some']

theorem getBinary_reuse (r : EncodedRecord) (asc : Bool) (heap heap2 : Option (List Nat))
    (wb : Option (List Nat)) (len : Nat) (r1 : EncodedRecord)
    (h : r.getBinary asc heap = .ok (wb, len, r1))
    (hp : r.pWorkingBuf ≠ none) (hle : len ≤ r.lenWorkingBuf) :
    r.getBinary asc heap2 = .ok (wb, len, r1) := by
  unfold EncodedRecord.getBinary at h ⊢
  cases hm : r.memAt with
  | none => simp [hm] at h
  | some m =>
    cases hl : get_bytes_len m asc with
    | error e => simp [hm, hl] at h
    | ok l0 =>
      cases hd : decode_bytes m asc with
      | error e => simp [hm, hl, hd] at h
      | ok dec =>
        cases hs : (r.getWorkingBuf l0 heap).storeWorking dec.1 with
        | none => simp [hm, hl, hd, hs] at h
        | some ra =>
          cases ha : ra.addPos ((dec.2.2 + BINARY_PAD_LEN) % 2 ^ 32) with
          | none =>
            simp only [hm, hl, hd, hs, ha] at h
            cases h
          | some rb =>
            simp only [hm, hl, hd, hs, ha, Except.ok.injEq, Prod.mk.injEq] at h
            obtain ⟨h1, h2, h3⟩ := h
            have ag := get_bytes_len_agrees m asc l0 dec hl hd
            have hll : len = l0 := by rw [← h2, ag.2]
            subst hll
            rw [getWorkingBuf_reuse r len heap hp hle] at hs
            simp only [hl, hd, getWorkingBuf_reuse r len heap2 hp hle, hs, ha, h2, h3]
            rw [← h1, h3]

theorem run_reuse (r : EncodedRecord) (heap heap2 : Option (List Nat)) (c : ScratchCall)
    (len : Nat) (r1 : EncodedRecord) (h : c.run r heap = .ok (len, r1))
    (hp : r.pWorkingBuf ≠ none) (hle : len ≤ r.lenWorkingBuf) :
    c.run r heap2 = .ok (len, r1) := by
  cases c with
  | getString asc =>
    simp only [ScratchCall.run] at h ⊢
    cases hg : r.getString asc heap with
    | none => simp [hg, orUndefined] at h
    | some x =>
      obtain ⟨wb, l, r2⟩ := x
      simp only [hg, Option.map_some', orUndefined, Except.ok.injEq, Prod.mk.injEq] at h
      obtain ⟨h1, h2⟩ := h
      subst h1 h2
      rw [getString_reuse r asc heap heap2 wb _ _ hg hp hle]
      rfl
  | getBinary asc =>
    simp only [ScratchCall.run] at h ⊢
    cases hg : r.getBinary asc heap with
    | error e => simp [hg, Except.map] at h
    | ok x =>
      obtain ⟨wb, l, r2⟩ := x
      simp only [hg, Except.map, Except.ok.injEq, Prod.mk.injEq] at h
      obtain ⟨h1, h2⟩ := h
      subst h1 h2
      rw [getBinary_reuse r asc heap heap2 wb _ _ hg hp hle]
      rfl

theorem runCalls_trace (r : EncodedRecord) (calls : List (Int × Option (List Nat) × ScratchCall))
    (tr : List (Nat × Nat)) (r1 : EncodedRecord) (hi : ScratchInv r)
    (h : runCalls r calls = .ok (tr, r1)) :
    tr.map Prod.snd = runningMax r.lenWorkingBuf (tr.map Prod.fst)
    ∧ r1.lenWorkingBuf = (tr.map Prod.fst).foldl max r.lenWorkingBuf
    ∧ ScratchInv r1 := by
  induction calls generalizing r tr with
  | nil =>
    simp only [runCalls, Except.ok.injEq, Prod.mk.injEq] at h
    obtain ⟨h1, h2⟩ := h
    subst h1 h2
    exact ⟨rfl, rfl, hi⟩
  | cons x cs ih =>
    obtain ⟨pos, heap, c⟩ := x
    simp only [runCalls] at h
    cases hc : c.run { r with curPos := pos } heap with
    | error e => simp [hc] at h
    | ok y =>
      obtain ⟨len, ra⟩ := y
      have hs := run_scratch { r with curPos := pos } heap c len ra hi hc
      simp only at hs
      cases hr : runCalls ra cs with
      | error e => simp [hc, hr] at h
      | ok z =>
        obtain ⟨tr2, rb⟩ := z
        simp only [hc, hr, Except.ok.injEq, Prod.mk.injEq] at h
        obtain ⟨h1, h2⟩ := h
        subst h1 h2
        obtain ⟨i1, i2, i3⟩ := ih ra tr2 hs.2 hr
        refine ⟨?_, ?_, i3⟩
        · simp only [List.map_cons, runningMax, i1, hs.1]
        · simp only [List.map_cons, List.foldl_cons, i2, hs.1]

theorem runningMax_chain (m : Nat) (lens : List Nat) :
    List.Chain (fun a b => a ≤ b) m (runningMax m lens) := by
  induction lens generalizing m with
  | nil => exact List.Chain.nil
  | cons len lens ih => exact List.Chain.cons (Nat.le_max_left m len) (ih (max m len))

theorem runningMax_ge (m : Nat) (lens : List Nat) :
    List.Forall₂ (fun len w => len ≤ w) lens (runningMax m lens) := by
  induction lens generalizing m with
  | nil => exact List.Forall₂.nil
  | cons len lens ih => exact List.Forall₂.cons (Nat.le_max_right m len) (ih (max m len))

/-- Claim C28. Along every sequence of `getString` / `getBinary` calls on a
record whose scratch pointer is null only with a recorded length of 0 (as
the constructors leave it), each from any cursor position and with any answer
of `malloc`, as long as the calls return: `lenWorkingBuf` after each call is
the largest of its initial value and the lengths returned so far (for a new
record, the largest length returned so far), so it never decreases and is at
least the length just returned; and a call that returns a length within the
recorded length of a non-null scratch buffer makes no allocation: its result
is the same whatever `malloc` would answer, and `lenWorkingBuf` is unchanged. -/
theorem scratch_grows_only (r : EncodedRecord)
    (calls : List (Int × Option (List Nat) × ScratchCall))
    (tr : List (Nat × Nat)) (r1 : EncodedRecord) (hi : ScratchInv r)
    (h : runCalls r calls = .ok (tr, r1)) :
    tr.map Prod.snd = runningMax r.lenWorkingBuf (tr.map Prod.fst)
    ∧ List.Chain (fun a b => a ≤ b) r.lenWorkingBuf (tr.map Prod.snd)
    ∧ (∀ x ∈ tr, x.1 ≤ x.2)
    ∧ r1.lenWorkingBuf = (tr.map Prod.fst).foldl max r.lenWorkingBuf
    ∧ (∀ (c : ScratchCall) (heap heap2 : Option (List Nat)) (len : Nat) (r2 : EncodedRecord),
        r.pWorkingBuf ≠ none → c.run r heap = .ok (len, r2) → len ≤ r.lenWorkingBuf →
          c.run r heap2 = .ok (len, r2) ∧ r2.lenWorkingBuf = r.lenWorkingBuf) := by
  obtain ⟨t1, t2, _⟩ := runCalls_trace r calls tr r1 hi h
  refine ⟨t1, ?_, ?_, t2, ?_⟩
  · rw [t1]
    exact runningMax_chain _ _
  · have hf := runningMax_ge r.lenWorkingBuf (tr.map Prod.fst)
    rw [← t1] at hf
    intro x hx
    rw [List.forall₂_map_left_iff, List.forall₂_map_right_iff] at hf
    exact (List.forall₂_same.mp hf) x hx
  · intro c heap heap2 len r2 hp hc hle
    refine ⟨run_reuse r heap heap2 c len r2 hc hp hle, ?_⟩
    have hs := run_scratch r heap c len r2 (fun x => absurd x hp) hc
    rw [hs.1]
    exact Nat.max_eq_left hle

theorem scratch_grows_only_witness :
    (ScratchInv { pData := some [0x61, 0x62, 0, 0, 0x11, 0, 0, 0x61, 0x62, 0x63, 0, 0],
                  curPos := 0, endPos := 12, curLen := 12, pWorkingBuf := none,
                  lenWorkingBuf := 0 }
      ∧ runCalls
          { pData := some [0x61, 0x62, 0, 0, 0x11, 0, 0, 0x61, 0x62, 0x63, 0, 0], curPos := 0,
            endPos := 12, curLen := 12, pWorkingBuf := none, lenWorkingBuf := 0 }
          [(0, some [], .getString true), (4, some [], .getBinary true),
            (7, some [], .getString true)]
        = .ok ([(2, 2), (1, 2), (3, 3)],
            { pData := some [0x61, 0x62, 0, 0, 0x11, 0, 0, 0x61, 0x62, 0x63, 0, 0],
              curPos := 12, endPos := 12, curLen := 12,
              pWorkingBuf := some [0x61, 0x62, 0x63], lenWorkingBuf := 3 }))
    ∧ [(2, 2), (1, 2), (3, 3)].map Prod.snd
        = runningMax 0 ([(2, 2), (1, 2), (3, 3)].map Prod.fst)
    ∧ List.Chain (fun a b => a ≤ b) 0 ([(2, 2), (1, 2), (3, 3)].map Prod.snd)
    ∧ (∀ x ∈ [(2, 2), (1, 2), (3, 3)], x.1 ≤ x.2)
    ∧ (3 : Nat) = ([(2, 2), (1, 2), (3, 3)].map Prod.fst).foldl max 0 :=
  ⟨⟨fun _ => rfl, by decide⟩,
    have w := scratch_grows_only
      { pData := some [0x61, 0x62, 0, 0, 0x11, 0, 0, 0x61, 0x62, 0x63, 0, 0], curPos := 0,
        endPos := 12, curLen := 12, pWorkingBuf := none, lenWorkingBuf := 0 }
      [(0, some [], .getString true), (4, some [], .getBinary true),
        (7, some [], .getString true)]
      [(2, 2), (1, 2), (3, 3)]
      { pData := some [0x61, 0x62, 0, 0, 0x11, 0, 0, 0x61, 0x62, 0x63, 0, 0],
        curPos := 12, endPos := 12, curLen := 12,
        pWorkingBuf := some [0x61, 0x62, 0x63], lenWorkingBuf := 3 }
      (fun _ => rfl) (by decide)
    ⟨w.1, w.2.1, w.2.2.1, w.2.2.2.1⟩⟩

/-! ## Growing the record -/

/-- For a new size that fits the `uint32_t` capacity, `resize` keeps the
cursor and the end position; it changes nothing when the size is not above
`getLen()` or `realloc` fails; otherwise `getLen()` becomes the new size, the
block has the new size and keeps the bytes of the old block. -/
theorem resize_in_range (r : EncodedRecord) (new_sz : Nat) (heap : Option (List Nat))
    (hsz : new_sz < 2 ^ 32) :
    (r.resize new_sz heap).curPos = r.curPos
    ∧ (r.resize new_sz heap).endPos = r.endPos
    ∧ (new_sz ≤ r.getLen ∨ heap = none → r.resize new_sz heap = r)
    ∧ (r.getLen < new_sz → heap ≠ none →
        (r.resize new_sz heap).getLen = new_sz
        ∧ (r.resize new_sz heap).getData.length = new_sz
        ∧ ∀ i, i < r.getData.length → i < new_sz →
            (r.resize new_sz heap).getData[i]? = r.getData[i]?)
    ∧ r.getLen ≤ (r.resize new_sz heap).getLen := by
  have e1 : new_sz % 2 ^ 64 = new_sz := Nat.mod_eq_of_lt (by omega)
  have e2 : new_sz % 2 ^ 32 = new_sz := Nat.mod_eq_of_lt hsz
  unfold EncodedRecord.resize
  rw [e1, e2]
  by_cases hc : new_sz ≤ r.curLen
  · rw [if_pos hc]
    refine ⟨rfl, rfl, fun _ => rfl, fun h => ?_, le_refl _⟩
    simp only [EncodedRecord.getLen] at h
    omega
  · rw [if_neg hc]
    cases heap with
    | none =>
      refine ⟨rfl, rfl, fun _ => rfl, fun _ h => absurd rfl h, le_refl _⟩
    | some junk =>
      simp only [EncodedRecord.getLen, EncodedRecord.getData, Option.getD_some]
      refine ⟨trivial, trivial, fun h => ?_, fun _ _ => ⟨trivial, ?_, ?_⟩, by omega⟩
      · rcases h with h | h
        · exact absurd h hc
        · simp at h
      · simp only [reallocBlock, List.length_take, List.length_append, length_mallocBlock]
        omega
      · intro i h1 h2
        simp only [reallocBlock]
        rw [List.getElem?_take_of_lt h2, List.getElem?_append_left h1]

/-- Claim C29, the failing input. A record of capacity 100 (`alloc(100)`) and
`resize(4294967296)` with a `realloc` that succeeds: the method updates
`curLen`, and `getLen()` afterwards is 0, below the 100 before; with
`resize(4294967301)` it is 5. The `size_t` argument is narrowed to the
`uint32_t` member, and the cursor and the end position stay as they were. -/
theorem resize_truncates_capacity :
    (EncodedRecord.empty.alloc 100 (some [])).getLen = 100
    ∧ ((EncodedRecord.empty.alloc 100 (some [])).resize 4294967296 (some [])).getLen = 0
    ∧ ((EncodedRecord.empty.alloc 100 (some [])).resize 4294967301 (some [])).getLen = 5
    ∧ ((EncodedRecord.empty.alloc 100 (some [])).resize 4294967296 (some [])).getPos = 0
    ∧ ((EncodedRecord.empty.alloc 100 (some [])).resize 4294967296 (some [])).getEndPos = 0
    ∧ ((EncodedRecord.empty.alloc 100 (some [])).resize 200 (some [])).getLen = 200 := by
  refine ⟨by decide, by decide, by decide, by decide, by decide, by decide⟩

/-! ## `comp` as a strict order -/

theorem memcmp_trans (x y z : List Nat) (n1 n2 n3 : Nat)
    (h1 : memcmp x y (min n1 n2) < 0) (h2 : memcmp y z (min n2 n3) < 0) :
    memcmp x z (min n1 n3) < 0 := by
  induction x generalizing y z n1 n2 n3 with
  | nil => simp [memcmp] at h1
  | cons a xs ih =>
    cases y with
    | nil => simp [memcmp] at h1
    | cons b ys =>
      cases z with
      | nil => simp [memcmp] at h2
      | cons c zs =>
        cases n1 with
        | zero => simp [memcmp] at h1
        | succ m1 =>
          cases n2 with
          | zero => simp [memcmp] at h1
          | succ m2 =>
            cases n3 with
            | zero => simp [memcmp] at h2
            | succ m3 =>
              have e12 : min (m1 + 1) (m2 + 1) = min m1 m2 + 1 := by omega
              have e23 : min (m2 + 1) (m3 + 1) = min m2 m3 + 1 := by omega
              have e13 : min (m1 + 1) (m3 + 1) = min m1 m3 + 1 := by omega
              rw [e12] at h1
              rw [e23] at h2
              rw [e13]
              simp only [memcmp] at h1 h2 ⊢
              by_cases hab : a = b
              · subst hab
                simp only [if_true] at h1
                by_cases hbc : a = c
                · subst hbc
                  simp only [if_true] at h2 ⊢
                  exact ih ys zs m1 m2 m3 h1 h2
                · simp only [if_neg hbc] at h2 ⊢
                  exact h2
              · simp only [if_neg hab] at h1
                have hlt : a < b := by
                  by_contra hn
                  simp [hn] at h1
                by_cases hbc : b = c
                · subst hbc
                  simp only [if_neg hab, if_pos hlt]
                  decide
                · simp only [if_neg hbc] at h2
                  have hlt2 : b < c := by
                    by_contra hn
                    simp [hn] at h2
                  have hac : ¬ a = c := by omega
                  have hlt3 : a < c := by omega
                  simp only [if_neg hac, if_pos hlt3]
                  decide

theorem toSizeT_min_int (e1 e2 : Int) (h1 : 0 ≤ e1) (h2 : 0 ≤ e2) (h3 : e1 < 2 ^ 31)
    (h4 : e2 < 2 ^ 31) :
    toSizeT (if e1 ≤ e2 then e1 else e2) = min e1.toNat e2.toNat := by
  unfold toSizeT
  split <;> omega

/-- Claim C33. On records whose end positions are non-negative values of
`int`, whatever their blocks hold, `comp` is a strict partial order:
`comp(a, a)` is false, `comp(a, b)` and `comp(b, a)` are not both true, and
`comp(a, b)` with `comp(b, c)` gives `comp(a, c)`; the end positions may
differ and the bytes of one record may be an initial segment of those of
another. -/
theorem comp_strict_order (a b c : EncodedRecord)
    (ha : 0 ≤ a.getEndPos ∧ a.getEndPos < 2 ^ 31) (hb : 0 ≤ b.getEndPos ∧ b.getEndPos < 2 ^ 31)
    (hc : 0 ≤ c.getEndPos ∧ c.getEndPos < 2 ^ 31) :
    comp a a = false
    ∧ ¬ (comp a b = true ∧ comp b a = true)
    ∧ (comp a b = true → comp b c = true → comp a c = true) := by
  refine ⟨?_, ?_, ?_⟩
  · simp [comp, memcmp_self]
  · rintro ⟨h1, h2⟩
    simp only [comp, gt_iff_lt, decide_eq_true_eq] at h1 h2
    rw [toSizeT_min_int _ _ ha.1 hb.1 ha.2 hb.2] at h1
    rw [toSizeT_min_int _ _ hb.1 ha.1 hb.2 ha.2, memcmp_swap, Nat.min_comm] at h2
    omega
  · intro h1 h2
    simp only [comp, gt_iff_lt, decide_eq_true_eq] at h1 h2 ⊢
    rw [toSizeT_min_int _ _ ha.1 hb.1 ha.2 hb.2] at h1
    rw [toSizeT_min_int _ _ hb.1 hc.1 hb.2 hc.2] at h2
    rw [toSizeT_min_int _ _ ha.1 hc.1 ha.2 hc.2]
    exact memcmp_trans _ _ _ _ _ _ h1 h2

theorem comp_strict_order_witness :
    ((0 ≤ EncodedRecord.getEndPos
          { pData := some [1, 2], curPos := 0, endPos := 2, curLen := 2,
            pWorkingBuf := none, lenWorkingBuf := 0 }
        ∧ EncodedRecord.getEndPos
          { pData := some [1, 2], curPos := 0, endPos := 2, curLen := 2,
            pWorkingBuf := none, lenWorkingBuf := 0 } < 2 ^ 31)
      ∧ (0 ≤ EncodedRecord.getEndPos
          { pData := some [1, 2, 0, 7], curPos := 0, endPos := 4, curLen := 4,
            pWorkingBuf := none, lenWorkingBuf := 0 }
        ∧ EncodedRecord.getEndPos
          { pData := some [1, 2, 0, 7], curPos := 0, endPos := 4, curLen := 4,
            pWorkingBuf := none, lenWorkingBuf := 0 } < 2 ^ 31)
      ∧ (0 ≤ EncodedRecord.getEndPos
          { pData := some [1, 2, 1], curPos := 0, endPos := 3, curLen := 3,
            pWorkingBuf := none, lenWorkingBuf := 0 }
        ∧ EncodedRecord.getEndPos
          { pData := some [1, 2, 1], curPos := 0, endPos := 3, curLen := 3,
            pWorkingBuf := none, lenWorkingBuf := 0 } < 2 ^ 31))
    ∧ comp { pData := some [1, 2], curPos := 0, endPos := 2, curLen := 2,
             pWorkingBuf := none, lenWorkingBuf := 0 }
        { pData := some [1, 2], curPos := 0, endPos := 2, curLen := 2,
          pWorkingBuf := none, lenWorkingBuf := 0 } = false
    ∧ ¬ (comp { pData := some [1, 2], curPos := 0, endPos := 2, curLen := 2,
                pWorkingBuf := none, lenWorkingBuf := 0 }
           { pData := some [1, 2, 0, 7], curPos := 0, endPos := 4, curLen := 4,
             pWorkingBuf := none, lenWorkingBuf := 0 } = true
         ∧ comp { pData := some [1, 2, 0, 7], curPos := 0, endPos := 4, curLen := 4,
                  pWorkingBuf := none, lenWorkingBuf := 0 }
             { pData := some [1, 2], curPos := 0, endPos := 2, curLen := 2,
               pWorkingBuf := none, lenWorkingBuf := 0 } = true)
    ∧ (comp { pData := some [1, 2], curPos := 0, endPos := 2, curLen := 2,
              pWorkingBuf := none, lenWorkingBuf := 0 }
         { pData := some [1, 2, 0, 7], curPos := 0, endPos := 4, curLen := 4,
           pWorkingBuf := none, lenWorkingBuf := 0 } = true →
       comp { pData := some [1, 2, 0, 7], curPos := 0, endPos := 4, curLen := 4,
              pWorkingBuf := none, lenWorkingBuf := 0 }
         { pData := some [1, 2, 1], curPos := 0, endPos := 3, curLen := 3,
           pWorkingBuf := none, lenWorkingBuf := 0 } = true →
       comp { pData := some [1, 2], curPos := 0, endPos := 2, curLen := 2,
              pWorkingBuf := none, lenWorkingBuf := 0 }
         { pData := some [1, 2, 1], curPos := 0, endPos := 3, curLen := 3,
           pWorkingBuf := none, lenWorkingBuf := 0 } = true) :=
  ⟨⟨⟨by decide, by decide⟩, ⟨by decide, by decide⟩, ⟨by decide, by decide⟩⟩,
    comp_strict_order
      { pData := some [1, 2], curPos := 0, endPos := 2, curLen := 2,
        pWorkingBuf := none, lenWorkingBuf := 0 }
      { pData := some [1, 2, 0, 7], curPos := 0, endPos := 4, curLen := 4,
        pWorkingBuf := none, lenWorkingBuf := 0 }
      { pData := some [1, 2, 1], curPos := 0, endPos := 3, curLen := 3,
        pWorkingBuf := none, lenWorkingBuf := 0 }
      ⟨by decide, by decide⟩ ⟨by decide, by decide⟩ ⟨by decide, by decide⟩⟩

/-! ## Bytes after the terminator -/

theorem decode_bytes_loop_trailing (d : Bool) (x t : List Nat) (hx : ∀ c ∈ x, c < 256) :
    (if d then decode_bytes_asc_loop ((encode_binary_seq x d).1 ++ t)
      else decode_bytes_desc_loop ((encode_binary_seq x d).1 ++ t))
      = .ok (x, (encode_binary_seq x d).1.length - BINARY_PAD_LEN) := by
  cases d
  · simp only [Bool.false_eq_true, if_false, encode_binary_seq, List.append_assoc,
      List.cons_append, List.nil_append, decode_bytes_desc_loop_spec x t hx,
      List.length_append, List.length_cons, List.length_nil, BINARY_PAD_LEN]
    rfl
  · simp only [if_true, encode_binary_seq, List.append_assoc, List.cons_append, List.nil_append,
      decode_bytes_asc_loop_spec x t, List.length_append, List.length_cons, List.length_nil,
      BINARY_PAD_LEN]
    rfl

theorem decode_string_loop_trailing (d : Bool) (s t : List Nat)
    (hs : ∀ c ∈ s, 0 < c ∧ c < 256) :
    (if d then decode_string_asc_loop ((encode_string s d).1 ++ t)
      else decode_string_desc_loop ((encode_string s d).1 ++ t)) = some s
    ∧ (if d then get_string_len_asc_loop ((encode_string s d).1 ++ t)
        else get_string_len_desc_loop ((encode_string s d).1 ++ t))
        = some ((encode_string s d).1.length - STRING_PAD_LEN) := by
  have hz := noZeroPair_of_pos s (fun c hc => (hs c hc).1)
  have hb : ∀ c ∈ s, c < 256 := fun c hc => (hs c hc).2
  cases d
  · simp only [Bool.false_eq_true, if_false, encode_string, List.append_assoc,
      List.cons_append, List.nil_append, decode_string_desc_loop_spec s t hb hz,
      get_string_len_desc_loop_spec s t hb hz, List.length_append, List.length_map,
      List.length_cons, List.length_nil, STRING_PAD_LEN]
    exact ⟨trivial, rfl⟩
  · simp only [if_true, encode_string, List.append_assoc, List.cons_append, List.nil_append,
      decode_string_asc_loop_spec s t hz, get_string_len_asc_loop_spec s t hz,
      List.length_append, List.length_cons, List.length_nil, STRING_PAD_LEN]
    exact ⟨trivial, rfl⟩

theorem encode_binary_seq_prefix_free (d : Bool) (x y : List Nat) (hx : ∀ c ∈ x, c < 256)
    (hy : ∀ c ∈ y, c < 256) (h : (encode_binary_seq x d).1 <+: (encode_binary_seq y d).1) : x = y := by
  obtain ⟨t, ht⟩ := h
  have h1 := decode_bytes_loop_trailing d x t hx
  have h2 := decode_bytes_loop_trailing d y [] hy
  rw [List.append_nil] at h2
  rw [ht, h2] at h1
  simp only [Except.ok.injEq, Prod.mk.injEq] at h1
  exact h1.1.symm

theorem encode_string_prefix_free (d : Bool) (s u : List Nat) (hs : ∀ c ∈ s, 0 < c ∧ c < 256)
    (hu : ∀ c ∈ u, 0 < c ∧ c < 256) (h : (encode_string s d).1 <+: (encode_string u d).1) :
    s = u := by
  obtain ⟨t, ht⟩ := h
  have h1 := (decode_string_loop_trailing d s t hs).1
  have h2 := (decode_string_loop_trailing d u [] hu).1
  rw [List.append_nil] at h2
  rw [ht, h2] at h1
  simp only [Option.some.injEq] at h1
  exact h1.symm

/-- Claim C31, as stated, fails: the ascending encoding of the payload `x` of
`2 ^ 31` bytes 0x00 starts with `00 00` (the store index of the encoder has
wrapped), so decoding it followed by the byte `11` yields the empty payload,
not `x`; and the encoding `00 00` of the empty payload is an initial segment
of the encoding of `x`, a different payload. -/
theorem decode_ignores_trailing_fails_wrapped :
    (∀ c ∈ 0 :: 0 :: List.replicate 2147483646 0, c < 256)
    ∧ decode_bytes ((encode_binary (0 :: 0 :: List.replicate 2147483646 0) true).1 ++ [0x11])
        true = .ok ([], 0, 0)
    ∧ (encode_binary [] true).1
        <+: (encode_binary (0 :: 0 :: List.replicate 2147483646 0) true).1
    ∧ [] ≠ 0 :: 0 :: List.replicate 2147483646 0 :=
  ⟨zeros_lt_256 2147483646, decode_bytes_zeros 2147483646 (by norm_num) [0x11],
    encode_binary_prefix_zeros 2147483646 (by norm_num), List.noConfusion⟩

/-- Claim C31, amended. For all binary payloads `x`, `y` whose length plus
number of 0x00 bytes is below `2 ^ 32` and all string payloads `s`, `u` of
nonzero bytes, in either direction, and every sequence `t` of trailing bytes:
on the encoding followed by `t`, `decode_bytes` writes `x` and its loop
advances by the length of the encoding less the two terminator bytes,
`decode_string` writes `s` and the scan of `get_string_len` advances by the
length of the encoding less the two terminator bytes (the functions return
these counts as `uint32_t`); and an encoding that is an initial segment of
the encoding of a payload of the same type and direction is the encoding of
that same payload. -/
theorem decode_ignores_trailing (d : Bool) (x y s u t : List Nat)
    (hx : ∀ c ∈ x, c < 256) (hy : ∀ c ∈ y, c < 256)
    (hlx : x.length + x.count 0 < 2 ^ 32) (hly : y.length + y.count 0 < 2 ^ 32)
    (hs : ∀ c ∈ s, 0 < c ∧ c < 256) (hu : ∀ c ∈ u, 0 < c ∧ c < 256) :
    decode_bytes ((encode_binary x d).1 ++ t) d
      = .ok (x, x.length % 2 ^ 32, ((encode_binary x d).1.length - BINARY_PAD_LEN) % 2 ^ 32)
    ∧ (if d then decode_bytes_asc_loop ((encode_binary x d).1 ++ t)
        else decode_bytes_desc_loop ((encode_binary x d).1 ++ t))
        = .ok (x, (encode_binary x d).1.length - BINARY_PAD_LEN)
    ∧ get_bytes_len ((encode_binary x d).1 ++ t) d = .ok (x.length % 2 ^ 32)
    ∧ decode_string ((encode_string s d).1 ++ t) d = some (s, s.length % 2 ^ 32)
    ∧ get_string_len ((encode_string s d).1 ++ t) d
        = some (((encode_string s d).1.length - STRING_PAD_LEN) % 2 ^ 32)
    ∧ (if d then get_string_len_asc_loop ((encode_string s d).1 ++ t)
        else get_string_len_desc_loop ((encode_string s d).1 ++ t))
        = some ((encode_string s d).1.length - STRING_PAD_LEN)
    ∧ ((encode_binary x d).1 <+: (encode_binary y d).1 → x = y)
    ∧ ((encode_string s d).1 <+: (encode_string u d).1 → s = u) := by
  rw [encode_binary_eq_seq_of_count x d hlx, encode_binary_eq_seq_of_count y d hly]
  have hl := decode_string_loop_trailing d s t hs
  refine ⟨decode_bytes_encode_binary_seq x t d hx, decode_bytes_loop_trailing d x t hx,
    get_bytes_len_encode_binary_seq x t d hx, ?_, ?_, hl.2,
    encode_binary_seq_prefix_free d x y hx hy, encode_string_prefix_free d s u hs hu⟩
  · cases d
    · simp only [Bool.false_eq_true, if_false] at hl
      simp only [decode_string, Bool.false_eq_true, if_false, hl.1, Option.map_some']
    · simp only [if_true] at hl
      simp only [decode_string, if_true, hl.1, Option.map_some']
  · cases d
    · simp only [Bool.false_eq_true, if_false] at hl
      simp only [get_string_len, Bool.false_eq_true, if_false, hl.2, Option.map_some']
    · simp only [if_true] at hl
      simp only [get_string_len, if_true, hl.2, Option.map_some']

theorem decode_ignores_trailing_witness :
    ((∀ c ∈ [0x00, 0x11], c < 256) ∧ (∀ c ∈ [0x00, 0x11, 0x22], c < 256)
      ∧ [0x00, 0x11].length + [0x00, 0x11].count 0 < 2 ^ 32
      ∧ [0x00, 0x11, 0x22].length + [0x00, 0x11, 0x22].count 0 < 2 ^ 32
      ∧ (∀ c ∈ [0x61, 0x62], 0 < c ∧ c < 256) ∧ (∀ c ∈ [0x61, 0x62, 0x63], 0 < c ∧ c < 256))
    ∧ decode_bytes ((encode_binary [0x00, 0x11] false).1 ++ [0xFF, 0xFF, 0x00]) false
      = .ok ([0x00, 0x11], [0x00, 0x11].length % 2 ^ 32,
          ((encode_binary [0x00, 0x11] false).1.length - BINARY_PAD_LEN) % 2 ^ 32)
    ∧ decode_string ((encode_string [0x61, 0x62] false).1 ++ [0xFF, 0xFF, 0x00]) false
      = some ([0x61, 0x62], [0x61, 0x62].length % 2 ^ 32)
    ∧ ((encode_binary [0x00, 0x11] false).1 <+: (encode_binary [0x00, 0x11, 0x22] false).1 →
        [0x00, 0x11] = [0x00, 0x11, 0x22])
    ∧ ((encode_string [0x61, 0x62] false).1 <+: (encode_string [0x61, 0x62, 0x63] false).1 →
        [0x61, 0x62] = [0x61, 0x62, 0x63]) :=
  ⟨⟨by decide, by decide, by decide, by decide, by decide, by decide⟩,
    have w := decode_ignores_trailing false [0x00, 0x11] [0x00, 0x11, 0x22] [0x61, 0x62]
      [0x61, 0x62, 0x63] [0xFF, 0xFF, 0x00] (by decide) (by decide) (by decide) (by decide)
      (by decide) (by decide)
    ⟨w.1, w.2.2.2.1, w.2.2.2.2.2.2.1, w.2.2.2.2.2.2.2⟩⟩

/-! ## The length scans against the decoders -/

theorem decode_string_asc_loop_length (p out : List Nat)
    (h : decode_string_asc_loop p = some out) : out.length ≤ p.length := by
  induction p generalizing out with
  | nil => simp [decode_string_asc_loop] at h
  | cons c ps ih =>
    rw [decode_string_asc_loop_cons] at h
    by_cases hc : c ≠ 0
    · rw [if_pos hc] at h
      cases hd : decode_string_asc_loop ps with
      | none => simp [hd] at h
      | some o =>
        simp only [hd, Option.map_some', Option.some.injEq] at h
        subst h
        have := ih o hd
        simp only [List.length_cons]
        omega
    · rw [if_neg hc] at h
      cases ps with
      | nil => simp at h
      | cons d ps2 =>
        simp only at h
        by_cases hd0 : d ≠ 0
        · rw [if_pos hd0] at h
          cases hd : decode_string_asc_loop (d :: ps2) with
          | none => simp [hd] at h
          | some o =>
            simp only [hd, Option.map_some', Option.some.injEq] at h
            subst h
            have := ih o hd
            simp only [List.length_cons] at this ⊢
            omega
        · rw [if_neg hd0] at h
          simp only [Option.some.injEq] at h
          subst h
          simp

theorem decode_bytes_asc_loop_length (p : List Nat) (o : List Nat × Nat)
    (h : decode_bytes_asc_loop p = .ok o) : o.1.length ≤ p.length := by
  generalize hn : p.length = n
  induction n using Nat.strong_induction_on generalizing p o with
  | _ n ih =>
    cases p with
    | nil => simp [decode_bytes_asc_loop] at h
    | cons c pb =>
      rw [decode_bytes_asc_loop_cons] at h
      by_cases hc : c ≠ 0
      · rw [if_pos hc] at h
        cases hd : decode_bytes_asc_loop pb with
        | error e => simp [hd, Except.map] at h
        | ok o2 =>
          simp only [hd, Except.map, Except.ok.injEq] at h
          subst h
          have := ih pb.length (by rw [← hn]; simp) pb o2 hd rfl
          simp only [List.length_cons] at hn ⊢
          omega
      · rw [if_neg hc] at h
        cases pb with
        | nil => simp at h
        | cons d pb2 =>
          simp only at h
          by_cases hd0 : d = 0
          · rw [if_pos hd0] at h
            simp only [Except.ok.injEq] at h
            subst h
            simp
          · rw [if_neg hd0] at h
            by_cases hf : d = 0xFF
            · rw [if_pos hf] at h
              cases hd : decode_bytes_asc_loop pb2 with
              | error e => simp [hd, Except.map] at h
              | ok o2 =>
                simp only [hd, Except.map, Except.ok.injEq] at h
                subst h
                have := ih pb2.length (by rw [← hn]; simp; omega) pb2 o2 hd rfl
                simp only [List.length_cons] at hn ⊢
                omega
            · rw [if_neg hf] at h
              simp at h

theorem decode_string_desc_loop_length (p out : List Nat)
    (h : decode_string_desc_loop p = some out) : out.length ≤ p.length := by
  induction p generalizing out with
  | nil => simp [decode_string_desc_loop] at h
  | cons c ps ih =>
    rw [decode_string_desc_loop_cons] at h
    by_cases hc : c ≠ 0xFF
    · rw [if_pos hc] at h
      cases hd : decode_string_desc_loop ps with
      | none => simp [hd] at h
      | some o =>
        simp only [hd, Option.map_some', Option.some.injEq] at h
        subst h
        have := ih o hd
        simp only [List.length_cons]
        omega
    · rw [if_neg hc] at h
      cases ps with
      | nil => simp at h
      | cons d ps2 =>
        simp only at h
        by_cases hd0 : d ≠ 0xFF
        · rw [if_pos hd0] at h
          cases hd : decode_string_desc_loop (d :: ps2) with
          | none => simp [hd] at h
          | some o =>
            simp only [hd, Option.map_some', Option.some.injEq] at h
            subst h
            have := ih o hd
            simp only [List.length_cons] at this ⊢
            omega
        · rw [if_neg hd0] at h
          simp only [Option.some.injEq] at h
          subst h
          simp


theorem decode_bytes_desc_loop_length (p : List Nat) (o : List Nat × Nat)
    (h : decode_bytes_desc_loop p = .ok o) : o.1.length ≤ p.length := by
  generalize hn : p.length = n
  induction n using Nat.strong_induction_on generalizing p o with
  | _ n ih =>
    cases p with
    | nil => simp [decode_bytes_desc_loop] at h
    | cons c pb =>
      rw [decode_bytes_desc_loop_cons] at h
      by_cases hc : c ≠ 0xFF
      · rw [if_pos hc] at h
        cases hd : decode_bytes_desc_loop pb with
        | error e => simp [hd, Except.map] at h
        | ok o2 =>
          simp only [hd, Except.map, Except.ok.injEq] at h
          subst h
          have := ih pb.length (by rw [← hn]; simp) pb o2 hd rfl
          simp only [List.length_cons] at hn ⊢
          omega
      · rw [if_neg hc] at h
        cases pb with
        | nil => simp at h
        | cons d pb2 =>
          simp only at h
          by_cases hd0 : d = 0xFF
          · rw [if_pos hd0] at h
            simp only [Except.ok.injEq] at h
            subst h
            simp
          · rw [if_neg hd0] at h
            by_cases hf : d = 0
            · rw [if_pos hf] at h
              cases hd : decode_bytes_desc_loop pb2 with
              | error e => simp [hd, Except.map] at h
              | ok o2 =>
                simp only [hd, Except.map, Except.ok.injEq] at h
                subst h
                have := ih pb2.length (by rw [← hn]; simp; omega) pb2 o2 hd rfl
                simp only [List.length_cons] at hn ⊢
                omega
            · rw [if_neg hf] at h
              simp at h

theorem get_string_len_decode (p : List Nat) (asc : Bool) :
    get_string_len p asc = (decode_string p asc).map (fun dec => dec.2) := by
  cases asc
  · simp only [get_string_len, decode_string, Bool.false_eq_true, if_false,
      get_string_len_desc_loop_eq]
    cases decode_string_desc_loop p <;> rfl
  · simp only [get_string_len, decode_string, if_true, get_string_len_asc_loop_eq]
    cases decode_string_asc_loop p <;> rfl

theorem get_bytes_len_decode (p : List Nat) (asc : Bool) :
    get_bytes_len p asc = (decode_bytes p asc).map (fun dec => dec.2.1) := by
  cases asc
  · simp only [get_bytes_len, decode_bytes, Bool.false_eq_true, if_false,
      get_bytes_len_desc_loop_eq]
    cases decode_bytes_desc_loop p <;> rfl
  · simp only [get_bytes_len, decode_bytes, if_true, get_bytes_len_asc_loop_eq]
    cases decode_bytes_asc_loop p <;> rfl

theorem decode_string_length (p : List Nat) (asc : Bool) (dec : List Nat × Nat)
    (h : decode_string p asc = some dec) :
    dec.2 = dec.1.length % 2 ^ 32 ∧ dec.1.length ≤ p.length := by
  cases asc
  · simp only [decode_string, Bool.false_eq_true, if_false] at h
    cases hd : decode_string_desc_loop p with
    | none => simp [hd] at h
    | some out =>
      simp only [hd, Option.map_some', Option.some.injEq] at h
      subst h
      exact ⟨rfl, decode_string_desc_loop_length p out hd⟩
  · simp only [decode_string, if_true] at h
    cases hd : decode_string_asc_loop p with
    | none => simp [hd] at h
    | some out =>
      simp only [hd, Option.map_some', Option.some.injEq] at h
      subst h
      exact ⟨rfl, decode_string_asc_loop_length p out hd⟩

theorem decode_bytes_length (p : List Nat) (asc : Bool) (dec : List Nat × Nat × Nat)
    (h : decode_bytes p asc = .ok dec) :
    dec.2.1 = dec.1.length % 2 ^ 32 ∧ dec.1.length ≤ p.length := by
  cases asc
  · simp only [decode_bytes, Bool.false_eq_true, if_false] at h
    cases hd : decode_bytes_desc_loop p with
    | error e => simp [hd, Except.map] at h
    | ok o =>
      simp only [hd, Except.map, Except.ok.injEq] at h
      subst h
      exact ⟨rfl, decode_bytes_desc_loop_length p o hd⟩
  · simp only [decode_bytes, if_true] at h
    cases hd : decode_bytes_asc_loop p with
    | error e => simp [hd, Except.map] at h
    | ok o =>
      simp only [hd, Except.map, Except.ok.injEq] at h
      subst h
      exact ⟨rfl, decode_bytes_asc_loop_length p o hd⟩

theorem scratch_fits (r : EncodedRecord) (junk out : List Nat) (n : Nat) (hw : WorkingOk r)
    (h : out.length = n) :
    ∃ r1, (r.getWorkingBuf n (some junk)).storeWorking out = some r1 := by
  obtain ⟨hw1, ⟨buf, hb1, hb2⟩, _⟩ := getWorkingBuf_spec r n (some junk) hw rfl
  obtain ⟨r1, h1, _⟩ := storeWorking_spec _ out hw1 ⟨buf, hb1, by omega⟩
  exact ⟨r1, h1⟩

theorem encode_binary_asc_loop_of_ne (s : List Nat) (h : ∀ c ∈ s, c ≠ 0) :
    encode_binary_asc_loop s = s := by
  induction s with
  | nil => rfl
  | cons c s ih =>
    rw [encode_binary_asc_loop, if_neg (h c (by simp)), ih (fun x hx => h x (by simp [hx]))]

theorem decode_string_plain (s : List Nat) (h : ∀ c ∈ s, 0 < c) :
    decode_string (s ++ [0, 0]) true = some (s, s.length % 2 ^ 32) := by
  have hd := decode_string_asc_loop_spec s [] (noZeroPair_of_pos s h)
  simp only [decode_string, if_true, hd, Option.map_some']

theorem decode_bytes_plain (s : List Nat) (h : ∀ c ∈ s, 0 < c) :
    decode_bytes (s ++ [0, 0]) true = .ok (s, s.length % 2 ^ 32, s.length % 2 ^ 32) := by
  have hb := decode_bytes_asc_loop_spec s []
  rw [encode_binary_asc_loop_of_ne s (fun c hc => by have := h c hc; omega)] at hb
  simp only [decode_bytes, if_true, hb, Except.map]

/-- Claim C32, as stated, fails: on the 4 GiB of bytes 0x61 followed by
`00 00`, in direction asc, `get_string_len` returns 0 and `get_bytes_len`
returns 0, while `decode_string` and `decode_bytes` each write `2 ^ 32`
bytes (and report the length 0). -/
theorem scan_wraps_at_4GiB :
    get_string_len (List.replicate 4294967296 0x61 ++ [0, 0]) true = some 0
    ∧ decode_string (List.replicate 4294967296 0x61 ++ [0, 0]) true
        = some (List.replicate 4294967296 0x61, 0)
    ∧ get_bytes_len (List.replicate 4294967296 0x61 ++ [0, 0]) true = .ok 0
    ∧ decode_bytes (List.replicate 4294967296 0x61 ++ [0, 0]) true
        = .ok (List.replicate 4294967296 0x61, 0, 0)
    ∧ (List.replicate 4294967296 0x61).length = 4294967296 := by
  have hpos : ∀ c ∈ List.replicate 4294967296 0x61, 0 < c := by
    intro c hc
    rw [List.eq_of_mem_replicate hc]
    decide
  have hlen : (List.replicate 4294967296 0x61).length = 4294967296 := List.length_replicate _ _
  have hm : 4294967296 % 2 ^ 32 = 0 := by norm_num
  have hds := decode_string_plain _ hpos
  have hdb := decode_bytes_plain _ hpos
  rw [hlen, hm] at hds hdb
  refine ⟨?_, hds, ?_, hdb, hlen⟩
  · rw [get_string_len_decode, hds]
    rfl
  · rw [get_bytes_len_decode, hdb]
    rfl

/-- Claim C32, amended. For every input byte sequence and direction: when
`get_string_len` returns `n`, `decode_string` returns `n` too and the number
of bytes it writes is `n` modulo `2 ^ 32`; when `get_bytes_len` returns `n`,
`decode_bytes` does not abort, sets its length output to `n` and the number
of bytes it writes is `n` modulo `2 ^ 32`; either scan fails (aborts, or
reads beyond the block) exactly when its decoder fails the same way. When the
input block is shorter than `2 ^ 32` bytes the decoder writes exactly `n`
bytes, and the scratch buffer `getWorkingBuf(n)` provides (its `malloc`
succeeding) takes them without a store beyond its end. -/
theorem scan_agrees_with_decode (p : List Nat) (asc : Bool) (r : EncodedRecord)
    (junk : List Nat) :
    (∀ n, get_string_len p asc = some n →
      ∃ out, decode_string p asc = some (out, n) ∧ out.length % 2 ^ 32 = n
        ∧ (p.length < 2 ^ 32 → out.length = n
            ∧ (WorkingOk r →
                ∃ r1, (r.getWorkingBuf n (some junk)).storeWorking out = some r1)))
    ∧ (∀ n, get_bytes_len p asc = .ok n →
      ∃ out used, decode_bytes p asc = .ok (out, n, used) ∧ out.length % 2 ^ 32 = n
        ∧ (p.length < 2 ^ 32 → out.length = n
            ∧ (WorkingOk r →
                ∃ r1, (r.getWorkingBuf n (some junk)).storeWorking out = some r1)))
    ∧ (∀ f, get_bytes_len p asc = .error f ↔ decode_bytes p asc = .error f)
    ∧ (get_string_len p asc = none ↔ decode_string p asc = none) := by
  refine ⟨?_, ?_, ?_, ?_⟩
  · intro n h
    rw [get_string_len_decode] at h
    cases hd : decode_string p asc with
    | none => simp [hd] at h
    | some dec =>
      obtain ⟨out, m⟩ := dec
      simp only [hd, Option.map_some', Option.some.injEq] at h
      subst h
      have hl := decode_string_length p asc _ hd
      simp only at hl
      refine ⟨out, rfl, hl.1.symm, fun hp => ?_⟩
      have e : out.length = m := by omega
      exact ⟨e, fun hw => scratch_fits r junk out m hw e⟩
  · intro n h
    rw [get_bytes_len_decode] at h
    cases hd : decode_bytes p asc with
    | error e => simp [hd, Except.map] at h
    | ok dec =>
      obtain ⟨out, m, used⟩ := dec
      simp only [hd, Except.map, Except.ok.injEq] at h
      subst h
      have hl := decode_bytes_length p asc _ hd
      simp only at hl
      refine ⟨out, used, rfl, hl.1.symm, fun hp => ?_⟩
      have e : out.length = m := by omega
      exact ⟨e, fun hw => scratch_fits r junk out m hw e⟩
  · intro f
    rw [get_bytes_len_decode]
    cases decode_bytes p asc with
    | error e => simp [Except.map]
    | ok dec => simp [Except.map]
  · rw [get_string_len_decode]
    cases decode_string p asc <;> simp

theorem scan_agrees_with_decode_witness :
    (get_string_len [0x9E, 0xFF, 0x00, 0x9D, 0xFF, 0xFF, 0x07] false = some 4
      ∧ get_bytes_len [0x9E, 0xFF, 0x00, 0x9D, 0xFF, 0xFF, 0x07] false = .ok 3
      ∧ ([0x9E, 0xFF, 0x00, 0x9D, 0xFF, 0xFF, 0x07] : List Nat).length < 2 ^ 32
      ∧ WorkingOk EncodedRecord.empty)
    ∧ (∃ out, decode_string [0x9E, 0xFF, 0x00, 0x9D, 0xFF, 0xFF, 0x07] false = some (out, 4)
        ∧ out.length = 4
        ∧ ∃ r1, (EncodedRecord.empty.getWorkingBuf 4 (some [])).storeWorking out = some r1)
    ∧ (∃ out used,
        decode_bytes [0x9E, 0xFF, 0x00, 0x9D, 0xFF, 0xFF, 0x07] false = .ok (out, 3, used)
        ∧ out.length = 3
        ∧ ∃ r1, (EncodedRecord.empty.getWorkingBuf 3 (some [])).storeWorking out = some r1) :=
  have w := scan_agrees_with_decode [0x9E, 0xFF, 0x00, 0x9D, 0xFF, 0xFF, 0x07] false
    EncodedRecord.empty []
  have hw : WorkingOk EncodedRecord.empty := fun _ h => by simp [EncodedRecord.empty] at h
  ⟨⟨by decide, by decide, by decide, hw⟩,
    (w.1 4 (by decide)).imp
      (fun _ h => ⟨h.1, (h.2.2 (by decide)).1, (h.2.2 (by decide)).2 hw⟩),
    (w.2.1 3 (by decide)).imp
      (fun _ h => h.imp
        (fun _ g => ⟨g.1, (g.2.2 (by decide)).1, (g.2.2 (by decide)).2 hw⟩))⟩

end sope
